import Mathlib

/-!
# BitmapTextScrape: the text extractor `4_extract_TEXT/4_extract_Text.go`

A shallow embedding of the line decoder `bitmapToString` (source lines 170-392),
of the loader of the template library `loadFontBitmaps`, of `checkLine` and of
the loops of `main` (page decode, bulk paging, single-line scroll, trailing
comparison), followed by the properties proved about them.

Modelling conventions.

* A Go `string` is its sequence of bytes, a `List Nat` (`len` is the number of
  bytes, `s[i]` is a byte). `ascii` turns a Lean literal holding ASCII
  characters only into that byte sequence.
* Go `int` values that the program only ever holds non-negative (line number,
  widths, heights, offsets) are `Nat`, without wrap-around. The two option
  parameters are only compared with `1` and are `Int`.
* `uint8` and `uint32` values are `Nat`; where the source truncates
  (`uint8(ch)`) or can wrap (`uint64` counters) the `%` is explicit.
* A run-time panic (index out of range) is `Except.error`; so is running out of
  the fuel that bounds the scan loop, which in Go would not return.
* The loops of `main` are step functions over the replies of the outside world
  (captures, pointer position, interrupt flag); a stop with `os.Exit` and a
  panic are outcomes of their own.
* Messages written with `log.Printf` are not modelled.
-/

namespace BitmapTextScrape

/-! ## Data model -/

/-- Ways in which a call does not return a value. -/
inductive Fault where
  /-- A bounds-checked index expression panicked. -/
  | indexOutOfRange
  /-- The `unsafe.Pointer` cast read a 32-bit word whose first byte is inside
  the slice but whose last byte is not. -/
  | readPastEnd
  /-- The scan loop was still running when the fuel ran out. -/
  | outOfFuel
  deriving DecidableEq, Repr

deriving instance DecidableEq for Except

/-- The Go struct `conversionResult` (source lines 66-69). -/
structure conversionResult where
  index : Nat
  text : List Nat
  deriving DecidableEq, Repr

/-- The Go struct `bitmapSave` (source lines 80-85): `Character` is a `uint8`,
`Pixels` holds `uint32` values column by column. -/
structure bitmapSave where
  Character : Nat
  Width : Nat
  Height : Nat
  Pixels : List Nat
  deriving DecidableEq, Repr

/-- The shared state `bitmapToString` can reach: the package variable
`charCounts` (a `[256]uint64`), the used part `globalBitmaps[0:actualNofBitmaps]`
of the template library, and the bytes behind the slice `imageBytes`. -/
structure Memory where
  charCounts : Fin 256 → Nat
  globalBitmaps : List bitmapSave
  imageBytes : List Nat

/-- The first constant of source lines 87-94, `iota + 1`. -/
def conversionGood : Nat := 1

/-- The second constant of the same block. -/
def conversionErrorOnlyFourDividers : Nat := 2

/-- The third constant of the same block. -/
def conversionErrorUnknownPixel : Nat := 3

/-- The fourth constant of the same block. -/
def conversionErrorWrongNumberOfSections : Nat := 4

/-- The fifth constant of the same block. -/
def conversionErrorTimeFormatWrong : Nat := 5

/-- The sixth constant of the same block. -/
def conversionErrorBlankLine : Nat := 6

/-- The priority list `extractionList` of source lines 59-60, as byte values. -/
def extractionList : List Nat :=
  ['^'.toNat, '|'.toNat, '0'.toNat, '1'.toNat, '4'.toNat, '5'.toNat, '3'.toNat, '.'.toNat,
   ':'.toNat, '2'.toNat, '8'.toNat, '9'.toNat, '7'.toNat, '6'.toNat, ','.toNat, '%'.toNat,
   '+'.toNat, '-'.toNat]

/-! ## Go library functions used by the decoder -/

/-- The bytes of a literal made of ASCII characters. -/
def ascii (s : String) : List Nat := s.toList.map Char.toNat

/-- Go `strconv.Itoa` on a non-negative value: the decimal digits, as bytes. -/
def itoa (n : Nat) : List Nat := (Nat.toDigits 10 n).map Char.toNat

/-- Go `string(c)` for an integer `c` below 2048 (here a `uint8`): the UTF-8
encoding of the code point `c`, one byte below 128 and two bytes from 128 on. -/
def runeString (c : Nat) : List Nat :=
  if c < 128 then [c] else [192 + c / 64, 128 + c % 64]

/-- Put `c` in front of the first field of a split. -/
def consHead (c : Nat) : List (List Nat) → List (List Nat)
  | [] => [[c]]
  | p :: ps => (c :: p) :: ps

/-- Go `strings.Split(s, sep)` for a separator of one byte: the fields between
the separators, in order; the empty string gives one empty field. -/
def stringsSplit (sep : Nat) : List Nat → List (List Nat)
  | [] => [[]]
  | c :: cs => if c = sep then [] :: stringsSplit sep cs else consHead c (stringsSplit sep cs)

/-- True when `b` is a UTF-8 continuation byte. -/
def isCont (b : Nat) : Bool := decide (128 ≤ b) && decide (b < 192)

/-- Go `utf8.DecodeRuneInString`: the first rune of a non-empty string and the
number of bytes it takes; an invalid or truncated encoding gives `RuneError`
(65533) and one byte. -/
def decodeRune : List Nat → Nat × Nat
  | [] => (65533, 0)
  | b0 :: rest =>
    if b0 < 128 then (b0, 1)
    else if 194 ≤ b0 ∧ b0 < 224 then
      match rest with
      | b1 :: _ =>
        if isCont b1 then ((b0 % 32) * 64 + b1 % 64, 2) else (65533, 1)
      | _ => (65533, 1)
    else if 224 ≤ b0 ∧ b0 < 240 then
      match rest with
      | b1 :: b2 :: _ =>
        let lo := if b0 = 224 then 160 else 128
        let hi := if b0 = 237 then 160 else 192
        if lo ≤ b1 ∧ b1 < hi ∧ isCont b2 then
          ((b0 % 16) * 4096 + (b1 % 64) * 64 + b2 % 64, 3)
        else (65533, 1)
      | _ => (65533, 1)
    else if 240 ≤ b0 ∧ b0 < 245 then
      match rest with
      | b1 :: b2 :: b3 :: _ =>
        let lo := if b0 = 240 then 144 else 128
        let hi := if b0 = 244 then 144 else 192
        if lo ≤ b1 ∧ b1 < hi ∧ isCont b2 ∧ isCont b3 then
          ((b0 % 8) * 262144 + (b1 % 64) * 4096 + (b2 % 64) * 64 + b3 % 64, 4)
        else (65533, 1)
      | _ => (65533, 1)
    else (65533, 1)

/-- The runes a Go `for _, ch := range s` loop visits, in order. The first
argument bounds the number of iterations; `s.length` is always enough because
every rune takes at least one byte. -/
def rangeRunes : Nat → List Nat → List Nat
  | 0, _ => []
  | _, [] => []
  | n + 1, b :: bs =>
    let r := decodeRune (b :: bs)
    r.1 :: rangeRunes n ((b :: bs).drop r.2)

/-! ## Column extraction (source lines 181-208) -/

/-- The read `*(*uint32)(unsafe.Pointer(&imageBytes[yPos]))` on a little-endian
machine. `imageBytes[yPos]` is bounds-checked; the three bytes after it are
not, and a word that ends outside the slice is reported as a fault. -/
def readUint32 (imageBytes : List Nat) (yPos : Nat) : Except Fault Nat :=
  match imageBytes.get? yPos with
  | none => .error .indexOutOfRange
  | some b0 =>
    match imageBytes.get? (yPos + 1), imageBytes.get? (yPos + 2), imageBytes.get? (yPos + 3) with
    | some b1, some b2, some b3 => .ok (b0 + 256 * b1 + 65536 * b2 + 16777216 * b3)
    | _, _, _ => .error .readPastEnd

/-- The inner loop of lines 203-207: `rows` pixels of one column, going down one
row (`stride` bytes) at a time from `yPos`. -/
def extractColumn (imageBytes : List Nat) (stride : Nat) : Nat → Nat → Except Fault (List Nat)
  | 0, _ => .ok []
  | rows + 1, yPos =>
    match readUint32 imageBytes yPos with
    | .error e => .error e
    | .ok v =>
      match extractColumn imageBytes stride rows (yPos + stride) with
      | .error e => .error e
      | .ok rest => .ok (v :: rest)

/-- The outer loop of lines 200-208: the columns `x, x+1, ...` (`cols` of them),
each starting `yDownStart = 2` rows down and `maxFontHeight = 13` rows high,
written one after the other. -/
def extractLine (imageBytes : List Nat) (baseOffset stride : Nat) :
    Nat → Nat → Except Fault (List Nat)
  | 0, _ => .ok []
  | cols + 1, x =>
    match extractColumn imageBytes stride 13 (baseOffset + 2 * stride + x * 4) with
    | .error e => .error e
    | .ok column =>
      match extractLine imageBytes baseOffset stride cols (x + 1) with
      | .error e => .error e
      | .ok rest => .ok (column ++ rest)

/-- The array `lineAsUint32` after lines 184-208. -/
def lineAsUint32 (imageBytes : List Nat) (lineNumber lineWidth height : Nat) :
    Except Fault (List Nat) :=
  extractLine imageBytes (lineNumber * height * lineWidth * 4) (lineWidth * 4) lineWidth 0

/-! ## Template matching (source lines 229-343) -/

/-- One pass of the unrolled body of lines 255-319: `rows` comparisons of
`Pixels[fontOffset]` with `lineAsUint32[lineOffset]`, both advancing by one.
`some true` when all are equal, `some false` at the first difference
(`goto notSame`). -/
def compareRows (pixels cells : List Nat) : Nat → Nat → Nat → Except Fault Bool
  | 0, _, _ => .ok true
  | rows + 1, fontOffset, lineOffset =>
    match pixels.get? fontOffset with
    | none => .error .indexOutOfRange
    | some p =>
      match cells.get? lineOffset with
      | none => .error .indexOutOfRange
      | some l =>
        if p ≠ l then .ok false
        else compareRows pixels cells rows (fontOffset + 1) (lineOffset + 1)

/-- The loop `for w1 := 0; w1 < w; w1++` of lines 251-320 with its body unrolled
13 times. -/
def compareColumns (pixels cells : List Nat) : Nat → Nat → Nat → Except Fault Bool
  | 0, _, _ => .ok true
  | w + 1, fontOffset, lineOffset =>
    match compareRows pixels cells 13 fontOffset lineOffset with
    | .error e => .error e
    | .ok false => .ok false
    | .ok true => compareColumns pixels cells w (fontOffset + 13) (lineOffset + 13)

/-- The number of columns compared for a template (lines 234-240). -/
def compareWidth (b : bitmapSave) (priorKnowledgeSpeedup : Int) : Nat :=
  if priorKnowledgeSpeedup = 1 then (if b.Width > 4 then 4 else b.Width) else b.Width

/-- The loop over the library of lines 231-335 at one column offset: the first
template that fits and matches, if any. -/
def findBitmap (cells : List Nat) (nofColumnsExtracted columnOffsetIntoLine : Nat)
    (priorKnowledgeSpeedup : Int) : List bitmapSave → Except Fault (Option bitmapSave)
  | [] => .ok none
  | b :: rest =>
    if b.Width + columnOffsetIntoLine ≤ nofColumnsExtracted then
      match compareColumns b.Pixels cells (compareWidth b priorKnowledgeSpeedup) 0
          (columnOffsetIntoLine * 13) with
      | .error e => .error e
      | .ok true => .ok (some b)
      | .ok false =>
        findBitmap cells nofColumnsExtracted columnOffsetIntoLine priorKnowledgeSpeedup rest
    else findBitmap cells nofColumnsExtracted columnOffsetIntoLine priorKnowledgeSpeedup rest

/-- The scan loop of lines 229-343, from the state
`(columnOffsetIntoLine, lineText, xCount)`; one unit of fuel per iteration. The
result is the final `lineText` and `xCount`. -/
def scanLine (globalBitmaps : List bitmapSave) (cells : List Nat) (nofColumnsExtracted : Nat)
    (priorKnowledgeSpeedup gatherCharacterCounts : Int) :
    Nat → Nat → List Nat → Nat → Except Fault (List Nat × Nat)
  | fuel, columnOffsetIntoLine, lineText, xCount =>
    if columnOffsetIntoLine < nofColumnsExtracted then
      match fuel with
      | 0 => .error .outOfFuel
      | fuel + 1 =>
        match findBitmap cells nofColumnsExtracted columnOffsetIntoLine priorKnowledgeSpeedup
            globalBitmaps with
        | .error e => .error e
        | .ok (some b) =>
          scanLine globalBitmaps cells nofColumnsExtracted priorKnowledgeSpeedup
            gatherCharacterCounts fuel (columnOffsetIntoLine + b.Width)
            (if b.Character ≠ '^'.toNat then lineText ++ runeString b.Character else lineText)
            (if b.Character ≠ '^'.toNat then xCount
             else if gatherCharacterCounts = 1 then xCount + 1 else xCount)
        | .ok none =>
          scanLine globalBitmaps cells nofColumnsExtracted priorKnowledgeSpeedup
            gatherCharacterCounts fuel (columnOffsetIntoLine + 1) lineText xCount
    else .ok (lineText, xCount)

/-- Lines 181-343 together: the recognized text `lineText` and the count
`xCount` of ignored glyphs, when the extraction and the scan complete. -/
def recognize (fuel : Nat) (m : Memory) (lineNumber lineWidth height : Nat)
    (priorKnowledgeSpeedup gatherCharacterCounts : Int) : Except Fault (List Nat × Nat) :=
  match lineAsUint32 m.imageBytes lineNumber lineWidth height with
  | .error e => .error e
  | .ok cells =>
    scanLine m.globalBitmaps cells lineWidth priorKnowledgeSpeedup gatherCharacterCounts
      fuel 0 [] 0

/-! ## Character counts (source lines 344-353) -/

/-- The statement `charCounts[uint8(ch)]++` on a `[256]uint64`. -/
def bump (charCounts : Fin 256 → Nat) (ch : Nat) (by_ : Nat) : Fin 256 → Nat :=
  fun i => if i.val = ch % 256 then (charCounts i + by_) % 2 ^ 64 else charCounts i

/-- The block of lines 346-351: one increment per rune of `lineText`, then
`xCount` more for the ignore glyph. -/
def tally (charCounts : Fin 256 → Nat) (lineText : List Nat) (xCount : Nat) : Fin 256 → Nat :=
  bump ((rangeRunes lineText.length lineText).foldl (fun cc ch => bump cc ch 1) charCounts)
    '^'.toNat xCount

/-! ## Validation (source lines 354-391) -/

/-- The field `text` set by lines 354-389 from `lineText`; `parts[0][2]` and
`parts[0][5]` are bounds-checked byte reads, evaluated left to right with the
short circuit of `||`. -/
def validateLine (lineNumber : Nat) (lineText : List Nat) : Except Fault conversionResult :=
  if lineText.length > 0 then
    if lineText = ascii "||||" then
      .ok ⟨lineNumber, ascii "error:" ++ itoa conversionErrorOnlyFourDividers ++ ascii ":"⟩
    else
      let parts := stringsSplit '|'.toNat lineText
      if parts.length ≠ 5 then
        .ok ⟨lineNumber, ascii "error:" ++ itoa conversionErrorWrongNumberOfSections
          ++ ascii ":field count " ++ itoa parts.length⟩
      else
        let timeError : conversionResult :=
          ⟨lineNumber, ascii "error:" ++ itoa conversionErrorTimeFormatWrong ++ ascii ":"⟩
        match (parts.getD 0 []).get? 2 with
        | none => .error .indexOutOfRange
        | some c2 =>
          if c2 ≠ ':'.toNat then .ok timeError
          else
            match (parts.getD 0 []).get? 5 with
            | none => .error .indexOutOfRange
            | some c5 =>
              if c5 ≠ ':'.toNat then .ok timeError
              else
                .ok ⟨lineNumber, parts.getD 0 [] ++ ascii "," ++ parts.getD 1 [] ++ ascii ","
                  ++ parts.getD 2 [] ++ ascii "," ++ parts.getD 3 [] ++ ascii ","
                  ++ parts.getD 4 []⟩
  else
    .ok ⟨lineNumber, ascii "error:" ++ itoa conversionErrorBlankLine ++ ascii ":"⟩

/-! ## The decoder -/

/-- The function `bitmapToString` (source lines 170-392). The first component is
the returned `conversionResult`, or the fault that stopped the call; the second
is the shared state when the call ends. -/
def bitmapToString (fuel : Nat) (m : Memory) (lineNumber lineWidth height : Nat)
    (priorKnowledgeSpeedup gatherCharacterCounts : Int) :
    Except Fault conversionResult × Memory :=
  match recognize fuel m lineNumber lineWidth height priorKnowledgeSpeedup
      gatherCharacterCounts with
  | .error e => (.error e, m)
  | .ok (lineText, xCount) =>
    let m1 : Memory :=
      if gatherCharacterCounts = 1 then
        if lineText.length > 15 then { m with charCounts := tally m.charCounts lineText xCount }
        else m
      else m
    (validateLine lineNumber lineText, m1)

/-! ## Page decode (source lines 899-936 and 1026-1056) -/

/-- The value a worker goroutine sends on `allConvertedTextChan` (lines 914-924
and 1036-1044): the result of `bitmapToString` for the line `lineToConvert` of
the page in `m.imageBytes`. The workers run concurrently and share
`charCounts`; `counts lineToConvert` stands for the contents the worker finds. -/
def workerResult (fuel : Nat) (m : Memory) (counts : Nat → Fin 256 → Nat)
    (lineWidth height : Nat) (priorKnowledgeSpeedup gatherCharacterCounts : Int)
    (lineToConvert : Nat) : Except Fault conversionResult :=
  (bitmapToString fuel { m with charCounts := counts lineToConvert } lineToConvert lineWidth
    height priorKnowledgeSpeedup gatherCharacterCounts).1

/-- The values received from the channel when the workers complete in the order
`order`; a worker that panics stops the program. -/
def arrivals (worker : Nat → Except Fault conversionResult) :
    List Nat → Except Fault (List conversionResult)
  | [] => .ok []
  | lineToConvert :: rest =>
    match worker lineToConvert with
    | .error e => .error e
    | .ok convertedLine =>
      match arrivals worker rest with
      | .error e => .error e
      | .ok others => .ok (convertedLine :: others)

/-- The statement `textResult[convertedLine.index] = convertedLine` of lines 935
and 1055. -/
def storeResult (textResult : List conversionResult) (convertedLine : conversionResult) :
    Except Fault (List conversionResult) :=
  if convertedLine.index < textResult.length then
    .ok (textResult.set convertedLine.index convertedLine)
  else .error .indexOutOfRange

/-- The loop `for convertedLine := range allConvertedTextChan` of lines 934-936
and 1054-1056: every received value is stored at its own index. -/
def collectResults :
    List conversionResult → List conversionResult → Except Fault (List conversionResult)
  | textResult, [] => .ok textResult
  | textResult, convertedLine :: rest =>
    match storeResult textResult convertedLine with
    | .error e => .error e
    | .ok stored => collectResults stored rest

/-- One page decode: the workers for the lines of `order` (a permutation of
`0 .. linesShown-1`, the order in which they complete) and the collecting loop,
starting from the slice `textResult` left by the previous page. -/
def decodePage (worker : Nat → Except Fault conversionResult)
    (textResult : List conversionResult) (order : List Nat) :
    Except Fault (List conversionResult) :=
  match arrivals worker order with
  | .error e => .error e
  | .ok received => collectResults textResult received

/-! ## Loading the template library (source lines 403-698)

`loadFontBitmaps` is modelled from the point where the description file has been
read and parsed: its input is the decoded list `results` and the font files the
descriptions name. -/

/-- A JSON number decoded into a `float64`: the exact value `num / den`. Every
finite `float64` is such a fraction. -/
structure float64 where
  num : Int
  den : Nat
  den_pos : 0 < den
  deriving DecidableEq

/-- The comparison `v < k` of a `float64` with a whole constant. -/
def float64.below (v : float64) (k : Int) : Prop := v.num < k * v.den

/-- The comparison `v > k` of a `float64` with a whole constant. -/
def float64.above (v : float64) (k : Int) : Prop := k * v.den < v.num

instance (v : float64) (k : Int) : Decidable (v.below k) :=
  inferInstanceAs (Decidable (v.num < k * v.den))

instance (v : float64) (k : Int) : Decidable (v.above k) :=
  inferInstanceAs (Decidable (k * v.den < v.num))

/-- The conversion `int(v)`: the fraction is cut off towards zero. -/
def float64.toInt (v : float64) : Int := v.num.tdiv v.den

/-- What a key of a decoded JSON object holds, as far as the type switches of
`loadFontBitmaps` tell apart: nothing (the key is missing), a string, a number,
or a value of another kind. -/
inductive jsonValue where
  | absent
  | str (s : List Nat)
  | number (v : float64)
  | other
  deriving DecidableEq

/-- One element of `results`: the six keys that `loadFontBitmaps` reads. -/
structure fontEntry where
  Character : jsonValue
  FileName : jsonValue
  Width : jsonValue
  Height : jsonValue
  XOffset : jsonValue
  YOffset : jsonValue
  deriving DecidableEq

/-- The Go struct `bitmapSourceInfo` (source lines 71-78). -/
structure bitmapSourceInfo where
  Character : List Nat
  Width : Nat
  Height : Nat
  XOffset : Nat
  YOffset : Nat
  FileName : List Nat
  deriving DecidableEq

/-- The part of an `image.NRGBA` that the loader reads: the bytes `Pix`, the
`Stride` and `Bounds().Max.X`. -/
structure pictureNRGBA where
  Pix : List Nat
  Stride : Nat
  MaxX : Nat
  deriving DecidableEq

/-- What the loader finds under a file name (lines 576-603): no regular file, a
file it cannot open, a file that is not a PNG, a PNG that is not in NRGBA
format, or an NRGBA picture. -/
inductive fontFile where
  | missing
  | unreadable
  | undecodable
  | notNRGBA
  | nrgba (picture : pictureNRGBA)
  deriving DecidableEq

/-- How a call of `loadFontBitmaps` ends: `nil` with the library
`globalBitmaps[0:actualNofBitmaps]` set, one of the two errors it returns, or a
run-time panic. -/
inductive loadOutcome where
  | loaded (globalBitmaps : List bitmapSave)
  | fontDataError
  | codeSetupError
  | panic
  deriving DecidableEq

/-- The capacity of the array `globalBitmaps` (source line 64). -/
def globalNofBitmaps : Nat := 200

/-- The type switch and range test applied to `Width`, `Height`, `XOffset` and
`YOffset` (lines 486-555): the whole part of a number between `lo` and `hi`,
nothing (the load fails) for any other value. -/
def intField (value : jsonValue) (lo hi : Int) : Option Nat :=
  match value with
  | .number v => if v.below lo ∨ v.above hi then none else some v.toInt.toNat
  | _ => none

/-- What the body of the first loop (lines 431-558) does with one entry. -/
inductive entryResult where
  | reject
  | skip
  | keep (n : bitmapSourceInfo)
  deriving DecidableEq

/-- The body of the first loop (lines 443-557) for one entry: `reject` is a
return of the font data error, `skip` the `continue` of line 474. -/
def validateEntry (result : fontEntry) : entryResult :=
  match result.Character with
  | .str c =>
    if c.length > 1 then .reject
    else
      match result.FileName with
      | .str f =>
        if f.length = 0 then .reject
        else if f = ascii "?" then .skip
        else
          match intField result.Width 1 30 with
          | none => .reject
          | some width =>
            match intField result.Height 1 40 with
            | none => .reject
            | some height =>
              match intField result.XOffset 0 4000 with
              | none => .reject
              | some xOffset =>
                match intField result.YOffset 0 3000 with
                | none => .reject
                | some yOffset => .keep ⟨c, width, height, xOffset, yOffset, f⟩
      | _ => .reject
  | _ => .reject

/-- The first loop (lines 431-558): the slice `allFontsSource`, or nothing when
an entry is rejected. -/
def validateAll : List fontEntry → Option (List bitmapSourceInfo)
  | [] => some []
  | result :: rest =>
    match validateEntry result with
    | .reject => none
    | .skip => validateAll rest
    | .keep n =>
      match validateAll rest with
      | none => none
      | some others => some (n :: others)

/-- The statements of lines 653-658: the three low bytes of the word read from
the picture, put back together in the opposite order. -/
def packPixel (sourcePix : Nat) : Nat :=
  let b := sourcePix &&& 255
  let g := (sourcePix >>> 8) &&& 255
  let r := (sourcePix >>> 16) &&& 255
  (b <<< 16) ||| (g <<< 8) ||| r

/-- The inner loop of lines 648-662: `rows` pixels of one column of the picture,
going down one row at a time from `yPos`. -/
def templateColumn (pix : List Nat) (stride : Nat) : Nat → Nat → Except Fault (List Nat)
  | 0, _ => .ok []
  | rows + 1, yPos =>
    match readUint32 pix yPos with
    | .error e => .error e
    | .ok sourcePix =>
      match templateColumn pix stride rows (yPos + stride) with
      | .error e => .error e
      | .ok rest => .ok (packPixel sourcePix :: rest)

/-- The outer loop of lines 646-663: the columns `x, x+1, ...` (`cols` of them),
each `height` rows high from the row `yOffset`, written one after the other. -/
def templateColumns (pix : List Nat) (stride height yOffset : Nat) :
    Nat → Nat → Except Fault (List Nat)
  | 0, _ => .ok []
  | cols + 1, x =>
    match templateColumn pix stride height (yOffset * stride + x * 4) with
    | .error e => .error e
    | .ok column =>
      match templateColumns pix stride height yOffset cols (x + 1) with
      | .error e => .error e
      | .ok rest => .ok (column ++ rest)

/-- The slice `extractedPixels` of lines 637-663 for one description. -/
def extractPixels (picture : pictureNRGBA) (n : bitmapSourceInfo) : Except Fault (List Nat) :=
  templateColumns picture.Pix picture.Stride n.Height n.YOffset n.Width n.XOffset

/-- The body of the second loop (lines 569-665) for one description.
`Character[0]` is read first and panics on the empty string. -/
def extractBitmap (files : List Nat → fontFile) (n : bitmapSourceInfo) :
    Except loadOutcome bitmapSave :=
  match n.Character.get? 0 with
  | none => .error .panic
  | some character =>
    match files n.FileName with
    | .nrgba picture =>
      if picture.Stride ≠ picture.MaxX * 4 then .error .fontDataError
      else
        match extractPixels picture n with
        | .error _ => .error .panic
        | .ok extractedPixels => .ok ⟨character, n.Width, n.Height, extractedPixels⟩
    | _ => .error .fontDataError

/-- The second loop (lines 568-666): the slice `extractedBitmaps`, in the order
of the descriptions. -/
def extractAll (files : List Nat → fontFile) :
    List bitmapSourceInfo → Except loadOutcome (List bitmapSave)
  | [] => .ok []
  | n :: rest =>
    match extractBitmap files n with
    | .error e => .error e
    | .ok b =>
      match extractAll files rest with
      | .error e => .error e
      | .ok others => .ok (b :: others)

/-- The zero value of `bitmapSave`, which `make` fills `prioritizedBitmaps`
with (line 673). -/
def zeroBitmap : bitmapSave := ⟨0, 0, 0, []⟩

/-- The inner loop of lines 678-683 for one character `v` of the priority list,
on the state `(prioritizedBitmaps, destination)`. -/
def prioritizeCharacter (v : Nat) :
    List bitmapSave → List bitmapSave × Nat → Except Fault (List bitmapSave × Nat)
  | [], state => .ok state
  | b :: rest, (prioritizedBitmaps, destination) =>
    if b.Character = v then
      if destination < prioritizedBitmaps.length then
        prioritizeCharacter v rest (prioritizedBitmaps.set destination b, destination + 1)
      else .error .indexOutOfRange
    else prioritizeCharacter v rest (prioritizedBitmaps, destination)

/-- The outer loop of lines 677-684 over the priority list. -/
def prioritize (extractedBitmaps : List bitmapSave) :
    List Nat → List bitmapSave × Nat → Except Fault (List bitmapSave × Nat)
  | [], state => .ok state
  | v :: rest, state =>
    match prioritizeCharacter v extractedBitmaps state with
    | .error e => .error e
    | .ok state1 => prioritize extractedBitmaps rest state1

/-- The function `loadFontBitmaps` (source lines 403-698) after the description
file has been parsed into `results`. The slice `prioritizedBitmaps` starts as
`nofBitmaps` zero values; on success the library is all of it. -/
def loadFontBitmaps (results : List fontEntry) (files : List Nat → fontFile) : loadOutcome :=
  match validateAll results with
  | none => .fontDataError
  | some allFontsSource =>
    match extractAll files allFontsSource with
    | .error e => e
    | .ok extractedBitmaps =>
      let nofBitmaps := allFontsSource.length
      match prioritize extractedBitmaps extractionList
          (List.replicate nofBitmaps zeroBitmap, 0) with
      | .error _ => .panic
      | .ok (prioritizedBitmaps, _) =>
        if nofBitmaps > globalNofBitmaps then .codeSetupError
        else .loaded prioritizedBitmaps

/-! ## Checking a decoded line (source lines 750-773) -/

/-- How a piece of `main` that can stop the program ends: with a value, with
`os.Exit(code)`, or with a run-time panic. -/
inductive Outcome (α : Type) where
  | ok (a : α)
  | exit (code : Nat)
  | panic
  deriving DecidableEq

/-- The value of a string of decimal digits, nothing for the empty string or a
string with another byte. -/
def digitsValue : List Nat → Option Nat
  | [] => none
  | s => s.foldl (fun acc c =>
      match acc with
      | none => none
      | some n => if '0'.toNat ≤ c ∧ c ≤ '9'.toNat then some (n * 10 + (c - '0'.toNat)) else none)
      (some 0)

/-- Go `strconv.Atoi`: an optional sign and decimal digits, within the range of
a 64-bit `int`; nothing when it returns an error. -/
def atoi (s : List Nat) : Option Int :=
  match s with
  | [] => none
  | c :: rest =>
    if c = '-'.toNat then
      match digitsValue rest with
      | some n => if n ≤ 2 ^ 63 then some (-(n : Int)) else none
      | none => none
    else if c = '+'.toNat then
      match digitsValue rest with
      | some n => if n < 2 ^ 63 then some (n : Int) else none
      | none => none
    else
      match digitsValue (c :: rest) with
      | some n => if n < 2 ^ 63 then some (n : Int) else none
      | none => none

/-- The function `checkLine` (source lines 750-773). The slice expression
`textResult[0:5]` panics on a text shorter than 5 bytes. -/
def checkLine (textResult : List Nat) : Outcome Int :=
  if textResult.length < 5 then .panic
  else if textResult.take 5 = ascii "error" then
    let parts := stringsSplit ':'.toNat textResult
    if parts.length < 2 then .exit 1
    else
      match atoi (parts.getD 1 []) with
      | none => .exit 2
      | some num => .ok num
  else .ok conversionGood

/-! ## The bulk paging loop (source lines 979-1114) -/

/-- The variables of `main` that the paging loops read and write. -/
structure pagingState where
  lastxImg : List Nat
  sameCount : Nat
  totalPartialCount : Nat
  allLines : List (List Nat)
  pageNumber : Nat
  delayForPages : Nat
  nofGrabs : Nat
  deriving DecidableEq

/-- How one pass through the body of a paging loop ends: at the end of the body
(the loop goes round again), with `break`, with `os.Exit(code)`, or with a
panic; each with the variables at that moment. -/
inductive loopFlow where
  | next (s : pagingState)
  | leave (s : pagingState)
  | exit (code : Nat) (s : pagingState)
  | panic (s : pagingState)
  deriving DecidableEq

/-- The variables a flow ends with. -/
def loopFlow.state : loopFlow → pagingState
  | .next s => s
  | .leave s => s
  | .exit _ s => s
  | .panic s => s

/-- What the outside world supplies during one pass through the bulk paging
loop: the reply to the capture of line 980 and to the capture of line 1013
(nothing when `GetImage` fails; the second is only asked for when the first
differs from the reference), the pointer position and the interrupt flag read at
lines 1107-1108. -/
structure bulkInput where
  newxImg : Option (List Nat)
  new2xImg : Option (List Nat)
  mX : Int
  ctrlC : Bool
  deriving DecidableEq

/-- The loop of lines 1060-1070 (and 940-952 with another exit code): the text
of every entry of `textResult`, in index order, is appended to `allLines` when
`checkLine` finds it good; the first other entry stops the program. -/
def appendPage (exitCode : Nat) : List conversionResult → pagingState → loopFlow
  | [], s => .next s
  | convertedResult :: rest, s =>
    match checkLine convertedResult.text with
    | .panic => .panic s
    | .exit code => .exit code s
    | .ok num =>
      if num = conversionGood then
        appendPage exitCode rest { s with allLines := s.allLines ++ [convertedResult.text] }
      else .exit exitCode s

/-- The back-off of lines 1082-1097 on `totalPartialCount` and
`delayForPages`. -/
def backOff (s : pagingState) : pagingState :=
  if s.totalPartialCount > 40 then
    { s with delayForPages := s.delayForPages + 40,
             totalPartialCount := s.totalPartialCount - 1 }
  else if s.totalPartialCount > 30 then
    { s with delayForPages := s.delayForPages + 30,
             totalPartialCount := s.totalPartialCount - 1 }
  else if s.totalPartialCount > 20 then
    { s with delayForPages := s.delayForPages + 20,
             totalPartialCount := s.totalPartialCount - 1 }
  else if s.totalPartialCount > 10 then
    { s with delayForPages := s.delayForPages + 10 }
  else s

/-- The end of the loop body, lines 1104-1113: the delay and the test for the
user's exit. -/
def bulkTail (s : pagingState) (mX : Int) (ctrlC : Bool) : loopFlow :=
  if mX < 50 ∨ ctrlC = true then .exit 12 { s with delayForPages := s.delayForPages + 10 }
  else .next { s with delayForPages := s.delayForPages + 10 }

/-- One pass through the body of the bulk paging loop (lines 980-1113).
`decodePage` is the page decode of lines 1026-1056 as a function of the capture:
the slice `textResult` it leaves, or the panic of a worker. -/
def bulkStep (decodePage : List Nat → Except Fault (List conversionResult))
    (s : pagingState) (input : bulkInput) : loopFlow :=
  match input.newxImg with
  | none => .exit 9 s
  | some newxImg =>
    let s1 := { s with nofGrabs := s.nofGrabs + 1 }
    if s1.lastxImg = newxImg then
      let s2 := { s1 with sameCount := s1.sameCount + 1 }
      if s2.sameCount > 25 then .leave s2
      else bulkTail s2 input.mX input.ctrlC
    else
      let s2 := { s1 with delayForPages := s1.delayForPages + 40 }
      match input.new2xImg with
      | none => .exit 10 s2
      | some new2xImg =>
        let s3 := { s2 with nofGrabs := s2.nofGrabs + 1 }
        if new2xImg = newxImg then
          let s4 := { s3 with lastxImg := newxImg }
          match decodePage newxImg with
          | .error _ => .panic s4
          | .ok textResult =>
            match appendPage 11 textResult s4 with
            | .next s5 =>
              let s6 := { s5 with sameCount := 0, pageNumber := s5.pageNumber + 1,
                                  delayForPages := s5.delayForPages + 10 }
              bulkTail (backOff s6) input.mX input.ctrlC
            | flow => flow
        else
          bulkTail { s3 with totalPartialCount := s3.totalPartialCount + 1 } input.mX
            input.ctrlC

/-- The bulk paging loop on the inputs of its successive passes: it stops at
the first pass that does not end at the end of the body. -/
def bulkRun (decodePage : List Nat → Except Fault (List conversionResult)) :
    pagingState → List bulkInput → loopFlow
  | s, [] => .next s
  | s, input :: rest =>
    match bulkStep decodePage s input with
    | .next s1 => bulkRun decodePage s1 rest
    | flow => flow

/-! ## The trailing comparison (source lines 1299-1310) -/

/-- How the comparison of the trailing lines ends: all compared lines agree, the
line `line` (counted from 1) differs and the program stops with `os.Exit(23)`,
or an index is out of range. -/
inductive verifyResult where
  | passed
  | drift (line : Nat)
  | panic
  deriving DecidableEq

/-- The loop of lines 1301-1310 from the index `i`, with `remaining` passes to
go. -/
def verifyFrom (lastLines allLinesReverse : List (List Nat)) : Nat → Nat → verifyResult
  | 0, _ => .passed
  | remaining + 1, i =>
    match lastLines.get? i with
    | none => .panic
    | some a =>
      match allLinesReverse.get? i with
      | none => .panic
      | some b =>
        if a ≠ b then .drift (i + 1)
        else verifyFrom lastLines allLinesReverse remaining (i + 1)

/-- The trailing comparison of lines 1301-1310. -/
def verifyLastLines (lastLines allLinesReverse : List (List Nat)) (totalLastLines : Nat) :
    verifyResult :=
  verifyFrom lastLines allLinesReverse totalLastLines 0

/-! ## The comparison loop that the unrolled body replaces (source lines 242-248) -/

/-- The loop left as a comment at lines 242-248, which the unrolled body of
lines 250-320 replaces: `fontLength` comparisons of `Pixels[fontOffset]` with
`lineAsUint32[lineOffset]`, both advancing by one, `false` at the first
difference (`bitmapSame = false; break`). -/
def compareGeneric (pixels cells : List Nat) : Nat → Nat → Nat → Except Fault Bool
  | 0, _, _ => .ok true
  | fontLength + 1, fontOffset, lineOffset =>
    match pixels.get? fontOffset with
    | none => .error .indexOutOfRange
    | some p =>
      match cells.get? lineOffset with
      | none => .error .indexOutOfRange
      | some l =>
        if p ≠ l then .ok false
        else compareGeneric pixels cells fontLength (fontOffset + 1) (lineOffset + 1)

/-! ## The single-line scroll loop (source lines 1128-1231) -/

/-- What the outside world supplies during one pass through the single-line
scroll loop: the reply to the capture of the page (line 1137), to the first
capture of the last line (line 1153), to the five captures after it (line 1162,
by the value of the loop variable `m`); nothing when `GetImage` fails. Then the
pointer position and the interrupt flag read at lines 1222-1223. -/
structure singleInput where
  newxImg : Option (List Nat)
  oneLinexImg : Option (List Nat)
  oneLinexImg2 : Nat → Option (List Nat)
  mX : Int
  ctrlC : Bool

/-- The loop `for m := 0; m < 5; m++` of lines 1160-1172 from the value `m` of
its variable, with `remaining` passes to go: the value of `linesSame` after it,
or the stop of line 1166 when a capture fails. -/
def resample (oneLinexImg : List Nat) (oneLinexImg2 : Nat → Option (List Nat)) :
    Nat → Nat → Nat → Outcome Nat
  | 0, _, linesSame => .ok linesSame
  | remaining + 1, m, linesSame =>
    match oneLinexImg2 m with
    | none => .exit 15
    | some img2 =>
      resample oneLinexImg oneLinexImg2 remaining (m + 1)
        (if oneLinexImg = img2 then linesSame + 1 else linesSame)

/-- The end of the loop body, lines 1222-1229: the test for the user's exit. -/
def singleTail (s : pagingState) (mX : Int) (ctrlC : Bool) : loopFlow :=
  if mX < 50 ∨ ctrlC = true then .exit 18 s else .next s

/-- One pass through the body of the single-line scroll loop (lines 1129-1229).
`decodeLine` is the call of `bitmapToString` at line 1179 as a function of the
capture of the last line. -/
def singleStep (decodeLine : List Nat → Except Fault conversionResult) (topWidth : Nat)
    (s : pagingState) (input : singleInput) : loopFlow :=
  match input.newxImg with
  | none => .exit 13 s
  | some newxImg =>
    if s.lastxImg = newxImg then
      if s.sameCount > 15 then .leave s
      else singleTail { s with sameCount := s.sameCount + 1 } input.mX input.ctrlC
    else
      match input.oneLinexImg with
      | none => .exit 14 s
      | some oneLinexImg =>
        match resample oneLinexImg input.oneLinexImg2 5 0 0 with
        | .exit code => .exit code s
        | .panic => .panic s
        | .ok linesSame =>
          if linesSame = 5 then
            let s1 := { s with sameCount := 0, lastxImg := newxImg }
            match decodeLine oneLinexImg with
            | .error _ => .panic s1
            | .ok convertedResult =>
              match checkLine convertedResult.text with
              | .panic => .panic s1
              | .exit code => .exit code s1
              | .ok checkResult =>
                if checkResult ≠ conversionGood then .exit 16 s1
                else
                  let s2 := { s1 with allLines := s1.allLines ++ [convertedResult.text] }
                  match readUint32 oneLinexImg (((3 * topWidth) + 100) * 4) with
                  | .error _ => .panic s2
                  | .ok pixColour =>
                    if pixColour &&& 0xFFFFFF = 0 then .exit 17 s2
                    else
                      singleTail { s2 with pageNumber := s2.pageNumber + 1 } input.mX
                        input.ctrlC
          else singleTail { s with sameCount := s.sameCount + 1 } input.mX input.ctrlC

/-! ## The trailing lines and the output in file order (source lines 1235-1310) -/

/-- The constant `linesShown` of source line 877. -/
def linesShown : Nat := 50

/-- The variables `lastLines` and `totalLastLines` of lines 1235-1236. -/
structure trailingState where
  lastLines : List (List Nat)
  totalLastLines : Nat
  deriving DecidableEq

/-- The body of the loop of lines 1247-1268 for one line: the capture (nothing
when `GetImage` fails), its decoding, the check, the append and the count. -/
def sampleLine (decodeLine : List Nat → Except Fault conversionResult) (s : trailingState)
    (oneLinexImg : Option (List Nat)) : Outcome trailingState :=
  match oneLinexImg with
  | none => .exit 19
  | some img =>
    match decodeLine img with
    | .error _ => .panic
    | .ok convertedResult =>
      match checkLine convertedResult.text with
      | .panic => .panic
      | .exit code => .exit code
      | .ok num =>
        if num = conversionGood then
          .ok ⟨s.lastLines ++ [convertedResult.text], s.totalLastLines + 1⟩
        else .exit 20

/-- The loop `for lineNum := linesShown - 1; lineNum >= 0; lineNum--` of lines
1247-1268, with `lineNum + 1` passes to go; `captures lineNum` is the reply to
the capture of the line `lineNum`. -/
def samplePage (decodeLine : List Nat → Except Fault conversionResult)
    (captures : Nat → Option (List Nat)) : Nat → trailingState → Outcome trailingState
  | 0, s => .ok s
  | lineNum + 1, s =>
    match sampleLine decodeLine s (captures lineNum) with
    | .ok s1 => samplePage decodeLine captures lineNum s1
    | .exit code => .exit code
    | .panic => .panic

/-- The loop `for nofLastPagesToCheck > 0` of lines 1243-1278; `captures n` holds
the replies while `nofLastPagesToCheck` is `n`. -/
def sampleLastPages (decodeLine : List Nat → Except Fault conversionResult)
    (captures : Nat → Nat → Option (List Nat)) : Nat → trailingState → Outcome trailingState
  | 0, s => .ok s
  | nofLastPagesToCheck + 1, s =>
    match samplePage decodeLine (captures (nofLastPagesToCheck + 1)) linesShown s with
    | .ok s1 => sampleLastPages decodeLine captures nofLastPagesToCheck s1
    | .exit code => .exit code
    | .panic => .panic

/-- The initial value of `nofLastPagesToCheck` (lines 1238-1241). -/
def nofLastPages (CheckLastButOnePage : Int) : Nat :=
  if CheckLastButOnePage = 1 then 2 else 1

/-- A loop `for i := n - 1; i >= 0; i-- { out = append(out, lines[i]) }`, with
`i + 1` passes to go. -/
def appendReversed (lines : List (List Nat)) :
    Nat → List (List Nat) → Except Fault (List (List Nat))
  | 0, out => .ok out
  | i + 1, out =>
    match lines.get? i with
    | none => .error .indexOutOfRange
    | some l => appendReversed lines i (out ++ [l])

/-- The slice `allLinesReverse` after the loop of lines 1287-1292 of the
extractor; it is empty before (source line 98). -/
def reverseLines (allLines : List (List Nat)) : Except Fault (List (List Nat)) :=
  appendReversed allLines allLines.length []

/-- The slice `allLinesReverse` of the mock display after the loop of lines
365-369 of `3_scroll_window_Mock.go` on the lines read from the file; it is empty
before (line 124 there). -/
def mockReverseLines (lines : List (List Nat)) : Except Fault (List (List Nat)) :=
  appendReversed lines lines.length []

/-- The end of `main`, lines 1235-1310, without the writing of the two files: the
trailing lines are sampled, the output is put in file order, and the two are
compared. -/
def trailingCheck (decodeLine : List Nat → Except Fault conversionResult)
    (CheckLastButOnePage : Int) (captures : Nat → Nat → Option (List Nat))
    (allLines : List (List Nat)) : Outcome verifyResult :=
  match sampleLastPages decodeLine captures (nofLastPages CheckLastButOnePage) ⟨[], 0⟩ with
  | .exit code => .exit code
  | .panic => .panic
  | .ok s =>
    match reverseLines allLines with
    | .error _ => .panic
    | .ok allLinesReverse => .ok (verifyLastLines s.lastLines allLinesReverse s.totalLastLines)

/-! ## The admission of the workers (source lines 792-798, 906-925, 1030-1045) -/

/-- The goroutines of the page decodes as far as the channel `semaphoreChan`
tells: the loop variable `lineNum` of the loop in `main` that starts the workers,
the number of values in the channel, the lines whose worker runs between its
start and its `wg.Done()` (it calls `bitmapToString` and sends the result), and
the lines whose worker has passed `wg.Done()` and has not yet run the deferred
receive that frees its slot. -/
structure gateState where
  lineNum : Nat
  tokens : Nat
  decoding : List Nat
  releasing : List Nat
  deriving DecidableEq

/-- The steps of the goroutines: `main` passes the send `semaphoreChan <-` and
starts the worker of the line `lineNum`; the worker of a line completes its work
up to `wg.Done()`; the worker of a line receives from `semaphoreChan` and ends;
`main` has left the loop and begins the loop of the next page. -/
inductive gateEvent where
  | enter
  | finish (line : Nat)
  | release (line : Nat)
  | nextPage
  deriving DecidableEq

/-- One step, for a channel of capacity `k` and pages of `lines` lines; nothing
when the step cannot be taken: a send on a full channel blocks, a worker that
was not started cannot complete, and `main` begins the next page only after
every worker of the page has passed `wg.Done()` (the channel of results is
closed after `wg.Wait()`). -/
def gateStep (k lines : Nat) (s : gateState) : gateEvent → Option gateState
  | .enter =>
    if s.lineNum < lines ∧ s.tokens < k then
      some { s with lineNum := s.lineNum + 1, tokens := s.tokens + 1,
                    decoding := s.lineNum :: s.decoding }
    else none
  | .finish line =>
    if line ∈ s.decoding then
      some { s with decoding := s.decoding.erase line, releasing := line :: s.releasing }
    else none
  | .release line =>
    if line ∈ s.releasing ∧ 0 < s.tokens then
      some { s with releasing := s.releasing.erase line, tokens := s.tokens - 1 }
    else none
  | .nextPage =>
    if s.lineNum = lines ∧ s.decoding = [] then some { s with lineNum := 0 } else none

/-- A sequence of steps; nothing when one of them cannot be taken. -/
def gateRun (k lines : Nat) : gateState → List gateEvent → Option gateState
  | s, [] => some s
  | s, event :: rest =>
    match gateStep k lines s event with
    | none => none
    | some s1 => gateRun k lines s1 rest

/-! ## Vocabulary of the statements -/

/-- The fields written one after the other with `sep` between neighbours. -/
def joinFields (sep : Nat) : List (List Nat) → List Nat
  | [] => []
  | [p] => p
  | p :: q :: rest => p ++ sep :: joinFields sep (q :: rest)

/-- A template for the character `c`, one column wide and 13 rows high, whose
every pixel has the value `c`. -/
def glyph (c : Nat) : bitmapSave := ⟨c, 1, 13, List.replicate 13 c⟩

/-- A library with one such template for each character of the priority list, in
priority order. -/
def sampleFont : List bitmapSave := extractionList.map glyph

/-- One row of a capture of `text`, one column per character: the pixel of the
character `v` is the four bytes `v, 0, 0, 0`. -/
def renderRow (text : List Nat) : List Nat := text.flatMap fun v => [v, 0, 0, 0]

/-- A capture of one text line, 15 rows high, every row the same. -/
def renderLine (text : List Nat) : List Nat := (List.replicate 15 (renderRow text)).flatten

/-- The shared state with all counters at zero, the sample library and the
capture of `text`. -/
def sampleMemory (text : List Nat) : Memory := ⟨fun _ => 0, sampleFont, renderLine text⟩

/-- A capture of a page: the captures of its text lines one below the other. -/
def renderPage (texts : List (List Nat)) : List Nat := (texts.map renderLine).flatten

/-- The shared state with all counters at zero, the sample library and the
capture of the page `texts`. -/
def pageMemory (texts : List (List Nat)) : Memory := ⟨fun _ => 0, sampleFont, renderPage texts⟩

/-- The whole number `k` as a decoded JSON number. -/
def wholeNumber (k : Int) : jsonValue := .number ⟨k, 1, Nat.one_pos⟩

/-- A picture one pixel wide and 14 rows high; the pixel of row `y` has the
bytes `y + 1, 2, 3, 255` (red, green, blue, alpha). -/
def samplePicture : pictureNRGBA :=
  ⟨(List.range 14).flatMap (fun y => [y + 1, 2, 3, 255]), 4, 1⟩

/-- A font directory that holds the sample picture under the name a.png and
nothing else. -/
def sampleFiles (name : List Nat) : fontFile :=
  if name = ascii "a.png" then .nrgba samplePicture else .missing

/-- A description of a template for the character `c`, `width` by `height`,
taken from the top left corner of a.png. -/
def sampleEntry (c : List Nat) (width height : Int) : fontEntry :=
  ⟨.str c, .str (ascii "a.png"), wholeNumber width, wholeNumber height, wholeNumber 0,
    wholeNumber 0⟩

/-- The templates of `extractedBitmaps` for the characters of `list`, grouped by
character in the order of `list`, each group in the order of `extractedBitmaps`. -/
def priorityPart (extractedBitmaps : List bitmapSave) (list : List Nat) : List bitmapSave :=
  list.flatMap fun v => extractedBitmaps.filter fun b => b.Character = v

/-- The slice `extractedBitmaps` (the templates in the order of the
descriptions) when the two loops that build it complete. -/
def describedBitmaps (results : List fontEntry) (files : List Nat → fontFile) :
    Option (List bitmapSave) :=
  match validateAll results with
  | none => none
  | some allFontsSource =>
    match extractAll files allFontsSource with
    | .error _ => none
    | .ok extractedBitmaps => some extractedBitmaps

/-- The words of the size check: the value is missing or is not a number, or it
is a number below 1 or above `hi`. -/
def sizeRejected (value : jsonValue) (hi : Int) : Prop :=
  match value with
  | .number v => v.below 1 ∨ v.above hi
  | _ => True

/-- The pixels of the first `rows` rows of the sample picture as the loader
stores them. -/
def samplePixels (rows : Nat) : List Nat := (List.range rows).map fun y => (y + 1) * 65536 + 515

/-- The new capture of a pass is identical to the reference `ref`. -/
def isIdentical (ref : List Nat) (input : bulkInput) : Prop := input.newxImg = some ref

/-- A pass is a partial update with respect to the reference `ref`: the new
capture differs from the reference and the capture after the settle delay
differs from the new capture. -/
def isPartial (ref : List Nat) (input : bulkInput) : Prop :=
  ∃ n n2, input.newxImg = some n ∧ n ≠ ref ∧ input.new2xImg = some n2 ∧ n2 ≠ n

/-- A pass finds the page `img` stabilised: both captures are `img`. -/
def isStable (img : List Nat) (input : bulkInput) : Prop :=
  input.newxImg = some img ∧ input.new2xImg = some img

instance (ref : List Nat) (input : bulkInput) : Decidable (isIdentical ref input) :=
  inferInstanceAs (Decidable (input.newxImg = some ref))

/-- A bulk paging state with the reference `ref` and every counter at zero. -/
def startState (ref : List Nat) : pagingState := ⟨ref, 0, 0, [], 0, 0, 0⟩

/-- A pass in which the new capture is `img`, the capture after the delay is
`img2`, and the user does not ask to stop. -/
def pass (img img2 : List Nat) : bulkInput := ⟨some img, some img2, 500, false⟩

/-- The page decode of a capture of two lines of ten columns with the sample
library, the workers completing in the order 1, 0. -/
def samplePageDecode (img : List Nat) : Except Fault (List conversionResult) :=
  decodePage (workerResult 10 ⟨fun _ => 0, sampleFont, img⟩ (fun _ _ => 0) 10 15 1 1)
    [⟨0, []⟩, ⟨0, []⟩] [1, 0]

/-- The pixel of a capture at the column `col` and the row `row` of the text line
`lineNumber`: the 32-bit word at that place of `imageBytes`. -/
def linePixel (imageBytes : List Nat) (lineNumber lineWidth height col row : Nat) :
    Except Fault Nat :=
  readUint32 imageBytes (lineNumber * height * lineWidth * 4 + row * (lineWidth * 4) + col * 4)

/-- The template `b` fits at the column offset `c` of a line of `nof` columns. -/
def fitsAt (nof c : Nat) (b : bitmapSave) : Prop := b.Width + c ≤ nof

/-- The first `w` columns of the template `b` equal the columns `c, c+1, ...` of
the extracted line `cells`, pixel by pixel. -/
def matchesAt (cells : List Nat) (c w : Nat) (b : bitmapSave) : Prop :=
  ∀ k, k < w → ∀ y, y < 13 → b.Pixels.get? (k * 13 + y) = cells.get? ((c + k) * 13 + y)

instance (nof c : Nat) (b : bitmapSave) : Decidable (fitsAt nof c b) :=
  inferInstanceAs (Decidable (b.Width + c ≤ nof))

instance (cells : List Nat) (c w : Nat) (b : bitmapSave) : Decidable (matchesAt cells c w b) :=
  inferInstanceAs (Decidable (∀ k, k < w → ∀ y, y < 13 →
    b.Pixels.get? (k * 13 + y) = cells.get? ((c + k) * 13 + y)))

/-- The pixels of the columns of a template that the search compares: all of
them, or those of the first four columns under the shortcut. -/
def keyColumns (pk : Int) (b : bitmapSave) : List Nat :=
  b.Pixels.take (compareWidth b pk * 13)

/-- The text of a sequence of templates: their characters in order, without the
ignore character. -/
def renderedText (ts : List bitmapSave) : List Nat :=
  (ts.filter fun t => t.Character ≠ '^'.toNat).flatMap fun t => runeString t.Character

/-- The number of ignored glyphs that the scan counts in a sequence of
templates. -/
def ignoredCount (g : Int) (ts : List bitmapSave) : Nat :=
  if g = 1 then (ts.filter fun t => t.Character = '^'.toNat).length else 0

/-- The number of columns a sequence of templates takes. -/
def totalWidth (ts : List bitmapSave) : Nat := (ts.map fun t => t.Width).sum

/-- A template for the character 0, five columns wide and 13 rows high, whose
every pixel has the value of that character. -/
def wideZero : bitmapSave := ⟨'0'.toNat, 5, 13, List.replicate 65 '0'.toNat⟩

/-- A library of two templates: the wide template for 0 and the one-column
template for the separator. -/
def wideFont : List bitmapSave := [wideZero, glyph '|'.toNat]

/-- The shared state with all counters at zero, the library `lib` and the capture
of `text`. -/
def fontMemory (lib : List bitmapSave) (text : List Nat) : Memory :=
  ⟨fun _ => 0, lib, renderLine text⟩

/-- All five captures of the last line after the first one equal the first one,
`one`. -/
def allAgree (one : List Nat) (samples : Nat → Option (List Nat)) : Prop :=
  ∀ m, m < 5 → samples m = some one

instance (one : List Nat) (samples : Nat → Option (List Nat)) :
    Decidable (allAgree one samples) :=
  inferInstanceAs (Decidable (∀ m, m < 5 → samples m = some one))

/-- A pass of the single-line scroll loop in which the capture of the page is
`new`, the first capture of the last line is `one`, the five captures after it
are `samples`, and the user does not ask to stop. -/
def singlePass (new one : List Nat) (samples : Nat → Option (List Nat)) : singleInput :=
  ⟨some new, some one, samples, 500, false⟩

/-- The decoding of a capture of one line of ten columns with the sample
library. -/
def sampleLineDecode (img : List Nat) : Except Fault conversionResult :=
  (bitmapToString 10 ⟨fun _ => 0, sampleFont, img⟩ 0 10 15 1 1).1

/-- The start of the goroutines: no worker started, the channel empty. -/
def gateStart : gateState := ⟨0, 0, [], []⟩

/-! ## Lemmas on splitting and joining -/

theorem consHead_length (c : Nat) (l : List (List Nat)) (h : l ≠ []) :
    (consHead c l).length = l.length := by
  cases l with
  | nil => exact absurd rfl h
  | cons p ps => rfl

theorem stringsSplit_ne_nil (sep : Nat) (t : List Nat) : stringsSplit sep t ≠ [] := by
  cases t with
  | nil => simp [stringsSplit]
  | cons c cs =>
    by_cases hc : c = sep
    · simp [stringsSplit, hc]
    · simp only [stringsSplit, hc, if_false]
      cases stringsSplit sep cs <;> simp [consHead]

theorem stringsSplit_length (sep : Nat) (t : List Nat) :
    (stringsSplit sep t).length = t.count sep + 1 := by
  induction t with
  | nil => simp [stringsSplit]
  | cons c cs ih =>
    by_cases hc : c = sep
    · simp [stringsSplit, hc, ih]
    · have hne : (c == sep) = false := by simpa using hc
      simp only [stringsSplit, hc, if_false, List.count_cons, hne]
      rw [consHead_length c _ (stringsSplit_ne_nil sep cs), ih]
      simp

theorem joinFields_consHead (sep c : Nat) (l : List (List Nat)) (h : l ≠ []) :
    joinFields sep (consHead c l) = c :: joinFields sep l := by
  match l, h with
  | [p], _ => rfl
  | p :: q :: rest, _ => rfl

theorem joinFields_nil_cons (sep : Nat) (l : List (List Nat)) (h : l ≠ []) :
    joinFields sep ([] :: l) = sep :: joinFields sep l := by
  match l, h with
  | [p], _ => rfl
  | p :: q :: rest, _ => rfl

theorem joinFields_stringsSplit (sep c : Nat) (t : List Nat) :
    joinFields c (stringsSplit sep t) = t.map (fun b => if b = sep then c else b) := by
  induction t with
  | nil => rfl
  | cons b bs ih =>
    by_cases hb : b = sep
    · simp only [stringsSplit, hb, if_true, List.map_cons]
      rw [joinFields_nil_cons c _ (stringsSplit_ne_nil sep bs), ih]
    · simp only [stringsSplit, hb, if_false, List.map_cons]
      rw [joinFields_consHead c b _ (stringsSplit_ne_nil sep bs), ih]

theorem stringsSplit_of_not_mem (sep : Nat) (p : List Nat) (h : sep ∉ p) :
    stringsSplit sep p = [p] := by
  induction p with
  | nil => rfl
  | cons b bs ih =>
    have hb : b ≠ sep := fun e => h (by simp [e])
    have hbs : sep ∉ bs := fun e => h (by simp [e])
    simp [stringsSplit, hb, ih hbs, consHead]

theorem stringsSplit_append_sep (sep : Nat) (p rest : List Nat) (h : sep ∉ p) :
    stringsSplit sep (p ++ sep :: rest) = p :: stringsSplit sep rest := by
  induction p with
  | nil => simp [stringsSplit]
  | cons b bs ih =>
    have hb : b ≠ sep := fun e => h (by simp [e])
    have hbs : sep ∉ bs := fun e => h (by simp [e])
    simp [stringsSplit, hb, ih hbs, consHead]

theorem stringsSplit_joinFields (sep : Nat) (parts : List (List Nat)) (hne : parts ≠ [])
    (h : ∀ p ∈ parts, sep ∉ p) : stringsSplit sep (joinFields sep parts) = parts := by
  induction parts with
  | nil => exact absurd rfl hne
  | cons p ps ih =>
    cases ps with
    | nil => exact stringsSplit_of_not_mem sep p (h p (by simp))
    | cons q rest =>
      simp only [joinFields]
      rw [stringsSplit_append_sep sep p _ (h p (by simp)),
        ih (by simp) (fun r hr => h r (List.mem_cons_of_mem _ hr))]

theorem mem_of_mem_stringsSplit (sep : Nat) (t : List Nat) :
    ∀ p ∈ stringsSplit sep t, ∀ b ∈ p, b ∈ t := by
  induction t with
  | nil => simp [stringsSplit]
  | cons c cs ih =>
    intro p hp b hb
    by_cases hc : c = sep
    · simp only [stringsSplit, hc, if_true, List.mem_cons] at hp
      rcases hp with rfl | hp
      · simp at hb
      · exact List.mem_cons_of_mem _ (ih p hp b hb)
    · simp only [stringsSplit, hc, if_false] at hp
      cases hs : stringsSplit sep cs with
      | nil => exact absurd hs (stringsSplit_ne_nil sep cs)
      | cons q qs =>
        rw [hs] at hp ih
        simp only [consHead, List.mem_cons] at hp
        rcases hp with rfl | hp
        · rcases List.mem_cons.1 hb with rfl | hb
          · simp
          · exact List.mem_cons_of_mem _ (ih q (by simp) b hb)
        · exact List.mem_cons_of_mem _ (ih p (List.mem_cons_of_mem _ hp) b hb)

theorem stringsSplit_replicate (sep n : Nat) :
    stringsSplit sep (List.replicate n sep) = List.replicate (n + 1) [] := by
  induction n with
  | zero => rfl
  | succ k ih => simp [List.replicate_succ, stringsSplit, ih]

theorem replicate_bar_eq_bars (n : Nat) :
    List.replicate n '|'.toNat = ascii "||||" ↔ n = 4 := by
  constructor
  · intro h
    have hl := congrArg List.length h
    simpa [ascii] using hl
  · rintro rfl
    decide

/-! ## Lemmas on the validation block -/

theorem length_pos_of_split5 (t : List Nat) (p0 p1 p2 p3 p4 : List Nat)
    (hsplit : stringsSplit '|'.toNat t = [p0, p1, p2, p3, p4]) : t.length > 0 := by
  cases t with
  | nil => simp [stringsSplit] at hsplit
  | cons c cs => simp

theorem validateLine_fields (lineNumber : Nat) (t p0 p1 p2 p3 p4 : List Nat)
    (hbars : t ≠ ascii "||||")
    (hsplit : stringsSplit '|'.toNat t = [p0, p1, p2, p3, p4]) :
    validateLine lineNumber t =
      match p0.get? 2 with
      | none => .error .indexOutOfRange
      | some c2 =>
        if c2 ≠ ':'.toNat then .ok ⟨lineNumber, ascii "error:5:"⟩
        else
          match p0.get? 5 with
          | none => .error .indexOutOfRange
          | some c5 =>
            if c5 ≠ ':'.toNat then .ok ⟨lineNumber, ascii "error:5:"⟩
            else .ok ⟨lineNumber, joinFields ','.toNat [p0, p1, p2, p3, p4]⟩ := by
  have hpos := length_pos_of_split5 t p0 p1 p2 p3 p4 hsplit
  have h5 : ascii "error:" ++ itoa conversionErrorTimeFormatWrong ++ ascii ":"
      = ascii "error:5:" := by decide
  have hc : ascii "," = [','.toNat] := by decide
  unfold validateLine
  simp only [hpos, if_true, hbars, if_false, hsplit, h5, hc, joinFields]
  simp

theorem validateLine_nil (lineNumber : Nat) :
    validateLine lineNumber [] = .ok ⟨lineNumber, ascii "error:6:"⟩ := by
  rfl

theorem validateLine_bars (lineNumber : Nat) :
    validateLine lineNumber (ascii "||||") = .ok ⟨lineNumber, ascii "error:2:"⟩ := by
  rfl

theorem validateLine_count (lineNumber : Nat) (t : List Nat) (hne : t ≠ [])
    (hbars : t ≠ ascii "||||") (hn : (stringsSplit '|'.toNat t).length ≠ 5) :
    validateLine lineNumber t = .ok ⟨lineNumber,
      ascii "error:4:field count " ++ ascii (toString (stringsSplit '|'.toNat t).length)⟩ := by
  have hpos : t.length > 0 := List.length_pos.2 hne
  have h4 : ascii "error:" ++ itoa conversionErrorWrongNumberOfSections
      ++ ascii ":field count " = ascii "error:4:field count " := by decide
  have hi : itoa (stringsSplit '|'.toNat t).length
      = ascii (toString (stringsSplit '|'.toNat t).length) := rfl
  unfold validateLine
  simp only [hpos, if_true, hbars, if_false, hn, ne_eq, not_false_eq_true, h4, hi]

theorem validateLine_short_time (lineNumber : Nat) (t p0 p1 p2 p3 p4 : List Nat)
    (hbars : t ≠ ascii "||||")
    (hsplit : stringsSplit '|'.toNat t = [p0, p1, p2, p3, p4]) :
    (p0.length ≤ 2 → validateLine lineNumber t = .error .indexOutOfRange)
    ∧ (p0.get? 2 = some ':'.toNat → p0.length ≤ 5 →
        validateLine lineNumber t = .error .indexOutOfRange)
    ∧ (∀ c, p0.get? 2 = some c → c ≠ ':'.toNat →
        validateLine lineNumber t = .ok ⟨lineNumber, ascii "error:5:"⟩) := by
  rw [validateLine_fields lineNumber t p0 p1 p2 p3 p4 hbars hsplit]
  refine ⟨?_, ?_, ?_⟩
  · intro h
    rw [List.get?_eq_none.2 (by omega)]
  · intro h2 h
    rw [h2, List.get?_eq_none.2 (by omega)]
    simp
  · intro c h2 hc
    rw [h2]
    simp only [hc, ne_eq, not_false_eq_true, if_true]

theorem not_error_of_colon (p0 rest : List Nat) (h2 : p0.get? 2 = some ':'.toNat) :
    ¬ (ascii "error" <+: p0 ++ rest) := by
  rintro ⟨s, hs⟩
  match p0, h2 with
  | a :: b :: c :: q, h2 =>
    simp [ascii] at hs h2
    omega

theorem error_prefix_append (a s : List Nat) (h : ascii "error" <+: a) :
    ascii "error" <+: a ++ s :=
  h.trans (List.prefix_append a s)

theorem validateLine_record (lineNumber : Nat) (t : List Nat) (r : conversionResult)
    (hres : validateLine lineNumber t = .ok r) (hgood : ¬ (ascii "error" <+: r.text)) :
    (stringsSplit '|'.toNat t).length = 5
    ∧ r.text = joinFields ','.toNat (stringsSplit '|'.toNat t) := by
  by_cases hne : t = []
  · subst hne
    rw [validateLine_nil] at hres
    cases hres
    exact absurd (show ascii "error" <+: ascii "error:6:" by decide) hgood
  by_cases hbars : t = ascii "||||"
  · subst hbars
    rw [validateLine_bars] at hres
    cases hres
    exact absurd (show ascii "error" <+: ascii "error:2:" by decide) hgood
  by_cases hn : (stringsSplit '|'.toNat t).length = 5
  · refine ⟨hn, ?_⟩
    match hs : stringsSplit '|'.toNat t, hn with
    | [p0, p1, p2, p3, p4], _ =>
      rw [validateLine_fields lineNumber t p0 p1 p2 p3 p4 hbars hs] at hres
      cases h2 : p0.get? 2 with
      | none => rw [h2] at hres; cases hres
      | some c2 =>
        rw [h2] at hres
        by_cases e2 : c2 = ':'.toNat
        · simp only [e2, ne_eq, not_true_eq_false, if_false] at hres
          cases h5 : p0.get? 5 with
          | none => rw [h5] at hres; cases hres
          | some c5 =>
            rw [h5] at hres
            by_cases e5 : c5 = ':'.toNat
            · simp only [e5, ne_eq, not_true_eq_false, if_false] at hres
              cases hres
              rfl
            · simp only [e5, ne_eq, not_false_eq_true, if_true] at hres
              cases hres
              exact absurd (show ascii "error" <+: ascii "error:5:" by decide) hgood
        · simp only [e2, ne_eq, not_false_eq_true, if_true] at hres
          cases hres
          exact absurd (show ascii "error" <+: ascii "error:5:" by decide) hgood
  · rw [validateLine_count lineNumber t hne hbars hn] at hres
    cases hres
    exact absurd (error_prefix_append _ _ (by decide)) hgood

/-! ## The result and the state after a call -/

theorem bitmapToString_fst (fuel : Nat) (m : Memory) (lineNumber lineWidth height : Nat)
    (pk g : Int) (t : List Nat) (x : Nat)
    (hrec : recognize fuel m lineNumber lineWidth height pk g = .ok (t, x)) :
    (bitmapToString fuel m lineNumber lineWidth height pk g).1 = validateLine lineNumber t := by
  simp [bitmapToString, hrec]

theorem bitmapToString_fst_eq (fuel : Nat) (m : Memory) (lineNumber lineWidth height : Nat)
    (pk g : Int) :
    (bitmapToString fuel m lineNumber lineWidth height pk g).1
      = match (recognize fuel m lineNumber lineWidth height pk g).map Prod.fst with
        | .error e => .error e
        | .ok t => validateLine lineNumber t := by
  unfold bitmapToString
  cases recognize fuel m lineNumber lineWidth height pk g with
  | error e => rfl
  | ok r => rfl

theorem bitmapToString_snd (fuel : Nat) (m : Memory) (lineNumber lineWidth height : Nat)
    (pk g : Int) (t : List Nat) (x : Nat)
    (hrec : recognize fuel m lineNumber lineWidth height pk g = .ok (t, x)) :
    (bitmapToString fuel m lineNumber lineWidth height pk g).2
      = if g = 1 then
          if t.length > 15 then { m with charCounts := tally m.charCounts t x } else m
        else m := by
  simp [bitmapToString, hrec]

theorem bitmapToString_frame (fuel : Nat) (m : Memory) (lineNumber lineWidth height : Nat)
    (pk g : Int) :
    (bitmapToString fuel m lineNumber lineWidth height pk g).2.globalBitmaps = m.globalBitmaps
    ∧ (bitmapToString fuel m lineNumber lineWidth height pk g).2.imageBytes = m.imageBytes := by
  unfold bitmapToString
  cases recognize fuel m lineNumber lineWidth height pk g with
  | error e => exact ⟨rfl, rfl⟩
  | ok r =>
    obtain ⟨t, x⟩ := r
    by_cases hg : g = 1
    · by_cases hl : t.length > 15
      · simp [hg, hl]
      · simp [hg, hl]
    · simp [hg]

/-! ## The scan does not depend on the counting option -/

theorem scanLine_text_indep (globalBitmaps : List bitmapSave) (cells : List Nat)
    (nof : Nat) (pk g1 g2 : Int) (fuel : Nat) :
    ∀ (col : Nat) (text : List Nat) (x1 x2 : Nat),
      (scanLine globalBitmaps cells nof pk g1 fuel col text x1).map Prod.fst
        = (scanLine globalBitmaps cells nof pk g2 fuel col text x2).map Prod.fst := by
  induction fuel with
  | zero =>
    intro col text x1 x2
    rw [scanLine, scanLine]
    by_cases hc : col < nof
    · simp [hc, Except.map]
    · simp [hc, Except.map]
  | succ k ih =>
    intro col text x1 x2
    rw [scanLine, scanLine]
    by_cases hc : col < nof
    · simp only [hc, if_true]
      cases hf : findBitmap cells nof col pk globalBitmaps with
      | error e => simp [Except.map]
      | ok ob =>
        cases ob with
        | none => exact ih _ _ _ _
        | some b => exact ih _ _ _ _
    · simp [hc, Except.map]

theorem recognize_text_indep (fuel : Nat) (m1 m2 : Memory)
    (hb : m1.globalBitmaps = m2.globalBitmaps) (hi : m1.imageBytes = m2.imageBytes)
    (lineNumber lineWidth height : Nat) (pk g1 g2 : Int) :
    (recognize fuel m1 lineNumber lineWidth height pk g1).map Prod.fst
      = (recognize fuel m2 lineNumber lineWidth height pk g2).map Prod.fst := by
  unfold recognize
  rw [hb, hi]
  cases lineAsUint32 m2.imageBytes lineNumber lineWidth height with
  | error e => rfl
  | ok cells => exact scanLine_text_indep _ _ _ _ _ _ _ _ _ _ _

/-! ## Fuel -/

theorem scanLine_done (globalBitmaps : List bitmapSave) (cells : List Nat) (nof : Nat)
    (pk g : Int) (fuel col : Nat) (text : List Nat) (x : Nat) (h : ¬ col < nof) :
    scanLine globalBitmaps cells nof pk g fuel col text x = .ok (text, x) := by
  cases fuel with
  | zero => rw [scanLine]; simp [h]
  | succ k => rw [scanLine]; simp [h]

theorem scanLine_fuel_mono (globalBitmaps : List bitmapSave) (cells : List Nat) (nof : Nat)
    (pk g : Int) (fuel : Nat) :
    ∀ (col : Nat) (text : List Nat) (x : Nat) (r : List Nat × Nat),
      scanLine globalBitmaps cells nof pk g fuel col text x = .ok r →
      ∀ extra, scanLine globalBitmaps cells nof pk g (fuel + extra) col text x = .ok r := by
  induction fuel with
  | zero =>
    intro col text x r h extra
    by_cases hc : col < nof
    · rw [scanLine] at h
      simp [hc] at h
    · rw [scanLine_done _ _ _ _ _ _ _ _ _ hc] at h ⊢
      exact h
  | succ k ih =>
    intro col text x r h extra
    by_cases hc : col < nof
    · have e : k + 1 + extra = (k + extra) + 1 := by omega
      rw [e, scanLine]
      rw [scanLine] at h
      simp only [hc, if_true] at h ⊢
      cases hf : findBitmap cells nof col pk globalBitmaps with
      | error e =>
        rw [hf] at h
        cases h
      | ok ob =>
        rw [hf] at h
        cases ob with
        | none => exact ih _ _ _ _ h extra
        | some b => exact ih _ _ _ _ h extra
    · rw [scanLine_done _ _ _ _ _ _ _ _ _ hc] at h ⊢
      exact h

theorem recognize_fuel_mono (fuel : Nat) (m : Memory) (lineNumber lineWidth height : Nat)
    (pk g : Int) (r : List Nat × Nat)
    (h : recognize fuel m lineNumber lineWidth height pk g = .ok r) (extra : Nat) :
    recognize (fuel + extra) m lineNumber lineWidth height pk g = .ok r := by
  unfold recognize at h ⊢
  cases hl : lineAsUint32 m.imageBytes lineNumber lineWidth height with
  | error e => rw [hl] at h; cases h
  | ok cells =>
    rw [hl] at h
    exact scanLine_fuel_mono _ _ _ _ _ _ _ _ _ _ h extra

/-! ## Extraction from a rendered capture -/

theorem renderRow_length (text : List Nat) : (renderRow text).length = 4 * text.length := by
  induction text with
  | nil => rfl
  | cons v vs ih =>
    simp only [renderRow, List.flatMap_cons, List.length_append, List.length_cons,
      List.length_nil] at ih ⊢
    omega

theorem renderRow_get (text : List Nat) (x : Nat) (v : Nat) (hx : text.get? x = some v) :
    (renderRow text).get? (4 * x) = some v ∧ (renderRow text).get? (4 * x + 1) = some 0
    ∧ (renderRow text).get? (4 * x + 2) = some 0
    ∧ (renderRow text).get? (4 * x + 3) = some 0 := by
  induction text generalizing x with
  | nil => simp at hx
  | cons u us ih =>
    cases x with
    | zero =>
      simp only [List.get?_cons_zero, Option.some.injEq] at hx
      subst hx
      simp [renderRow]
    | succ y =>
      have h := ih y (by simpa using hx)
      have sh : ∀ i, (u :: 0 :: 0 :: 0 :: renderRow us).get? (i + 4) = (renderRow us).get? i :=
        fun i => rfl
      have e0 : 4 * (y + 1) = 4 * y + 4 := by omega
      have e1 : 4 * (y + 1) + 1 = (4 * y + 1) + 4 := by omega
      have e2 : 4 * (y + 1) + 2 = (4 * y + 2) + 4 := by omega
      have e3 : 4 * (y + 1) + 3 = (4 * y + 3) + 4 := by omega
      have hr : renderRow (u :: us) = u :: 0 :: 0 :: 0 :: renderRow us := by
        simp [renderRow]
      rw [hr, e1, e2, e3, e0, sh, sh, sh, sh]
      exact h

theorem flatten_replicate_get (row : List Nat) (k r i : Nat) (hr : r < k)
    (hi : i < row.length) :
    (List.replicate k row).flatten.get? (r * row.length + i) = row.get? i := by
  induction k generalizing r with
  | zero => omega
  | succ k ih =>
    rw [List.replicate_succ, List.flatten_cons]
    cases r with
    | zero =>
      simp only [Nat.zero_mul, Nat.zero_add, List.get?_eq_getElem?]
      exact List.getElem?_append_left hi
    | succ s =>
      have e : (s + 1) * row.length + i = row.length + (s * row.length + i) := by
        rw [Nat.succ_mul]; omega
      rw [e]
      simp only [List.get?_eq_getElem?]
      rw [List.getElem?_append_right (by omega)]
      have := ih s (by omega)
      simp only [List.get?_eq_getElem?] at this
      simpa using this

theorem readUint32_renderLine (text : List Nat) (r x v : Nat) (hr : r < 15)
    (hx : text.get? x = some v) :
    readUint32 (renderLine text) (r * (text.length * 4) + x * 4) = .ok v := by
  have hxl : x < text.length := by
    rcases lt_or_ge x text.length with h | h
    · exact h
    · rw [List.get?_eq_none.2 h] at hx; cases hx
  obtain ⟨g0, g1, g2, g3⟩ := renderRow_get text x v hx
  have hl := renderRow_length text
  have hrow : renderLine text = (List.replicate 15 (renderRow text)).flatten := rfl
  have key : ∀ j, j < 4 → (renderLine text).get? (r * (text.length * 4) + x * 4 + j)
      = (renderRow text).get? (4 * x + j) := by
    intro j hj
    have := flatten_replicate_get (renderRow text) 15 r (4 * x + j) hr (by omega)
    rw [hl] at this
    rw [hrow, ← this]
    congr 1
    ring
  have k0 := key 0 (by omega)
  have k1 := key 1 (by omega)
  have k2 := key 2 (by omega)
  have k3 := key 3 (by omega)
  simp only [Nat.add_zero] at k0
  simp only [readUint32, k0, k1, k2, k3, g0, g1, g2, g3]
  simp

theorem extractColumn_renderLine (text : List Nat) (x v : Nat) (hx : text.get? x = some v)
    (rows r : Nat) (hr : r + rows ≤ 15) :
    extractColumn (renderLine text) (text.length * 4) rows (r * (text.length * 4) + x * 4)
      = .ok (List.replicate rows v) := by
  induction rows generalizing r with
  | zero => rfl
  | succ k ih =>
    have e : r * (text.length * 4) + x * 4 + text.length * 4
        = (r + 1) * (text.length * 4) + x * 4 := by ring
    simp only [extractColumn, readUint32_renderLine text r x v (by omega) hx, e,
      ih (r + 1) (by omega), List.replicate_succ]

theorem extractLine_renderLine (text : List Nat) (cols x : Nat) (h : x + cols = text.length) :
    extractLine (renderLine text) 0 (text.length * 4) cols x
      = .ok ((text.drop x).flatMap (List.replicate 13)) := by
  induction cols generalizing x with
  | zero =>
    have : text.drop x = [] := List.drop_eq_nil_of_le (by omega)
    simp [extractLine, this]
  | succ k ih =>
    have hxl : x < text.length := by omega
    have hd : text.drop x = text[x] :: text.drop (x + 1) := List.drop_eq_getElem_cons hxl
    have hg : text.get? x = some text[x] := by
      simp [List.getElem?_eq_getElem hxl]
    have e : 0 + 2 * (text.length * 4) + x * 4 = 2 * (text.length * 4) + x * 4 := by omega
    simp only [extractLine, e, extractColumn_renderLine text x _ hg 13 2 (by omega),
      ih (x + 1) (by omega), hd, List.flatMap_cons]

theorem lineAsUint32_renderLine (text : List Nat) (height : Nat) :
    lineAsUint32 (renderLine text) 0 text.length height
      = .ok (text.flatMap (List.replicate 13)) := by
  have h := extractLine_renderLine text text.length 0 (by omega)
  simpa [lineAsUint32] using h

/-! ## Evaluation of the sample captures -/

theorem recognize_sample (fuel : Nat) (text : List Nat) (pk g : Int) (r : List Nat × Nat)
    (h : scanLine sampleFont (text.flatMap (List.replicate 13)) text.length pk g fuel 0 [] 0
      = .ok r) :
    recognize fuel (sampleMemory text) 0 text.length 15 pk g = .ok r := by
  simp only [recognize, sampleMemory, lineAsUint32_renderLine text 15, h]

set_option maxRecDepth 100000 in
theorem sample_clock :
    recognize 10 (sampleMemory (ascii "00:00:||||")) 0 10 15 1 1
      = .ok (ascii "00:00:||||", 0) :=
  recognize_sample 10 (ascii "00:00:||||") 1 1 _ (by decide!)

set_option maxRecDepth 100000 in
theorem sample_caret :
    recognize 1 (sampleMemory (ascii "^")) 0 1 15 1 1 = .ok ([], 1) :=
  recognize_sample 1 (ascii "^") 1 1 _ (by decide!)

set_option maxRecDepth 100000 in
theorem sample_four_bars :
    recognize 4 (sampleMemory (ascii "||||")) 0 4 15 1 1 = .ok (ascii "||||", 0) :=
  recognize_sample 4 (ascii "||||") 1 1 _ (by decide!)

set_option maxRecDepth 100000 in
theorem sample_one_bar :
    recognize 1 (sampleMemory (ascii "|")) 0 1 15 1 1 = .ok (ascii "|", 0) :=
  recognize_sample 1 (ascii "|") 1 1 _ (by decide!)

set_option maxRecDepth 100000 in
theorem sample_two_bars :
    recognize 2 (sampleMemory (ascii "||")) 0 2 15 1 1 = .ok (ascii "||", 0) :=
  recognize_sample 2 (ascii "||") 1 1 _ (by decide!)

set_option maxRecDepth 100000 in
theorem sample_three_bars :
    recognize 3 (sampleMemory (ascii "|||")) 0 3 15 1 1 = .ok (ascii "|||", 0) :=
  recognize_sample 3 (ascii "|||") 1 1 _ (by decide!)

set_option maxRecDepth 100000 in
theorem sample_no_colon :
    recognize 10 (sampleMemory (ascii "0:0:0:||||")) 0 10 15 1 1
      = .ok (ascii "0:0:0:||||", 0) :=
  recognize_sample 10 (ascii "0:0:0:||||") 1 1 _ (by decide!)

set_option maxRecDepth 100000 in
theorem sample_digits :
    recognize 9 (sampleMemory (ascii "1|2|3|4|5")) 0 9 15 1 1
      = .ok (ascii "1|2|3|4|5", 0) :=
  recognize_sample 9 (ascii "1|2|3|4|5") 1 1 _ (by decide!)

set_option maxRecDepth 100000 in
theorem sample_comma :
    recognize 11 (sampleMemory (ascii "00:00:,||||")) 0 11 15 1 1
      = .ok (ascii "00:00:,||||", 0) :=
  recognize_sample 11 (ascii "00:00:,||||") 1 1 _ (by decide!)

set_option maxRecDepth 100000 in
theorem sample_sixteen_bars :
    recognize 16 (sampleMemory (List.replicate 16 '|'.toNat)) 0 16 15 1 1
      = .ok (List.replicate 16 '|'.toNat, 0) :=
  recognize_sample 16 (List.replicate 16 '|'.toNat) 1 1 _ (by decide!)

theorem sample_clock_result :
    (bitmapToString 10 (sampleMemory (ascii "00:00:||||")) 0 10 15 1 1).1
      = .ok ⟨0, ascii "00:00:,,,,"⟩ := by
  rw [bitmapToString_fst 10 (sampleMemory (ascii "00:00:||||")) 0 10 15 1 1 _ 0 sample_clock]
  decide

/-! ## The claims -/

/-- C1. When the recognized text is non-empty, is not the four separators,
splits on the separator into five fields and the first field has a colon at
byte positions 2 and 5, the returned text is the five fields in order with a
comma between neighbours; that is the recognized text with every separator
replaced by a comma, and it does not begin with the word error. -/
theorem bitmapToString_success (fuel : Nat) (m : Memory) (lineNumber lineWidth height : Nat)
    (priorKnowledgeSpeedup gatherCharacterCounts : Int) (t : List Nat) (x : Nat)
    (p0 p1 p2 p3 p4 : List Nat)
    (hrec : recognize fuel m lineNumber lineWidth height priorKnowledgeSpeedup
      gatherCharacterCounts = .ok (t, x))
    (_hne : t ≠ []) (hbars : t ≠ ascii "||||")
    (hsplit : stringsSplit '|'.toNat t = [p0, p1, p2, p3, p4])
    (h2 : p0.get? 2 = some ':'.toNat) (h5 : p0.get? 5 = some ':'.toNat) :
    (bitmapToString fuel m lineNumber lineWidth height priorKnowledgeSpeedup
        gatherCharacterCounts).1
      = .ok ⟨lineNumber, p0 ++ ascii "," ++ p1 ++ ascii "," ++ p2 ++ ascii "," ++ p3
          ++ ascii "," ++ p4⟩
    ∧ p0 ++ ascii "," ++ p1 ++ ascii "," ++ p2 ++ ascii "," ++ p3 ++ ascii "," ++ p4
      = t.map (fun b => if b = '|'.toNat then ','.toNat else b)
    ∧ ¬ (ascii "error" <+: p0 ++ ascii "," ++ p1 ++ ascii "," ++ p2 ++ ascii "," ++ p3
          ++ ascii "," ++ p4) := by
  have hj : p0 ++ ascii "," ++ p1 ++ ascii "," ++ p2 ++ ascii "," ++ p3 ++ ascii "," ++ p4
      = joinFields ','.toNat [p0, p1, p2, p3, p4] := by
    have hc : ascii "," = [','.toNat] := by decide
    simp [joinFields, hc]
  refine ⟨?_, ?_, ?_⟩
  · rw [bitmapToString_fst fuel m lineNumber lineWidth height _ _ t x hrec,
      validateLine_fields lineNumber t p0 p1 p2 p3 p4 hbars hsplit, hj]
    simp only [h2, h5, ne_eq, not_true_eq_false, if_false]
  · rw [hj, ← hsplit, joinFields_stringsSplit]
  · simp only [List.append_assoc]
    exact not_error_of_colon p0 _ h2

/-- Witness of C1: the capture of the text 00:00: followed by four separators is
decoded to 00:00: followed by four commas. -/
theorem bitmapToString_success_witness :
    (bitmapToString 10 (sampleMemory (ascii "00:00:||||")) 0 10 15 1 1).1
      = .ok ⟨0, ascii "00:00:,,,,"⟩ :=
  (bitmapToString_success 10 (sampleMemory (ascii "00:00:||||")) 0 10 15 1 1
    (ascii "00:00:||||") 0 (ascii "00:00:") [] [] [] [] sample_clock
    (by decide) (by decide) (by decide) (by decide) (by decide)).1

/-- C2. When the recognized text is empty the returned text is the blank-line
error, error:6: ; the check comes first: the empty text would also fail the
field count (it splits into one field, not five), yet the result is not the
field-count error. -/
theorem bitmapToString_blank (fuel : Nat) (m : Memory) (lineNumber lineWidth height : Nat)
    (priorKnowledgeSpeedup gatherCharacterCounts : Int) (x : Nat)
    (hrec : recognize fuel m lineNumber lineWidth height priorKnowledgeSpeedup
      gatherCharacterCounts = .ok ([], x)) :
    (bitmapToString fuel m lineNumber lineWidth height priorKnowledgeSpeedup
        gatherCharacterCounts).1 = .ok ⟨lineNumber, ascii "error:6:"⟩
    ∧ (stringsSplit '|'.toNat []).length ≠ 5 := by
  refine ⟨?_, by decide⟩
  rw [bitmapToString_fst fuel m lineNumber lineWidth height _ _ [] x hrec, validateLine_nil]

/-- Witness of C2: a capture holding only the ignore glyph is a blank line. -/
theorem bitmapToString_blank_witness :
    (bitmapToString 1 (sampleMemory (ascii "^")) 0 1 15 1 1).1
      = .ok ⟨0, ascii "error:6:"⟩ :=
  (bitmapToString_blank 1 (sampleMemory (ascii "^")) 0 1 15 1 1 1 sample_caret).1

/-- C3. When the recognized text is exactly four separators the returned text is
error:2: ; the check comes before the field count and the time check: the text
does split into five fields, all empty, and the time field has no byte at
position 2 to look at. -/
theorem bitmapToString_four_dividers (fuel : Nat) (m : Memory)
    (lineNumber lineWidth height : Nat)
    (priorKnowledgeSpeedup gatherCharacterCounts : Int) (x : Nat)
    (hrec : recognize fuel m lineNumber lineWidth height priorKnowledgeSpeedup
      gatherCharacterCounts = .ok (ascii "||||", x)) :
    (bitmapToString fuel m lineNumber lineWidth height priorKnowledgeSpeedup
        gatherCharacterCounts).1 = .ok ⟨lineNumber, ascii "error:2:"⟩
    ∧ stringsSplit '|'.toNat (ascii "||||") = [[], [], [], [], []]
    ∧ ([] : List Nat).get? 2 = none := by
  refine ⟨?_, by decide, rfl⟩
  rw [bitmapToString_fst fuel m lineNumber lineWidth height _ _ _ x hrec, validateLine_bars]

/-- Witness of C3: the capture of four separators. -/
theorem bitmapToString_four_dividers_witness :
    (bitmapToString 4 (sampleMemory (ascii "||||")) 0 4 15 1 1).1
      = .ok ⟨0, ascii "error:2:"⟩ :=
  (bitmapToString_four_dividers 4 (sampleMemory (ascii "||||")) 0 4 15 1 1 0
    sample_four_bars).1

/-- Counterexample to C4: the capture of a single separator is recognized as the
text made of one separator, and the returned text is the field-count error
error:4:field count 2, not error:2: . -/
theorem bitmapToString_one_divider :
    recognize 1 (sampleMemory (ascii "|")) 0 1 15 1 1 = .ok (List.replicate 1 '|'.toNat, 0)
    ∧ (bitmapToString 1 (sampleMemory (ascii "|")) 0 1 15 1 1).1
        = .ok ⟨0, ascii "error:4:field count 2"⟩
    ∧ (bitmapToString 1 (sampleMemory (ascii "|")) 0 1 15 1 1).1
        ≠ .ok ⟨0, ascii "error:2:"⟩ := by
  have h : (bitmapToString 1 (sampleMemory (ascii "|")) 0 1 15 1 1).1
      = .ok ⟨0, ascii "error:4:field count 2"⟩ := by
    rw [bitmapToString_fst 1 (sampleMemory (ascii "|")) 0 1 15 1 1 _ 0 sample_one_bar]
    decide
  refine ⟨sample_one_bar, h, ?_⟩
  rw [h]
  decide

/-- C4, amended. When the recognized text consists of n separators and nothing
else, n at least 1: for n = 4 the returned text is error:2: , and for every other
n it is the field-count error error:4:field count followed by n + 1 in
decimal. -/
theorem bitmapToString_only_dividers (fuel : Nat) (m : Memory)
    (lineNumber lineWidth height : Nat)
    (priorKnowledgeSpeedup gatherCharacterCounts : Int) (n x : Nat) (hn : 1 ≤ n)
    (hrec : recognize fuel m lineNumber lineWidth height priorKnowledgeSpeedup
      gatherCharacterCounts = .ok (List.replicate n '|'.toNat, x)) :
    (n = 4 → (bitmapToString fuel m lineNumber lineWidth height priorKnowledgeSpeedup
        gatherCharacterCounts).1 = .ok ⟨lineNumber, ascii "error:2:"⟩)
    ∧ (n ≠ 4 → (bitmapToString fuel m lineNumber lineWidth height priorKnowledgeSpeedup
        gatherCharacterCounts).1
          = .ok ⟨lineNumber, ascii "error:4:field count " ++ ascii (toString (n + 1))⟩) := by
  rw [bitmapToString_fst fuel m lineNumber lineWidth height _ _ _ x hrec]
  constructor
  · intro h4
    rw [(replicate_bar_eq_bars n).2 h4, validateLine_bars]
  · intro h4
    have hne : List.replicate n '|'.toNat ≠ [] := by
      cases n with
      | zero => omega
      | succ k => simp [List.replicate_succ]
    have hb : List.replicate n '|'.toNat ≠ ascii "||||" :=
      fun e => h4 ((replicate_bar_eq_bars n).1 e)
    have hl : (stringsSplit '|'.toNat (List.replicate n '|'.toNat)).length = n + 1 := by
      rw [stringsSplit_replicate]; simp
    rw [validateLine_count lineNumber _ hne hb (by rw [hl]; omega), hl]

/-- Witness of C4 amended: the capture of two separators gives field count 3. -/
theorem bitmapToString_only_dividers_witness :
    (bitmapToString 2 (sampleMemory (ascii "||")) 0 2 15 1 1).1
      = .ok ⟨0, ascii "error:4:field count 3"⟩ :=
  (bitmapToString_only_dividers 2 (sampleMemory (ascii "||")) 0 2 15 1 1 2 0 (by decide)
    sample_two_bars).2 (by decide)

/-- C5. When the recognized text is non-empty, is not the four separators and
splits into n fields with n other than 5, the returned text is
error:4:field count followed by n in decimal, where n is the number of
separators plus one; for n = 4 it is error:4:field count 4. -/
theorem bitmapToString_field_count (fuel : Nat) (m : Memory)
    (lineNumber lineWidth height : Nat)
    (priorKnowledgeSpeedup gatherCharacterCounts : Int) (t : List Nat) (x : Nat)
    (hrec : recognize fuel m lineNumber lineWidth height priorKnowledgeSpeedup
      gatherCharacterCounts = .ok (t, x))
    (hne : t ≠ []) (hbars : t ≠ ascii "||||")
    (hn : (stringsSplit '|'.toNat t).length ≠ 5) :
    (bitmapToString fuel m lineNumber lineWidth height priorKnowledgeSpeedup
        gatherCharacterCounts).1
      = .ok ⟨lineNumber, ascii "error:4:field count "
          ++ ascii (toString (stringsSplit '|'.toNat t).length)⟩
    ∧ (stringsSplit '|'.toNat t).length = t.count '|'.toNat + 1
    ∧ ((stringsSplit '|'.toNat t).length = 4 →
        (bitmapToString fuel m lineNumber lineWidth height priorKnowledgeSpeedup
          gatherCharacterCounts).1 = .ok ⟨lineNumber, ascii "error:4:field count 4"⟩) := by
  have h := bitmapToString_fst fuel m lineNumber lineWidth height _ _ t x hrec
  rw [validateLine_count lineNumber t hne hbars hn] at h
  refine ⟨h, stringsSplit_length _ t, ?_⟩
  intro h4
  rw [h, h4]
  rfl

/-- Witness of C5: the capture of three separators splits into four fields. -/
theorem bitmapToString_field_count_witness :
    (bitmapToString 3 (sampleMemory (ascii "|||")) 0 3 15 1 1).1
      = .ok ⟨0, ascii "error:4:field count 4"⟩ :=
  (bitmapToString_field_count 3 (sampleMemory (ascii "|||")) 0 3 15 1 1 (ascii "|||") 0
    sample_three_bars (by decide) (by decide) (by decide)).2.2 (by decide)

/-- C6. When the recognized text is not the four separators, splits into five
fields and the time field has at least 6 bytes: if the byte at position 2 or the
byte at position 5 is not a colon the returned text is error:5: , and if both
are colons the record is returned, whatever the other bytes are. -/
theorem bitmapToString_time_format (fuel : Nat) (m : Memory)
    (lineNumber lineWidth height : Nat)
    (priorKnowledgeSpeedup gatherCharacterCounts : Int) (t : List Nat) (x : Nat)
    (p0 p1 p2 p3 p4 : List Nat)
    (hrec : recognize fuel m lineNumber lineWidth height priorKnowledgeSpeedup
      gatherCharacterCounts = .ok (t, x))
    (hbars : t ≠ ascii "||||")
    (hsplit : stringsSplit '|'.toNat t = [p0, p1, p2, p3, p4])
    (hlen : 6 ≤ p0.length) :
    ((p0.get? 2 ≠ some ':'.toNat ∨ p0.get? 5 ≠ some ':'.toNat) →
      (bitmapToString fuel m lineNumber lineWidth height priorKnowledgeSpeedup
        gatherCharacterCounts).1 = .ok ⟨lineNumber, ascii "error:5:"⟩)
    ∧ ((p0.get? 2 = some ':'.toNat ∧ p0.get? 5 = some ':'.toNat) →
      (bitmapToString fuel m lineNumber lineWidth height priorKnowledgeSpeedup
        gatherCharacterCounts).1
        = .ok ⟨lineNumber, p0 ++ ascii "," ++ p1 ++ ascii "," ++ p2 ++ ascii "," ++ p3
            ++ ascii "," ++ p4⟩) := by
  rw [bitmapToString_fst fuel m lineNumber lineWidth height _ _ t x hrec,
    validateLine_fields lineNumber t p0 p1 p2 p3 p4 hbars hsplit]
  have hj : p0 ++ ascii "," ++ p1 ++ ascii "," ++ p2 ++ ascii "," ++ p3 ++ ascii "," ++ p4
      = joinFields ','.toNat [p0, p1, p2, p3, p4] := by
    have hc : ascii "," = [','.toNat] := by decide
    simp [joinFields, hc]
  obtain ⟨c2, hc2⟩ : ∃ c, p0.get? 2 = some c := by
    rw [List.get?_eq_get (by omega : 2 < p0.length)]; exact ⟨_, rfl⟩
  obtain ⟨c5, hc5⟩ : ∃ c, p0.get? 5 = some c := by
    rw [List.get?_eq_get (by omega : 5 < p0.length)]; exact ⟨_, rfl⟩
  rw [hc2, hc5, hj]
  constructor
  · intro h
    by_cases e2 : c2 = ':'.toNat
    · have e5 : c5 ≠ ':'.toNat := by
        rcases h with h | h
        · exact absurd (by rw [e2]) h
        · exact fun e => h (by rw [e])
      simp only [e2, e5, ne_eq, not_true_eq_false, not_false_eq_true, if_true, if_false]
    · simp only [e2, ne_eq, not_false_eq_true, if_true]
  · rintro ⟨h2, h5⟩
    have e2 : c2 = ':'.toNat := Option.some.inj h2
    have e5 : c5 = ':'.toNat := Option.some.inj h5
    simp only [e2, e5, ne_eq, not_true_eq_false, if_false]

/-- Witness of C6: in the capture of 0:0:0: and four separators the time field
has six bytes and the byte at position 2 is a digit. -/
theorem bitmapToString_time_format_witness :
    (bitmapToString 10 (sampleMemory (ascii "0:0:0:||||")) 0 10 15 1 1).1
      = .ok ⟨0, ascii "error:5:"⟩ :=
  (bitmapToString_time_format 10 (sampleMemory (ascii "0:0:0:||||")) 0 10 15 1 1
    (ascii "0:0:0:||||") 0 (ascii "0:0:0:") [] [] [] [] sample_no_colon
    (by decide) (by decide) (by decide)).1 (Or.inl (by decide))

/-- C7, evaluated at the failing input. The capture of the text 1|2|3|4|5 is
recognized as that text, which splits into five fields with a time field of one
byte; the call does not return a result: the read of the byte at position 2 of
the time field is out of range. -/
theorem bitmapToString_short_time_field :
    recognize 9 (sampleMemory (ascii "1|2|3|4|5")) 0 9 15 1 1 = .ok (ascii "1|2|3|4|5", 0)
    ∧ stringsSplit '|'.toNat (ascii "1|2|3|4|5")
        = [ascii "1", ascii "2", ascii "3", ascii "4", ascii "5"]
    ∧ (bitmapToString 9 (sampleMemory (ascii "1|2|3|4|5")) 0 9 15 1 1).1
        = .error .indexOutOfRange := by
  refine ⟨sample_digits, by decide, ?_⟩
  rw [bitmapToString_fst 9 (sampleMemory (ascii "1|2|3|4|5")) 0 9 15 1 1 _ 0 sample_digits]
  decide

/-- Counterexample to C8. With a library holding one glyph for each character of
the priority list, the capture of 00:00:, followed by four separators is
returned as a success record, and that record splits on the comma into six
fields, not five. -/
theorem bitmapToString_comma_in_field :
    sampleFont.map (fun b => b.Character) = extractionList
    ∧ (bitmapToString 11 (sampleMemory (ascii "00:00:,||||")) 0 11 15 1 1).1
        = .ok ⟨0, ascii "00:00:,,,,,"⟩
    ∧ ¬ (ascii "error" <+: ascii "00:00:,,,,,")
    ∧ (stringsSplit ','.toNat (ascii "00:00:,,,,,")).length = 6 := by
  refine ⟨by decide, ?_, by decide, by decide⟩
  rw [bitmapToString_fst 11 (sampleMemory (ascii "00:00:,||||")) 0 11 15 1 1 _ 0 sample_comma]
  decide

/-- C8, amended. Every success record (a returned text that does not begin with
the word error) of a line whose recognized text holds no comma splits on the
comma into exactly five fields, and they are the five separator-delimited fields
of the recognized text. -/
theorem bitmapToString_record_fields (fuel : Nat) (m : Memory)
    (lineNumber lineWidth height : Nat)
    (priorKnowledgeSpeedup gatherCharacterCounts : Int) (t : List Nat) (x : Nat)
    (r : conversionResult)
    (hrec : recognize fuel m lineNumber lineWidth height priorKnowledgeSpeedup
      gatherCharacterCounts = .ok (t, x))
    (hres : (bitmapToString fuel m lineNumber lineWidth height priorKnowledgeSpeedup
      gatherCharacterCounts).1 = .ok r)
    (hgood : ¬ (ascii "error" <+: r.text))
    (hcomma : ','.toNat ∉ t) :
    (stringsSplit ','.toNat r.text).length = 5
    ∧ stringsSplit ','.toNat r.text = stringsSplit '|'.toNat t := by
  rw [bitmapToString_fst fuel m lineNumber lineWidth height _ _ t x hrec] at hres
  obtain ⟨h5, htext⟩ := validateLine_record lineNumber t r hres hgood
  have hsplit : stringsSplit ','.toNat r.text = stringsSplit '|'.toNat t := by
    rw [htext]
    refine stringsSplit_joinFields _ _ (stringsSplit_ne_nil _ t) ?_
    intro p hp hmem
    exact hcomma (mem_of_mem_stringsSplit _ t p hp _ hmem)
  exact ⟨by rw [hsplit, h5], hsplit⟩

/-- Witness of C8 amended: the record of the capture of 00:00: and four
separators. -/
theorem bitmapToString_record_fields_witness :
    (stringsSplit ','.toNat (ascii "00:00:,,,,")).length = 5
    ∧ stringsSplit ','.toNat (ascii "00:00:,,,,")
        = stringsSplit '|'.toNat (ascii "00:00:||||") :=
  bitmapToString_record_fields 10 (sampleMemory (ascii "00:00:||||")) 0 10 15 1 1
    (ascii "00:00:||||") 0 ⟨0, ascii "00:00:,,,,"⟩ sample_clock sample_clock_result
    (by decide) (by decide)

/-- C9. The returned result (index and text, or the fault) is the same for any
contents of the character counts and any value of the counting option, the
library, the buffer and the other arguments being the same; in particular a
second call, made in the state the first call left, returns what the first
returned. -/
theorem bitmapToString_deterministic (fuel : Nat) (m : Memory)
    (lineNumber lineWidth height : Nat) (priorKnowledgeSpeedup : Int) :
    (∀ (cc1 cc2 : Fin 256 → Nat) (g1 g2 : Int),
      (bitmapToString fuel { m with charCounts := cc1 } lineNumber lineWidth height
          priorKnowledgeSpeedup g1).1
        = (bitmapToString fuel { m with charCounts := cc2 } lineNumber lineWidth height
          priorKnowledgeSpeedup g2).1)
    ∧ (∀ (g1 g2 : Int),
      (bitmapToString fuel
          (bitmapToString fuel m lineNumber lineWidth height priorKnowledgeSpeedup g1).2
          lineNumber lineWidth height priorKnowledgeSpeedup g2).1
        = (bitmapToString fuel m lineNumber lineWidth height priorKnowledgeSpeedup g1).1) := by
  constructor
  · intro cc1 cc2 g1 g2
    rw [bitmapToString_fst_eq, bitmapToString_fst_eq,
      recognize_text_indep fuel { m with charCounts := cc1 } { m with charCounts := cc2 }
        rfl rfl lineNumber lineWidth height priorKnowledgeSpeedup g1 g2]
  · intro g1 g2
    obtain ⟨hb, hi⟩ := bitmapToString_frame fuel m lineNumber lineWidth height
      priorKnowledgeSpeedup g1
    rw [bitmapToString_fst_eq, bitmapToString_fst_eq,
      recognize_text_indep fuel _ m hb hi lineNumber lineWidth height
        priorKnowledgeSpeedup g2 g1]

/-- Counterexample to C10. With the counting option at 1 (its default), decoding
the capture of sixteen separators raises the count of the separator character
from 0 to 16: the character counts after the call differ from those before. -/
theorem bitmapToString_counts_change :
    (sampleMemory (List.replicate 16 '|'.toNat)).charCounts ⟨124, by decide⟩ = 0
    ∧ (bitmapToString 16 (sampleMemory (List.replicate 16 '|'.toNat)) 0 16 15 1 1).2.charCounts
        ⟨124, by decide⟩ = 16
    ∧ (bitmapToString 16 (sampleMemory (List.replicate 16 '|'.toNat)) 0 16 15 1 1).2.charCounts
        ≠ (sampleMemory (List.replicate 16 '|'.toNat)).charCounts := by
  have h : (bitmapToString 16 (sampleMemory (List.replicate 16 '|'.toNat)) 0 16 15 1
      1).2.charCounts ⟨124, by decide⟩ = 16 := by
    rw [bitmapToString_snd 16 (sampleMemory (List.replicate 16 '|'.toNat)) 0 16 15 1 1 _ 0
      sample_sixteen_bars]
    decide
  refine ⟨rfl, h, ?_⟩
  intro e
  rw [e] at h
  exact absurd h (by decide)

/-- C10, amended. For every input the library and the input buffer are the same
after the call as before it. The character counts are the same as before
whenever the counting option is not 1, and whenever the recognized text has at
most 15 bytes; with the option at 1 and a longer text they are the counts
produced by the counting block. -/
theorem bitmapToString_frame_effect (fuel : Nat) (m : Memory)
    (lineNumber lineWidth height : Nat)
    (priorKnowledgeSpeedup gatherCharacterCounts : Int) :
    (bitmapToString fuel m lineNumber lineWidth height priorKnowledgeSpeedup
        gatherCharacterCounts).2.globalBitmaps = m.globalBitmaps
    ∧ (bitmapToString fuel m lineNumber lineWidth height priorKnowledgeSpeedup
        gatherCharacterCounts).2.imageBytes = m.imageBytes
    ∧ (gatherCharacterCounts ≠ 1 →
        (bitmapToString fuel m lineNumber lineWidth height priorKnowledgeSpeedup
          gatherCharacterCounts).2 = m)
    ∧ (∀ t x, recognize fuel m lineNumber lineWidth height priorKnowledgeSpeedup
          gatherCharacterCounts = .ok (t, x) → t.length ≤ 15 →
        (bitmapToString fuel m lineNumber lineWidth height priorKnowledgeSpeedup
          gatherCharacterCounts).2 = m)
    ∧ (∀ t x, recognize fuel m lineNumber lineWidth height priorKnowledgeSpeedup
          gatherCharacterCounts = .ok (t, x) → gatherCharacterCounts = 1 → 15 < t.length →
        (bitmapToString fuel m lineNumber lineWidth height priorKnowledgeSpeedup
          gatherCharacterCounts).2.charCounts = tally m.charCounts t x) := by
  obtain ⟨hb, hi⟩ := bitmapToString_frame fuel m lineNumber lineWidth height
    priorKnowledgeSpeedup gatherCharacterCounts
  refine ⟨hb, hi, ?_, ?_, ?_⟩
  · intro hg
    unfold bitmapToString
    cases recognize fuel m lineNumber lineWidth height priorKnowledgeSpeedup
        gatherCharacterCounts with
    | error e => rfl
    | ok r => simp [hg]
  · intro t x hrec hl
    rw [bitmapToString_snd fuel m lineNumber lineWidth height _ _ t x hrec]
    have : ¬ t.length > 15 := by omega
    simp [this]
  · intro t x hrec hg hl
    rw [bitmapToString_snd fuel m lineNumber lineWidth height _ _ t x hrec]
    simp [hg, hl]

/-- Witness of C10 amended: with the counting option at 0 the state after
decoding the capture of 0:0:0: and four separators is the state before. -/
theorem bitmapToString_frame_effect_witness :
    (bitmapToString 10 (sampleMemory (ascii "0:0:0:||||")) 0 10 15 1 0).2
      = sampleMemory (ascii "0:0:0:||||") :=
  (bitmapToString_frame_effect 10 (sampleMemory (ascii "0:0:0:||||")) 0 10 15 1 0).2.2.1
    (by decide)

/-! ## Collecting the results of a page -/

theorem validateLine_index (lineNumber : Nat) (t : List Nat) (r : conversionResult)
    (h : validateLine lineNumber t = .ok r) : r.index = lineNumber := by
  unfold validateLine at h
  dsimp only at h
  repeat' split at h
  all_goals first | (cases h; rfl) | cases h

theorem bitmapToString_index (fuel : Nat) (m : Memory) (lineNumber lineWidth height : Nat)
    (pk g : Int) (r : conversionResult)
    (h : (bitmapToString fuel m lineNumber lineWidth height pk g).1 = .ok r) :
    r.index = lineNumber := by
  rw [bitmapToString_fst_eq] at h
  cases hr : (recognize fuel m lineNumber lineWidth height pk g).map Prod.fst with
  | error e => rw [hr] at h; cases h
  | ok t => rw [hr] at h; exact validateLine_index lineNumber t r h

theorem arrivals_ok (worker : Nat → Except Fault conversionResult)
    (results : Nat → conversionResult) (order : List Nat)
    (h : ∀ i ∈ order, worker i = .ok (results i)) :
    arrivals worker order = .ok (order.map results) := by
  induction order with
  | nil => rfl
  | cons i rest ih =>
    simp only [arrivals, h i (by simp), ih (fun j hj => h j (List.mem_cons_of_mem _ hj)),
      List.map_cons]

theorem collectResults_ok (results : Nat → conversionResult) (order : List Nat)
    (hidx : ∀ i ∈ order, (results i).index = i) :
    ∀ textResult : List conversionResult, (∀ i ∈ order, i < textResult.length) →
      collectResults textResult (order.map results)
        = .ok (order.foldl (fun t i => t.set i (results i)) textResult) := by
  induction order with
  | nil => intro textResult _; rfl
  | cons i rest ih =>
    intro textResult h
    have hi : i < textResult.length := h i (by simp)
    simp only [List.map_cons, collectResults, storeResult, hidx i (by simp), hi, if_true,
      List.foldl_cons]
    exact ih (fun j hj => hidx j (List.mem_cons_of_mem _ hj)) _ (fun j hj => by
      rw [List.length_set]; exact h j (List.mem_cons_of_mem _ hj))

theorem foldl_set_length (results : Nat → conversionResult) (order : List Nat) :
    ∀ textResult : List conversionResult,
      (order.foldl (fun t i => t.set i (results i)) textResult).length = textResult.length := by
  induction order with
  | nil => intro textResult; rfl
  | cons i rest ih =>
    intro textResult
    rw [List.foldl_cons, ih, List.length_set]

theorem foldl_set_get (results : Nat → conversionResult) (order : List Nat) :
    ∀ (textResult : List conversionResult) (j : Nat), j < textResult.length → j ∈ order →
      (order.foldl (fun t i => t.set i (results i)) textResult)[j]? = some (results j) := by
  induction order with
  | nil => intro textResult j _ hj; simp at hj
  | cons i rest ih =>
    intro textResult j hlt hj
    rw [List.foldl_cons]
    by_cases hr : j ∈ rest
    · exact ih _ j (by rw [List.length_set]; exact hlt) hr
    · have hji : j = i := by
        rcases List.mem_cons.1 hj with h | h
        · exact h
        · exact absurd h hr
      subst hji
      have hkeep : ∀ (l : List Nat) (t : List conversionResult), j ∉ l →
          (l.foldl (fun t i => t.set i (results i)) t)[j]? = t[j]? := by
        intro l
        induction l with
        | nil => intro t _; rfl
        | cons k ks ihk =>
          intro t hk
          rw [List.foldl_cons, ihk _ (fun h => hk (List.mem_cons_of_mem _ h))]
          have hne : k ≠ j := fun e => hk (by simp [e])
          simp [List.getElem?_set, hne]
      rw [hkeep rest _ hr]
      simp [List.getElem?_set, hlt]

theorem collect_perm (results : Nat → conversionResult) (linesShown : Nat)
    (hidx : ∀ i, i < linesShown → (results i).index = i) (textResult : List conversionResult)
    (hlen : textResult.length = linesShown) (order : List Nat)
    (hperm : order.Perm (List.range linesShown)) :
    collectResults textResult (order.map results)
      = .ok ((List.range linesShown).map results) := by
  have hmem : ∀ i, i ∈ order ↔ i < linesShown := by
    intro i
    rw [hperm.mem_iff, List.mem_range]
  rw [collectResults_ok results order (fun i hi => hidx i ((hmem i).1 hi)) textResult
    (fun i hi => by rw [hlen]; exact (hmem i).1 hi)]
  congr 1
  apply List.ext_getElem?
  intro j
  by_cases hj : j < linesShown
  · rw [foldl_set_get results order textResult j (by rw [hlen]; exact hj) ((hmem j).2 hj)]
    simp [hj]
  · have h1 : (order.foldl (fun t i => t.set i (results i)) textResult).length ≤ j := by
      rw [foldl_set_length, hlen]; omega
    rw [List.getElem?_eq_none h1, List.getElem?_eq_none (by simp; omega)]

/-! ## A line inside a larger capture -/

theorem get_shift (pre buf suf : List Nat) (k v : Nat) (h : buf.get? k = some v) :
    (pre ++ buf ++ suf).get? (pre.length + k) = some v := by
  have hk : k < buf.length := by
    rcases lt_or_ge k buf.length with hlt | hge
    · exact hlt
    · rw [List.get?_eq_none.2 hge] at h; cases h
  simp only [List.get?_eq_getElem?] at h ⊢
  rw [List.append_assoc, List.getElem?_append_right (by omega)]
  simp only [Nat.add_sub_cancel_left]
  rw [List.getElem?_append_left hk]
  exact h

theorem readUint32_shift (pre buf suf : List Nat) (y v : Nat)
    (h : readUint32 buf y = .ok v) :
    readUint32 (pre ++ buf ++ suf) (pre.length + y) = .ok v := by
  unfold readUint32 at h ⊢
  cases h0 : buf.get? y with
  | none => rw [h0] at h; cases h
  | some b0 =>
    rw [h0] at h
    cases h1 : buf.get? (y + 1) with
    | none => rw [h1] at h; cases h
    | some b1 =>
      cases h2 : buf.get? (y + 2) with
      | none => rw [h1, h2] at h; cases h
      | some b2 =>
        cases h3 : buf.get? (y + 3) with
        | none => rw [h1, h2, h3] at h; cases h
        | some b3 =>
          rw [h1, h2, h3] at h
          rw [get_shift pre buf suf y b0 h0, Nat.add_assoc, Nat.add_assoc, Nat.add_assoc,
            get_shift pre buf suf (y + 1) b1 h1, get_shift pre buf suf (y + 2) b2 h2,
            get_shift pre buf suf (y + 3) b3 h3]
          exact h

theorem extractColumn_shift (pre buf suf : List Nat) (stride rows : Nat) :
    ∀ (y : Nat) (col : List Nat), extractColumn buf stride rows y = .ok col →
      extractColumn (pre ++ buf ++ suf) stride rows (pre.length + y) = .ok col := by
  induction rows with
  | zero => intro y col h; exact h
  | succ k ih =>
    intro y col h
    simp only [extractColumn] at h ⊢
    cases hr : readUint32 buf y with
    | error e => rw [hr] at h; cases h
    | ok v =>
      rw [hr] at h
      cases hc : extractColumn buf stride k (y + stride) with
      | error e => rw [hc] at h; cases h
      | ok rest =>
        rw [hc] at h
        rw [readUint32_shift pre buf suf y v hr, Nat.add_assoc, ih _ _ hc]
        exact h

theorem extractLine_shift (pre buf suf : List Nat) (base stride cols : Nat) :
    ∀ (x : Nat) (cells : List Nat), extractLine buf base stride cols x = .ok cells →
      extractLine (pre ++ buf ++ suf) (pre.length + base) stride cols x = .ok cells := by
  induction cols with
  | zero => intro x cells h; exact h
  | succ k ih =>
    intro x cells h
    simp only [extractLine] at h ⊢
    cases hc : extractColumn buf stride 13 (base + 2 * stride + x * 4) with
    | error e => rw [hc] at h; cases h
    | ok column =>
      rw [hc] at h
      cases hl : extractLine buf base stride k (x + 1) with
      | error e => rw [hl] at h; cases h
      | ok rest =>
        rw [hl] at h
        have e : pre.length + base + 2 * stride + x * 4
            = pre.length + (base + 2 * stride + x * 4) := by omega
        rw [e, extractColumn_shift pre buf suf stride 13 _ _ hc, ih _ _ hl]
        exact h

theorem lineAsUint32_shift (pre buf suf : List Nat) (lineNumber lineWidth height : Nat)
    (cells : List Nat) (h : lineAsUint32 buf 0 lineWidth height = .ok cells)
    (hpre : pre.length = lineNumber * height * lineWidth * 4) :
    lineAsUint32 (pre ++ buf ++ suf) lineNumber lineWidth height = .ok cells := by
  unfold lineAsUint32 at h ⊢
  have h0 : 0 * height * lineWidth * 4 = 0 := by simp
  rw [h0] at h
  have := extractLine_shift pre buf suf 0 (lineWidth * 4) lineWidth 0 cells h
  rw [Nat.add_zero, hpre] at this
  exact this

theorem renderLine_length (text : List Nat) : (renderLine text).length = 15 * (4 * text.length) := by
  simp only [renderLine, List.length_flatten, List.map_replicate, List.sum_replicate,
    renderRow_length, smul_eq_mul]

theorem recognize_of_stages (fuel : Nat) (m : Memory) (lineNumber lineWidth height : Nat)
    (pk g : Int) (cells : List Nat) (r : List Nat × Nat)
    (h1 : lineAsUint32 m.imageBytes lineNumber lineWidth height = .ok cells)
    (h2 : scanLine m.globalBitmaps cells lineWidth pk g fuel 0 [] 0 = .ok r) :
    recognize fuel m lineNumber lineWidth height pk g = .ok r := by
  simp only [recognize, h1, h2]

theorem scan_of_recognize_sample (fuel : Nat) (text : List Nat) (pk g : Int)
    (r : List Nat × Nat)
    (h : recognize fuel (sampleMemory text) 0 text.length 15 pk g = .ok r) :
    scanLine sampleFont (text.flatMap (List.replicate 13)) text.length pk g fuel 0 [] 0
      = .ok r := by
  simpa only [recognize, sampleMemory, lineAsUint32_renderLine text 15] using h

theorem recognize_page_line (fuel : Nat) (m : Memory) (pre suf text : List Nat)
    (lineNumber : Nat) (pk g : Int) (r : List Nat × Nat)
    (hfont : m.globalBitmaps = sampleFont)
    (himg : m.imageBytes = pre ++ renderLine text ++ suf)
    (hpre : pre.length = lineNumber * 15 * text.length * 4)
    (h : recognize fuel (sampleMemory text) 0 text.length 15 pk g = .ok r) :
    recognize fuel m lineNumber text.length 15 pk g = .ok r := by
  refine recognize_of_stages fuel m lineNumber text.length 15 pk g
    (text.flatMap (List.replicate 13)) r ?_ ?_
  · rw [himg]
    exact lineAsUint32_shift pre _ suf lineNumber text.length 15 _
      (lineAsUint32_renderLine text 15) hpre
  · rw [hfont]
    exact scan_of_recognize_sample fuel text pk g r h

theorem workerResult_eq (fuel : Nat) (m : Memory) (counts : Nat → Fin 256 → Nat)
    (lineWidth height : Nat) (pk g : Int) (i : Nat) (t : List Nat) (x : Nat)
    (h : recognize fuel { m with charCounts := counts i } i lineWidth height pk g
      = .ok (t, x)) :
    workerResult fuel m counts lineWidth height pk g i = validateLine i t :=
  bitmapToString_fst fuel _ i lineWidth height pk g t x h

theorem validate_clock (lineNumber : Nat) :
    validateLine lineNumber (ascii "00:00:||||")
      = .ok ⟨lineNumber, ascii "00:00:,,,,"⟩ := by
  rw [validateLine_fields lineNumber (ascii "00:00:||||") (ascii "00:00:") [] [] [] []
    (by decide) (by decide)]
  rfl

theorem validate_no_colon (lineNumber : Nat) :
    validateLine lineNumber (ascii "0:0:0:||||") = .ok ⟨lineNumber, ascii "error:5:"⟩ := by
  rw [validateLine_fields lineNumber (ascii "0:0:0:||||") (ascii "0:0:0:") [] [] [] []
    (by decide) (by decide)]
  rfl

theorem sample_page_worker0 (counts : Nat → Fin 256 → Nat) :
    workerResult 10 (pageMemory [ascii "00:00:||||", ascii "0:0:0:||||"]) counts 10 15 1 1 0
      = .ok ⟨0, ascii "00:00:,,,,"⟩ :=
  (workerResult_eq 10 _ counts 10 15 1 1 0 _ 0
    (recognize_page_line 10 _ [] (renderLine (ascii "0:0:0:||||")) (ascii "00:00:||||") 0 1 1
      _ rfl (by simp [pageMemory, renderPage]) rfl sample_clock)).trans (validate_clock 0)

theorem sample_page_worker1 (counts : Nat → Fin 256 → Nat) :
    workerResult 10 (pageMemory [ascii "00:00:||||", ascii "0:0:0:||||"]) counts 10 15 1 1 1
      = .ok ⟨1, ascii "error:5:"⟩ :=
  (workerResult_eq 10 _ counts 10 15 1 1 1 _ 0
    (recognize_page_line 10 _ (renderLine (ascii "00:00:||||")) [] (ascii "0:0:0:||||") 1 1 1
      _ rfl (by simp [pageMemory, renderPage]) (by rw [renderLine_length]; rfl)
      sample_no_colon)).trans (validate_no_colon 1)

theorem bitmapToString_result_indep (fuel : Nat) (m : Memory)
    (lineNumber lineWidth height : Nat) (pk : Int) (cc1 cc2 : Fin 256 → Nat) (g1 g2 : Int) :
    (bitmapToString fuel { m with charCounts := cc1 } lineNumber lineWidth height pk g1).1
      = (bitmapToString fuel { m with charCounts := cc2 } lineNumber lineWidth height pk
          g2).1 := by
  rw [bitmapToString_fst_eq, bitmapToString_fst_eq,
    recognize_text_indep fuel { m with charCounts := cc1 } { m with charCounts := cc2 }
      rfl rfl lineNumber lineWidth height pk g1 g2]

/-! ## The claims on the page decode -/

/-- C11. When every worker of a page of `linesShown` lines returns, the page
decode yields, for every order in which the workers complete (every permutation
of the line numbers) and whatever the result slice held before, the same slice:
it has `linesShown` entries, entry `i` is the result of line `i`, it carries the
index `i`, and it is what `bitmapToString` returns for line `i` with any
contents of the character counts. -/
theorem decodePage_order_independent (fuel : Nat) (m : Memory)
    (counts : Nat → Fin 256 → Nat) (lineWidth height : Nat)
    (priorKnowledgeSpeedup gatherCharacterCounts : Int) (linesShown : Nat)
    (textResult : List conversionResult) (order : List Nat)
    (results : Nat → conversionResult)
    (hlen : textResult.length = linesShown)
    (hperm : order.Perm (List.range linesShown))
    (hret : ∀ i, i < linesShown →
      workerResult fuel m counts lineWidth height priorKnowledgeSpeedup gatherCharacterCounts i
        = .ok (results i)) :
    decodePage (workerResult fuel m counts lineWidth height priorKnowledgeSpeedup
        gatherCharacterCounts) textResult order
      = .ok ((List.range linesShown).map results)
    ∧ ((List.range linesShown).map results).length = linesShown
    ∧ ∀ i, i < linesShown →
        ((List.range linesShown).map results).get? i = some (results i)
        ∧ (results i).index = i
        ∧ ∀ cc : Fin 256 → Nat,
            (bitmapToString fuel { m with charCounts := cc } i lineWidth height
              priorKnowledgeSpeedup gatherCharacterCounts).1 = .ok (results i) := by
  have hidx : ∀ i, i < linesShown → (results i).index = i := fun i hi =>
    bitmapToString_index fuel _ i lineWidth height _ _ _ (hret i hi)
  have hmem : ∀ i, i ∈ order → i < linesShown := fun i hi =>
    List.mem_range.1 (hperm.mem_iff.1 hi)
  refine ⟨?_, by simp, ?_⟩
  · unfold decodePage
    rw [arrivals_ok _ results order (fun i hi => hret i (hmem i hi))]
    exact collect_perm results linesShown hidx textResult hlen order hperm
  · intro i hi
    refine ⟨?_, hidx i hi, ?_⟩
    · simp [List.get?_eq_getElem?, hi]
    · intro cc
      have h := hret i hi
      unfold workerResult at h
      rw [← h]
      exact bitmapToString_result_indep fuel m i lineWidth height priorKnowledgeSpeedup cc
        (counts i) gatherCharacterCounts gatherCharacterCounts

/-- Witness of C11: a page of two lines whose workers complete in the order 1, 0;
line 0 is a record and line 1 a time-format error. -/
theorem decodePage_order_independent_witness :
    decodePage (workerResult 10 (pageMemory [ascii "00:00:||||", ascii "0:0:0:||||"])
        (fun _ _ => 0) 10 15 1 1) [⟨7, []⟩, ⟨7, []⟩] [1, 0]
      = .ok [⟨0, ascii "00:00:,,,,"⟩, ⟨1, ascii "error:5:"⟩] :=
  (decodePage_order_independent 10 (pageMemory [ascii "00:00:||||", ascii "0:0:0:||||"])
    (fun _ _ => 0) 10 15 1 1 2 [⟨7, []⟩, ⟨7, []⟩] [1, 0]
    (fun i => if i = 0 then ⟨0, ascii "00:00:,,,,"⟩ else ⟨1, ascii "error:5:"⟩)
    rfl (by decide)
    (fun i hi => by
      match i, hi with
      | 0, _ => exact sample_page_worker0 _
      | 1, _ => exact sample_page_worker1 _)).1

/-! ## Lemmas on the validation of the descriptions -/

theorem intField_bounds (value : jsonValue) (lo hi : Int) (n : Nat) (hlo : 0 ≤ lo)
    (h : intField value lo hi = some n) : lo ≤ (n : Int) ∧ (n : Int) ≤ hi := by
  unfold intField at h
  cases value with
  | number v =>
    simp only [float64.below, float64.above] at h
    split at h
    · cases h
    · rename_i hc
      simp only [not_or, not_lt] at hc
      obtain ⟨h1, h2⟩ := hc
      have hd : (0 : Int) < v.den := by exact_mod_cast v.den_pos
      have hnum : 0 ≤ v.num := le_trans (Int.mul_nonneg hlo (le_of_lt hd)) h1
      have hq : v.toInt = v.num / (v.den : Int) := by
        unfold float64.toInt
        exact Int.tdiv_eq_ediv hnum (le_of_lt hd)
      have hge : lo ≤ v.num / (v.den : Int) := (Int.le_ediv_iff_mul_le hd).2 h1
      have hle : v.num / (v.den : Int) ≤ hi := Int.ediv_le_of_le_mul hd h2
      have hn : (n : Int) = v.num / (v.den : Int) := by
        have := Option.some.inj h
        rw [← this, hq]
        exact Int.toNat_of_nonneg (le_trans hlo hge)
      rw [hn]
      exact ⟨hge, hle⟩
  | absent => cases h
  | str s => cases h
  | other => cases h

theorem validateEntry_keep (e : fontEntry) (n : bitmapSourceInfo)
    (h : validateEntry e = .keep n) :
    e.Character = .str n.Character ∧ n.Character.length ≤ 1
    ∧ e.FileName = .str n.FileName ∧ n.FileName ≠ [] ∧ n.FileName ≠ ascii "?"
    ∧ intField e.Width 1 30 = some n.Width ∧ intField e.Height 1 40 = some n.Height
    ∧ intField e.XOffset 0 4000 = some n.XOffset
    ∧ intField e.YOffset 0 3000 = some n.YOffset := by
  unfold validateEntry at h
  cases hc : e.Character with
  | str c =>
    rw [hc] at h
    simp only at h
    split at h
    · cases h
    · rename_i hlen
      cases hf : e.FileName with
      | str f =>
        rw [hf] at h
        simp only at h
        split at h
        · cases h
        · rename_i hf0
          split at h
          · cases h
          · rename_i hq
            cases hw : intField e.Width 1 30 with
            | none => rw [hw] at h; cases h
            | some w =>
              cases hh : intField e.Height 1 40 with
              | none => rw [hw, hh] at h; cases h
              | some ht =>
                cases hx : intField e.XOffset 0 4000 with
                | none => rw [hw, hh, hx] at h; cases h
                | some xo =>
                  cases hy : intField e.YOffset 0 3000 with
                  | none => rw [hw, hh, hx, hy] at h; cases h
                  | some yo =>
                    rw [hw, hh, hx, hy] at h
                    simp only [entryResult.keep.injEq] at h
                    subst h
                    refine ⟨rfl, by simpa using hlen, rfl, ?_, hq, rfl, rfl, rfl, rfl⟩
                    intro e0
                    exact hf0 (by rw [show f = [] from e0]; rfl)
      | absent => rw [hf] at h; cases h
      | number v => rw [hf] at h; cases h
      | other => rw [hf] at h; cases h
  | absent => rw [hc] at h; cases h
  | number v => rw [hc] at h; cases h
  | other => rw [hc] at h; cases h

theorem validateEntry_bounds (e : fontEntry) (n : bitmapSourceInfo)
    (h : validateEntry e = .keep n) :
    1 ≤ n.Width ∧ n.Width ≤ 30 ∧ 1 ≤ n.Height ∧ n.Height ≤ 40 := by
  obtain ⟨_, _, _, _, _, hw, hh, _, _⟩ := validateEntry_keep e n h
  have bw := intField_bounds _ 1 30 _ (by decide) hw
  have bh := intField_bounds _ 1 40 _ (by decide) hh
  omega

theorem validateAll_reject (results : List fontEntry) (e : fontEntry) (he : e ∈ results)
    (h : validateEntry e = .reject) : validateAll results = none := by
  induction results with
  | nil => cases he
  | cons r rest ih =>
    rcases List.mem_cons.1 he with rfl | hin
    · simp only [validateAll, h]
    · have := ih hin
      simp only [validateAll, this]
      cases validateEntry r <;> rfl

theorem validateAll_mem (results : List fontEntry) :
    ∀ srcs, validateAll results = some srcs →
      ∀ n ∈ srcs, ∃ e ∈ results, validateEntry e = .keep n := by
  induction results with
  | nil =>
    intro srcs h n hn
    simp only [validateAll, Option.some.injEq] at h
    subst h
    cases hn
  | cons r rest ih =>
    intro srcs h n hn
    simp only [validateAll] at h
    cases hr : validateEntry r with
    | reject => rw [hr] at h; cases h
    | skip =>
      rw [hr] at h
      obtain ⟨e, he, hk⟩ := ih srcs h n hn
      exact ⟨e, List.mem_cons_of_mem _ he, hk⟩
    | keep m =>
      rw [hr] at h
      cases hv : validateAll rest with
      | none => rw [hv] at h; cases h
      | some others =>
        rw [hv] at h
        simp only [Option.some.injEq] at h
        subst h
        rcases List.mem_cons.1 hn with rfl | hin
        · exact ⟨r, by simp, hr⟩
        · obtain ⟨e, he, hk⟩ := ih others hv n hin
          exact ⟨e, List.mem_cons_of_mem _ he, hk⟩

theorem extractBitmap_shape (files : List Nat → fontFile) (n : bitmapSourceInfo)
    (b : bitmapSave) (h : extractBitmap files n = .ok b) :
    n.Character.get? 0 = some b.Character ∧ b.Width = n.Width ∧ b.Height = n.Height
    ∧ ∃ picture, files n.FileName = .nrgba picture ∧ picture.Stride = picture.MaxX * 4
      ∧ extractPixels picture n = .ok b.Pixels := by
  unfold extractBitmap at h
  cases hc : n.Character.get? 0 with
  | none => rw [hc] at h; cases h
  | some c =>
    rw [hc] at h
    simp only at h
    cases hf : files n.FileName with
    | nrgba picture =>
      rw [hf] at h
      simp only at h
      split at h
      · cases h
      · rename_i hs
        cases hp : extractPixels picture n with
        | error e => rw [hp] at h; cases h
        | ok px =>
          rw [hp] at h
          simp only [Except.ok.injEq] at h
          subst h
          exact ⟨rfl, rfl, rfl, picture, rfl, by simpa using hs, hp⟩
    | missing => rw [hf] at h; cases h
    | unreadable => rw [hf] at h; cases h
    | undecodable => rw [hf] at h; cases h
    | notNRGBA => rw [hf] at h; cases h

theorem extractAll_mem (files : List Nat → fontFile) (srcs : List bitmapSourceInfo) :
    ∀ bs, extractAll files srcs = .ok bs →
      bs.length = srcs.length ∧ ∀ b ∈ bs, ∃ n ∈ srcs, extractBitmap files n = .ok b := by
  induction srcs with
  | nil =>
    intro bs h
    simp only [extractAll, Except.ok.injEq] at h
    subst h
    exact ⟨rfl, fun b hb => by cases hb⟩
  | cons n rest ih =>
    intro bs h
    simp only [extractAll] at h
    cases hb : extractBitmap files n with
    | error e => rw [hb] at h; cases h
    | ok b0 =>
      rw [hb] at h
      cases hr : extractAll files rest with
      | error e => rw [hr] at h; cases h
      | ok others =>
        rw [hr] at h
        simp only [Except.ok.injEq] at h
        subst h
        obtain ⟨hl, hm⟩ := ih others hr
        refine ⟨by simp [hl], ?_⟩
        intro b hbm
        rcases List.mem_cons.1 hbm with rfl | hin
        · exact ⟨n, by simp, hb⟩
        · obtain ⟨m, hm1, hm2⟩ := hm b hin
          exact ⟨m, List.mem_cons_of_mem _ hm1, hm2⟩

/-! ## Lemmas on the priority order -/

theorem prioritizeCharacter_spec (v : Nat) (bs : List bitmapSave) :
    ∀ (done : List bitmapSave) (k : Nat),
      (bs.filter fun b => b.Character = v).length ≤ k →
      prioritizeCharacter v bs (done ++ List.replicate k zeroBitmap, done.length)
        = .ok (done ++ (bs.filter fun b => b.Character = v)
            ++ List.replicate (k - (bs.filter fun b => b.Character = v).length) zeroBitmap,
          done.length + (bs.filter fun b => b.Character = v).length) := by
  induction bs with
  | nil => intro done k _; simp [prioritizeCharacter]
  | cons b rest ih =>
    intro done k hk
    by_cases hb : b.Character = v
    · have hf : ((b :: rest).filter fun b => b.Character = v)
          = b :: rest.filter fun b => b.Character = v := by simp [hb]
      rw [hf] at hk ⊢
      simp only [List.length_cons] at hk
      obtain ⟨j, rfl⟩ : ∃ j, k = j + 1 := ⟨k - 1, by omega⟩
      have hset : (done ++ List.replicate (j + 1) zeroBitmap).set done.length b
          = (done ++ [b]) ++ List.replicate j zeroBitmap := by
        rw [List.set_append_right _ _ (le_refl _)]
        simp [List.replicate_succ]
      have hlt : done.length < (done ++ List.replicate (j + 1) zeroBitmap).length := by
        simp
      have hd : done.length + 1 = (done ++ [b]).length := by simp
      simp only [prioritizeCharacter, hb, if_true, hlt, hset]
      rw [hd, ih (done ++ [b]) j (by omega)]
      simp only [List.length_append, List.length_cons, List.length_nil, List.append_assoc,
        List.singleton_append, Nat.add_sub_add_right]
      congr 2
      omega
    · have hf : ((b :: rest).filter fun b => b.Character = v)
          = rest.filter fun b => b.Character = v := by simp [hb]
      rw [hf] at hk ⊢
      simp only [prioritizeCharacter, hb, if_false]
      exact ih done k hk

theorem prioritize_spec (extracted : List bitmapSave) (list : List Nat) :
    ∀ (done : List bitmapSave) (k : Nat), (priorityPart extracted list).length ≤ k →
      prioritize extracted list (done ++ List.replicate k zeroBitmap, done.length)
        = .ok (done ++ priorityPart extracted list
            ++ List.replicate (k - (priorityPart extracted list).length) zeroBitmap,
          done.length + (priorityPart extracted list).length) := by
  induction list with
  | nil => intro done k _; simp [prioritize, priorityPart]
  | cons v rest ih =>
    intro done k hk
    have hp : priorityPart extracted (v :: rest)
        = (extracted.filter fun b => b.Character = v) ++ priorityPart extracted rest := by
      simp [priorityPart]
    rw [hp] at hk ⊢
    simp only [List.length_append] at hk
    simp only [prioritize]
    rw [prioritizeCharacter_spec v extracted done k (by omega)]
    simp only []
    have hd : done.length + (extracted.filter fun b => b.Character = v).length
        = (done ++ extracted.filter fun b => b.Character = v).length := by simp
    rw [hd, ih _ _ (by omega)]
    simp only [List.length_append, List.append_assoc, Nat.sub_sub, Nat.add_assoc]

theorem filter_mem_cons_length (xs : List bitmapSave) (v : Nat) (rest : List Nat)
    (hv : v ∉ rest) :
    (xs.filter fun b => b.Character ∈ v :: rest).length
      = (xs.filter fun b => b.Character = v).length
        + (xs.filter fun b => b.Character ∈ rest).length := by
  induction xs with
  | nil => rfl
  | cons b bs ih =>
    by_cases h1 : b.Character = v
    · simp [List.filter_cons, h1, hv] at ih ⊢
      omega
    · by_cases h2 : b.Character ∈ rest
      · simp [List.filter_cons, h1, h2] at ih ⊢
        omega
      · simp [List.filter_cons, h1, h2] at ih ⊢
        omega

theorem priorityPart_length (xs : List bitmapSave) (list : List Nat) (hnd : list.Nodup) :
    (priorityPart xs list).length = (xs.filter fun b => b.Character ∈ list).length := by
  induction list with
  | nil => simp [priorityPart]
  | cons v rest ih =>
    have hv : v ∉ rest := (List.nodup_cons.1 hnd).1
    have hp : priorityPart xs (v :: rest)
        = (xs.filter fun b => b.Character = v) ++ priorityPart xs rest := by
      simp [priorityPart]
    rw [hp, List.length_append, ih (List.nodup_cons.1 hnd).2,
      filter_mem_cons_length xs v rest hv]

theorem priorityPart_length_le (xs : List bitmapSave) (list : List Nat) (hnd : list.Nodup) :
    (priorityPart xs list).length ≤ xs.length := by
  rw [priorityPart_length xs list hnd]
  exact List.length_filter_le _ _

theorem extractionList_nodup : extractionList.Nodup := by decide

theorem extractBitmap_error (files : List Nat → fontFile) (n : bitmapSourceInfo)
    (e : loadOutcome) (h : extractBitmap files n = .error e) :
    e = .panic ∨ e = .fontDataError := by
  unfold extractBitmap at h
  repeat' split at h
  all_goals first
    | (cases h; exact Or.inl rfl)
    | (cases h; exact Or.inr rfl)
    | cases h

theorem extractAll_error (files : List Nat → fontFile) (srcs : List bitmapSourceInfo)
    (e : loadOutcome) (h : extractAll files srcs = .error e) :
    e = .panic ∨ e = .fontDataError := by
  induction srcs with
  | nil => cases h
  | cons n rest ih =>
    simp only [extractAll] at h
    cases hb : extractBitmap files n with
    | error e0 =>
      rw [hb] at h
      cases h
      exact extractBitmap_error files n _ hb
    | ok b0 =>
      rw [hb] at h
      cases hr : extractAll files rest with
      | error e1 =>
        rw [hr] at h
        cases h
        exact ih hr
      | ok others => rw [hr] at h; cases h

theorem loadFontBitmaps_loaded (results : List fontEntry) (files : List Nat → fontFile)
    (lib : List bitmapSave) (h : loadFontBitmaps results files = .loaded lib) :
    ∃ srcs extracted, validateAll results = some srcs
      ∧ extractAll files srcs = .ok extracted
      ∧ describedBitmaps results files = some extracted
      ∧ srcs.length ≤ globalNofBitmaps
      ∧ lib = priorityPart extracted extractionList
          ++ List.replicate (extracted.length - (priorityPart extracted extractionList).length)
              zeroBitmap := by
  unfold loadFontBitmaps at h
  cases hv : validateAll results with
  | none => rw [hv] at h; cases h
  | some srcs =>
    rw [hv] at h
    simp only at h
    cases he : extractAll files srcs with
    | error e =>
      rw [he] at h
      simp only at h
      rcases extractAll_error files srcs e he with rfl | rfl <;> cases h
    | ok extracted =>
      rw [he] at h
      simp only at h
      have hl := (extractAll_mem files srcs extracted he).1
      have hle := priorityPart_length_le extracted extractionList extractionList_nodup
      have hs := prioritize_spec extracted extractionList [] srcs.length (by omega)
      simp only [List.nil_append, List.length_nil, Nat.zero_add] at hs
      rw [hs] at h
      simp only at h
      split at h
      · cases h
      · rename_i hcap
        simp only [loadOutcome.loaded.injEq] at h
        refine ⟨srcs, extracted, rfl, he, ?_, by omega, ?_⟩
        · simp [describedBitmaps, hv, he]
        · rw [← h, hl]

theorem mem_priorityPart (xs : List bitmapSave) (list : List Nat) (b : bitmapSave) :
    b ∈ priorityPart xs list ↔ b ∈ xs ∧ b.Character ∈ list := by
  simp only [priorityPart, List.mem_flatMap, List.mem_filter, decide_eq_true_eq]
  constructor
  · rintro ⟨v, hv, hb, hc⟩
    exact ⟨hb, by rw [hc]; exact hv⟩
  · rintro ⟨hb, hc⟩
    exact ⟨b.Character, hc, hb, rfl⟩

theorem zero_not_listed : zeroBitmap.Character ∉ extractionList := by decide

theorem mem_library (extracted : List bitmapSave) (k : Nat) (b : bitmapSave)
    (hb : b ∈ priorityPart extracted extractionList ++ List.replicate k zeroBitmap)
    (hc : b.Character ∈ extractionList) : b ∈ extracted := by
  rcases List.mem_append.1 hb with h | h
  · exact ((mem_priorityPart extracted extractionList b).1 h).1
  · rw [(List.mem_replicate.1 h).2] at hc
    exact absurd hc zero_not_listed

theorem library_get (extracted : List bitmapSave) (k a : Nat) (b : bitmapSave)
    (hb : (priorityPart extracted extractionList ++ List.replicate k zeroBitmap).get? a
      = some b)
    (hc : b.Character ∈ extractionList) :
    (priorityPart extracted extractionList).get? a = some b := by
  simp only [List.get?_eq_getElem?] at hb ⊢
  rcases lt_or_ge a (priorityPart extracted extractionList).length with hlt | hge
  · rw [List.getElem?_append_left hlt] at hb
    exact hb
  · rw [List.getElem?_append_right hge] at hb
    have hm := List.getElem?_mem hb
    rw [(List.mem_replicate.1 hm).2] at hc
    exact absurd hc zero_not_listed

theorem priorityPart_filter (xs : List bitmapSave) (list : List Nat) (hnd : list.Nodup)
    (v : Nat) (hv : v ∈ list) :
    (priorityPart xs list).filter (fun b => b.Character = v)
      = xs.filter (fun b => b.Character = v) := by
  induction list with
  | nil => cases hv
  | cons w rest ih =>
    have hw : w ∉ rest := (List.nodup_cons.1 hnd).1
    have hp : priorityPart xs (w :: rest)
        = (xs.filter fun b => b.Character = w) ++ priorityPart xs rest := by
      simp [priorityPart]
    rw [hp, List.filter_append, List.filter_filter]
    by_cases hwv : w = v
    · subst hwv
      have hnone : (priorityPart xs rest).filter (fun b => b.Character = w) = [] := by
        rw [List.filter_eq_nil_iff]
        intro b hb
        have := ((mem_priorityPart xs rest b).1 hb).2
        simp only [decide_eq_true_eq]
        intro e
        exact hw (e ▸ this)
      rw [hnone, List.append_nil]
      congr 1
      funext b
      simp
    · have hvr : v ∈ rest := by
        rcases List.mem_cons.1 hv with h | h
        · exact absurd h.symm hwv
        · exact h
      have hnone : xs.filter (fun b => decide (b.Character = v) && decide (b.Character = w))
          = [] := by
        rw [List.filter_eq_nil_iff]
        intro b _
        simp only [Bool.and_eq_true, decide_eq_true_eq, not_and]
        intro e1 e2
        exact hwv (e2.symm.trans e1)
      rw [hnone, List.nil_append]
      exact ih (List.nodup_cons.1 hnd).2 hvr

theorem priorityPart_order (xs : List bitmapSave) (list : List Nat) (hnd : list.Nodup) :
    ∀ (a b p q : Nat) (ba bb : bitmapSave),
      (priorityPart xs list).get? a = some ba → (priorityPart xs list).get? b = some bb →
      list.get? p = some ba.Character → list.get? q = some bb.Character → p < q → a < b := by
  induction list with
  | nil => intro a b p q ba bb _ _ hp; simp at hp
  | cons w rest ih =>
    intro a b p q ba bb ha hb hp hq hpq
    have hw : w ∉ rest := (List.nodup_cons.1 hnd).1
    have hsplit : priorityPart xs (w :: rest)
        = (xs.filter fun b => b.Character = w) ++ priorityPart xs rest := by
      simp [priorityPart]
    rw [hsplit] at ha hb
    simp only [List.get?_eq_getElem?] at ha hb hp hq ih
    have hhead : ∀ (i : Nat) (c : bitmapSave),
        ((xs.filter fun b => b.Character = w) ++ priorityPart xs rest)[i]? = some c →
        c.Character ≠ w →
        (xs.filter fun b => b.Character = w).length ≤ i
        ∧ (priorityPart xs rest)[i - (xs.filter fun b => b.Character = w).length]? = some c := by
      intro i c hi hc
      rcases lt_or_ge i (xs.filter fun b => b.Character = w).length with hlt | hge
      · rw [List.getElem?_append_left hlt] at hi
        have hm := List.getElem?_mem hi
        simp only [List.mem_filter, decide_eq_true_eq] at hm
        exact absurd hm.2 hc
      · rw [List.getElem?_append_right hge] at hi
        exact ⟨hge, hi⟩
    obtain ⟨q', rfl⟩ : ∃ q', q = q' + 1 := ⟨q - 1, by omega⟩
    simp only [List.getElem?_cons_succ] at hq
    have hbq : bb.Character ≠ w := by
      intro e
      exact hw (e ▸ List.getElem?_mem hq)
    obtain ⟨hbge, hb'⟩ := hhead b bb hb hbq
    cases p with
    | zero =>
      simp only [List.getElem?_cons_zero, Option.some.injEq] at hp
      rcases lt_or_ge a (xs.filter fun b => b.Character = w).length with hlt | hge
      · omega
      · rw [List.getElem?_append_right hge] at ha
        have hm := List.getElem?_mem ha
        have := ((mem_priorityPart xs rest ba).1 hm).2
        rw [← hp] at this
        exact absurd this hw
    | succ p' =>
      simp only [List.getElem?_cons_succ] at hp
      have hap : ba.Character ≠ w := by
        intro e
        exact hw (e ▸ List.getElem?_mem hp)
      obtain ⟨hage, ha'⟩ := hhead a ba ha hap
      have := ih (List.nodup_cons.1 hnd).2 _ _ p' q' ba bb ha' hb' hp hq (by omega)
      omega

theorem intField_rejected (value : jsonValue) (hi : Int) (h : sizeRejected value hi) :
    intField value 1 hi = none := by
  cases value with
  | number v =>
    simp only [sizeRejected] at h
    simp only [intField, h, if_true]
  | absent => rfl
  | str s => rfl
  | other => rfl

theorem validateEntry_size (e : fontEntry) (hq : e.FileName ≠ .str (ascii "?"))
    (h : sizeRejected e.Width 30 ∨ sizeRejected e.Height 40) :
    validateEntry e = .reject := by
  unfold validateEntry
  cases hc : e.Character with
  | str c =>
    simp only
    split
    · rfl
    · cases hf : e.FileName with
      | str f =>
        simp only
        split
        · rfl
        · split
          · rename_i hf2
            rw [hf, hf2] at hq
            exact absurd rfl hq
          · rcases h with h | h
            · rw [intField_rejected _ 30 h]
            · rw [intField_rejected _ 40 h]
              cases intField e.Width 1 30 <;> rfl
      | absent => rfl
      | number v => rfl
      | other => rfl
  | absent => rfl
  | number v => rfl
  | other => rfl

theorem loadFontBitmaps_reject (results : List fontEntry) (files : List Nat → fontFile)
    (e : fontEntry) (he : e ∈ results) (h : validateEntry e = .reject) :
    loadFontBitmaps results files = .fontDataError := by
  unfold loadFontBitmaps
  rw [validateAll_reject results e he h]

theorem loadFontBitmaps_long_character (results : List fontEntry)
    (files : List Nat → fontFile) (e : fontEntry) (he : e ∈ results) (c : List Nat)
    (hc : e.Character = .str c) (hlen : 1 < c.length) :
    loadFontBitmaps results files = .fontDataError := by
  refine loadFontBitmaps_reject results files e he ?_
  unfold validateEntry
  rw [hc]
  simp only [gt_iff_lt, hlen, if_true]

theorem library_template (results : List fontEntry) (files : List Nat → fontFile)
    (lib : List bitmapSave) (h : loadFontBitmaps results files = .loaded lib)
    (b : bitmapSave) (hb : b ∈ lib) (hc : b.Character ∈ extractionList) :
    ∃ e ∈ results, ∃ n, validateEntry e = .keep n ∧ extractBitmap files n = .ok b := by
  obtain ⟨srcs, extracted, hv, he, _, _, hlib⟩ := loadFontBitmaps_loaded results files lib h
  rw [hlib] at hb
  have hbe := mem_library extracted _ b hb hc
  obtain ⟨n, hn, hx⟩ := (extractAll_mem files srcs extracted he).2 b hbe
  obtain ⟨e, hein, hk⟩ := validateAll_mem results srcs hv n hn
  exact ⟨e, hein, n, hk, hx⟩

/-! ## The claims on the template library -/

/-- Counterexample to C12. Two descriptions whose heights are 13 and 14 load
without an error, and the two templates of the loaded library have different
heights. -/
theorem loadFontBitmaps_mixed_heights :
    loadFontBitmaps [sampleEntry (ascii "0") 1 13, sampleEntry (ascii "1") 1 14] sampleFiles
      = .loaded [⟨'0'.toNat, 1, 13, samplePixels 13⟩, ⟨'1'.toNat, 1, 14, samplePixels 14⟩] := by
  decide

/-- C12, amended. Heights are checked one by one and are not compared with each
other: when `loadFontBitmaps` succeeds, every template of the loaded library for
a character of the priority list has the height of a validated description, a
value from 1 to 40. -/
theorem loadFontBitmaps_heights (results : List fontEntry) (files : List Nat → fontFile)
    (lib : List bitmapSave) (h : loadFontBitmaps results files = .loaded lib)
    (b : bitmapSave) (hb : b ∈ lib) (hc : b.Character ∈ extractionList) :
    ∃ e ∈ results, ∃ n, validateEntry e = .keep n ∧ b.Height = n.Height
      ∧ intField e.Height 1 40 = some b.Height ∧ 1 ≤ b.Height ∧ b.Height ≤ 40 := by
  obtain ⟨e, he, n, hk, hx⟩ := library_template results files lib h b hb hc
  obtain ⟨_, hbh, _⟩ := (extractBitmap_shape files n b hx).2
  obtain ⟨_, _, h3, h4⟩ := validateEntry_bounds e n hk
  obtain ⟨_, _, _, _, _, _, hh, _, _⟩ := validateEntry_keep e n hk
  exact ⟨e, he, n, hk, hbh, by rw [hbh]; exact hh, by omega, by omega⟩

/-- Witness of C12 amended: the second template of the library loaded from the
descriptions with heights 13 and 14. -/
theorem loadFontBitmaps_heights_witness :
    ∃ e ∈ [sampleEntry (ascii "0") 1 13, sampleEntry (ascii "1") 1 14], ∃ n,
      validateEntry e = .keep n ∧ 14 = n.Height
      ∧ intField e.Height 1 40 = some 14 ∧ 1 ≤ 14 ∧ 14 ≤ 40 :=
  loadFontBitmaps_heights [sampleEntry (ascii "0") 1 13, sampleEntry (ascii "1") 1 14]
    sampleFiles [⟨'0'.toNat, 1, 13, samplePixels 13⟩, ⟨'1'.toNat, 1, 14, samplePixels 14⟩]
    (by decide) ⟨'1'.toNat, 1, 14, samplePixels 14⟩ (by decide) (by decide)

/-- C13, evaluated at the failing input. A description whose Character is the
empty string passes the validation loop, and the load then does not return an
error: reading the first byte of the empty string panics. -/
theorem loadFontBitmaps_empty_character :
    validateEntry (sampleEntry [] 1 13) = .keep ⟨[], 1, 13, 0, 0, ascii "a.png"⟩
    ∧ loadFontBitmaps [sampleEntry [] 1 13] sampleFiles = .panic := by
  decide

/-- C14. Every description that is not skipped for the file name ? and whose
Width or Height is missing, is not a number, is below 1 or is above 30 (Width)
or 40 (Height) makes the load fail with the font data error; every validated
description, and every template of a loaded library for a character of the
priority list, has a Width from 1 to 30 and a Height from 1 to 40. -/
theorem loadFontBitmaps_size_checked (results : List fontEntry)
    (files : List Nat → fontFile) :
    (∀ e ∈ results, e.FileName ≠ .str (ascii "?") →
        sizeRejected e.Width 30 ∨ sizeRejected e.Height 40 →
        loadFontBitmaps results files = .fontDataError)
    ∧ (∀ srcs, validateAll results = some srcs → ∀ n ∈ srcs,
        1 ≤ n.Width ∧ n.Width ≤ 30 ∧ 1 ≤ n.Height ∧ n.Height ≤ 40)
    ∧ (∀ lib, loadFontBitmaps results files = .loaded lib → ∀ b ∈ lib,
        b.Character ∈ extractionList →
        1 ≤ b.Width ∧ b.Width ≤ 30 ∧ 1 ≤ b.Height ∧ b.Height ≤ 40) := by
  refine ⟨?_, ?_, ?_⟩
  · intro e he hq hbad
    exact loadFontBitmaps_reject results files e he (validateEntry_size e hq hbad)
  · intro srcs hv n hn
    obtain ⟨e, _, hk⟩ := validateAll_mem results srcs hv n hn
    exact validateEntry_bounds e n hk
  · intro lib h b hb hc
    obtain ⟨e, _, n, hk, hx⟩ := library_template results files lib h b hb hc
    obtain ⟨_, hbw, hbh, _⟩ := extractBitmap_shape files n b hx
    rw [hbw, hbh]
    exact validateEntry_bounds e n hk

/-- Witness of C14: a description with Width 31 is rejected. -/
theorem loadFontBitmaps_size_checked_witness :
    loadFontBitmaps [sampleEntry (ascii "1") 31 2] sampleFiles = .fontDataError :=
  (loadFontBitmaps_size_checked [sampleEntry (ascii "1") 31 2] sampleFiles).1
    (sampleEntry (ascii "1") 31 2) (by simp) (by decide) (Or.inl (Or.inr (by decide)))

/-- C15, evaluated at the failing input. One valid description for the character
A, which is not in the priority list: the load succeeds, the validated template
is dropped and the library of one entry holds the zero value instead. -/
theorem loadFontBitmaps_unlisted_character :
    describedBitmaps [sampleEntry (ascii "A") 1 13] sampleFiles
      = some [⟨'A'.toNat, 1, 13, samplePixels 13⟩]
    ∧ loadFontBitmaps [sampleEntry (ascii "A") 1 13] sampleFiles = .loaded [zeroBitmap]
    ∧ 'A'.toNat ∉ extractionList := by
  decide

/-- C16. After a successful load the templates for characters of the priority
list stand in the library in the order of that list: of two library entries
whose characters are at the positions p < q of the priority list, the one for p
has the smaller library index, whatever the order of the descriptions; and the
templates of one character are in the library in the order of their
descriptions. -/
theorem loadFontBitmaps_priority_order (results : List fontEntry)
    (files : List Nat → fontFile) (lib : List bitmapSave)
    (h : loadFontBitmaps results files = .loaded lib) :
    ∃ extracted, describedBitmaps results files = some extracted
      ∧ (∀ (a b p q : Nat) (ba bb : bitmapSave),
          lib.get? a = some ba → lib.get? b = some bb →
          extractionList.get? p = some ba.Character →
          extractionList.get? q = some bb.Character → p < q → a < b)
      ∧ (∀ v ∈ extractionList,
          lib.filter (fun b => b.Character = v) = extracted.filter (fun b => b.Character = v)) := by
  obtain ⟨srcs, extracted, _, _, hd, _, hlib⟩ := loadFontBitmaps_loaded results files lib h
  refine ⟨extracted, hd, ?_, ?_⟩
  · intro a b p q ba bb ha hb hp hq hpq
    rw [hlib] at ha hb
    have ha' := library_get extracted _ a ba ha (List.get?_mem hp)
    have hb' := library_get extracted _ b bb hb (List.get?_mem hq)
    exact priorityPart_order extracted extractionList extractionList_nodup a b p q ba bb
      ha' hb' hp hq hpq
  · intro v hv
    rw [hlib, List.filter_append,
      priorityPart_filter extracted extractionList extractionList_nodup v hv]
    have hz : (List.replicate (extracted.length
          - (priorityPart extracted extractionList).length) zeroBitmap).filter
        (fun b => b.Character = v) = [] := by
      rw [List.filter_eq_nil_iff]
      intro b hb
      rw [(List.mem_replicate.1 hb).2]
      simp only [decide_eq_true_eq]
      intro e
      exact zero_not_listed (e ▸ hv)
    rw [hz, List.append_nil]

/-- Witness of C16: descriptions in the order 1, |, 1 give the library |, 1, 1
with the two templates of 1 in the order of their descriptions. -/
theorem loadFontBitmaps_priority_order_witness :
    ∃ extracted,
      describedBitmaps [sampleEntry (ascii "1") 1 2, sampleEntry (ascii "|") 1 1,
        sampleEntry (ascii "1") 1 3] sampleFiles = some extracted
      ∧ (∀ (a b p q : Nat) (ba bb : bitmapSave),
          [(⟨'|'.toNat, 1, 1, samplePixels 1⟩ : bitmapSave), ⟨'1'.toNat, 1, 2, samplePixels 2⟩,
            ⟨'1'.toNat, 1, 3, samplePixels 3⟩].get? a = some ba →
          [(⟨'|'.toNat, 1, 1, samplePixels 1⟩ : bitmapSave), ⟨'1'.toNat, 1, 2, samplePixels 2⟩,
            ⟨'1'.toNat, 1, 3, samplePixels 3⟩].get? b = some bb →
          extractionList.get? p = some ba.Character →
          extractionList.get? q = some bb.Character → p < q → a < b)
      ∧ (∀ v ∈ extractionList,
          [(⟨'|'.toNat, 1, 1, samplePixels 1⟩ : bitmapSave), ⟨'1'.toNat, 1, 2, samplePixels 2⟩,
            ⟨'1'.toNat, 1, 3, samplePixels 3⟩].filter (fun b => b.Character = v)
            = extracted.filter (fun b => b.Character = v)) :=
  loadFontBitmaps_priority_order
    [sampleEntry (ascii "1") 1 2, sampleEntry (ascii "|") 1 1, sampleEntry (ascii "1") 1 3]
    sampleFiles
    [⟨'|'.toNat, 1, 1, samplePixels 1⟩, ⟨'1'.toNat, 1, 2, samplePixels 2⟩,
      ⟨'1'.toNat, 1, 3, samplePixels 3⟩] (by decide)

/-! ## Lemmas on the pixel format -/

theorem packPixel_bytes (r g b a : Nat) (hr : r < 256) (hg : g < 256) (hb : b < 256) :
    packPixel (r + 256 * g + 65536 * b + 16777216 * a) = r * 65536 + g * 256 + b := by
  have e0 : (r + 256 * g + 65536 * b + 16777216 * a) &&& 255 = r := by
    have := Nat.and_pow_two_sub_one_eq_mod (r + 256 * g + 65536 * b + 16777216 * a) 8
    simp only [show (2 : Nat) ^ 8 - 1 = 255 from rfl, show (2 : Nat) ^ 8 = 256 from rfl] at this
    rw [this]
    omega
  have e1 : ((r + 256 * g + 65536 * b + 16777216 * a) >>> 8) &&& 255 = g := by
    have := Nat.and_pow_two_sub_one_eq_mod ((r + 256 * g + 65536 * b + 16777216 * a) >>> 8) 8
    simp only [show (2 : Nat) ^ 8 - 1 = 255 from rfl, show (2 : Nat) ^ 8 = 256 from rfl] at this
    rw [this, Nat.shiftRight_eq_div_pow]
    simp only [show (2 : Nat) ^ 8 = 256 from rfl]
    omega
  have e2 : ((r + 256 * g + 65536 * b + 16777216 * a) >>> 16) &&& 255 = b := by
    have := Nat.and_pow_two_sub_one_eq_mod ((r + 256 * g + 65536 * b + 16777216 * a) >>> 16) 8
    simp only [show (2 : Nat) ^ 8 - 1 = 255 from rfl, show (2 : Nat) ^ 8 = 256 from rfl] at this
    rw [this, Nat.shiftRight_eq_div_pow]
    simp only [show (2 : Nat) ^ 16 = 65536 from rfl]
    omega
  have o1 : (r <<< 16) ||| (g <<< 8) = 2 ^ 8 * (2 ^ 8 * r + g) := by
    have h := Nat.mul_add_lt_is_or (show g <<< 8 < 2 ^ 16 by
      rw [Nat.shiftLeft_eq]; simp only [show (2 : Nat) ^ 8 = 256 from rfl,
        show (2 : Nat) ^ 16 = 65536 from rfl]; omega) r
    rw [Nat.shiftLeft_eq, Nat.mul_comm r, ← h, Nat.shiftLeft_eq]
    simp only [show (2 : Nat) ^ 8 = 256 from rfl, show (2 : Nat) ^ 16 = 65536 from rfl]
    omega
  have o2 : 2 ^ 8 * (2 ^ 8 * r + g) ||| b = 2 ^ 8 * (2 ^ 8 * r + g) + b :=
    (Nat.mul_add_lt_is_or (show b < 2 ^ 8 by simpa using hb) _).symm
  unfold packPixel
  simp only [e0, e1, e2, o1, o2]
  simp only [show (2 : Nat) ^ 8 = 256 from rfl]
  omega

theorem readUint32_ok (pix : List Nat) (yPos : Nat) (h : yPos + 3 < pix.length) :
    readUint32 pix yPos
      = .ok (pix.getD yPos 0 + 256 * pix.getD (yPos + 1) 0 + 65536 * pix.getD (yPos + 2) 0
          + 16777216 * pix.getD (yPos + 3) 0) := by
  have g : ∀ i, i < pix.length → pix.get? i = some (pix.getD i 0) := by
    intro i hi
    simp [List.get?_eq_getElem?, List.getD_eq_getElem?_getD, List.getElem?_eq_getElem hi]
  unfold readUint32
  rw [g yPos (by omega), g (yPos + 1) (by omega), g (yPos + 2) (by omega),
    g (yPos + 3) (by omega)]

theorem templateColumn_ok (pix : List Nat) (stride rows : Nat) :
    ∀ yPos, (∀ y, y < rows → yPos + y * stride + 3 < pix.length) →
      ∃ col, templateColumn pix stride rows yPos = .ok col ∧ col.length = rows
        ∧ ∀ y, y < rows → ∀ w, readUint32 pix (yPos + y * stride) = .ok w →
            col.get? y = some (packPixel w) := by
  induction rows with
  | zero =>
    intro yPos _
    exact ⟨[], rfl, rfl, fun y hy => by omega⟩
  | succ k ih =>
    intro yPos h
    have h0 := h 0 (by omega)
    simp only [Nat.zero_mul, Nat.add_zero] at h0
    obtain ⟨col, hc, hl, hg⟩ := ih (yPos + stride) (fun y hy => by
      have := h (y + 1) (by omega)
      rw [Nat.succ_mul] at this
      omega)
    obtain ⟨w0, hw0⟩ : ∃ w, readUint32 pix yPos = .ok w := ⟨_, readUint32_ok pix yPos h0⟩
    refine ⟨packPixel w0 :: col, ?_, by simp [hl], ?_⟩
    · simp only [templateColumn, hw0, hc]
    · intro y hy w hw
      cases y with
      | zero =>
        simp only [Nat.zero_mul, Nat.add_zero] at hw
        rw [hw0] at hw
        cases hw
        rfl
      | succ y' =>
        have e : yPos + (y' + 1) * stride = yPos + stride + y' * stride := by
          rw [Nat.succ_mul]; omega
        rw [e] at hw
        exact hg y' (by omega) w hw

theorem templateColumns_ok (pix : List Nat) (stride height yOffset cols : Nat) :
    ∀ x, (∀ k y, k < cols → y < height →
        yOffset * stride + (x + k) * 4 + y * stride + 3 < pix.length) →
      ∃ px, templateColumns pix stride height yOffset cols x = .ok px
        ∧ px.length = cols * height
        ∧ ∀ k y, k < cols → y < height → ∀ w,
            readUint32 pix (yOffset * stride + (x + k) * 4 + y * stride) = .ok w →
            px.get? (k * height + y) = some (packPixel w) := by
  induction cols with
  | zero =>
    intro x _
    exact ⟨[], rfl, by simp, fun k y hk => by omega⟩
  | succ c ih =>
    intro x h
    obtain ⟨col, hc, hl, hg⟩ := templateColumn_ok pix stride height (yOffset * stride + x * 4)
      (fun y hy => by simpa using h 0 y (by omega) hy)
    obtain ⟨rest, hr, hrl, hrg⟩ := ih (x + 1) (fun k y hk hy => by
      have := h (k + 1) y (by omega) hy
      have e : x + 1 + k = x + (k + 1) := by omega
      rw [e]; exact this)
    refine ⟨col ++ rest, ?_, ?_, ?_⟩
    · simp only [templateColumns, hc, hr]
    · rw [List.length_append, hl, hrl, Nat.succ_mul]; omega
    · intro k y hk hy w hw
      simp only [List.get?_eq_getElem?] at hg hrg ⊢
      cases k with
      | zero =>
        simp only [Nat.zero_mul, Nat.zero_add, Nat.add_zero] at hw ⊢
        rw [List.getElem?_append_left (by omega)]
        exact hg y hy w hw
      | succ k' =>
        have e : (k' + 1) * height + y = col.length + (k' * height + y) := by
          rw [Nat.succ_mul, hl]; omega
        rw [e, List.getElem?_append_right (by omega), Nat.add_sub_cancel_left]
        have e2 : x + (k' + 1) = x + 1 + k' := by omega
        rw [e2] at hw
        exact hrg k' y (by omega) hy w hw

theorem word_eq_iff (r g b c0 c1 c2 c3 : Nat) (hr : r < 256) (hg : g < 256) (hb : b < 256)
    (h0 : c0 < 256) (h1 : c1 < 256) (h2 : c2 < 256) (_h3 : c3 < 256) :
    readUint32 [c0, c1, c2, c3] 0 = .ok (r * 65536 + g * 256 + b)
      ↔ c0 = b ∧ c1 = g ∧ c2 = r ∧ c3 = 0 := by
  have e : readUint32 [c0, c1, c2, c3] 0
      = .ok (c0 + 256 * c1 + 65536 * c2 + 16777216 * c3) := rfl
  rw [e]
  constructor
  · intro h
    have := Except.ok.inj h
    omega
  · rintro ⟨rfl, rfl, rfl, rfl⟩
    congr 1
    omega

/-- C17. When the picture holds every pixel of the described rectangle, the
extraction returns `Width * Height` values, column by column: the value at
`k * Height + y` comes from the pixel in column `XOffset + k` and row
`YOffset + y`, and for the bytes R, G, B, A of that pixel it is
`R * 65536 + G * 256 + B`, the top byte being 0. A little-endian word read from
four bytes of a capture is equal to it exactly when these bytes are B, G, R, 0. -/
theorem extractPixels_packed (picture : pictureNRGBA) (n : bitmapSourceInfo)
    (hw : 1 ≤ n.Width) (hh : 1 ≤ n.Height)
    (hfit : (n.YOffset + (n.Height - 1)) * picture.Stride + (n.XOffset + (n.Width - 1)) * 4 + 3
      < picture.Pix.length)
    (hbytes : ∀ v ∈ picture.Pix, v < 256) :
    ∃ pixels, extractPixels picture n = .ok pixels
      ∧ pixels.length = n.Width * n.Height
      ∧ ∀ k y, k < n.Width → y < n.Height →
          ∃ r g b a,
            picture.Pix.get? ((n.YOffset + y) * picture.Stride + (n.XOffset + k) * 4) = some r
            ∧ picture.Pix.get? ((n.YOffset + y) * picture.Stride + (n.XOffset + k) * 4 + 1)
                = some g
            ∧ picture.Pix.get? ((n.YOffset + y) * picture.Stride + (n.XOffset + k) * 4 + 2)
                = some b
            ∧ picture.Pix.get? ((n.YOffset + y) * picture.Stride + (n.XOffset + k) * 4 + 3)
                = some a
            ∧ pixels.get? (k * n.Height + y) = some (r * 65536 + g * 256 + b)
            ∧ r * 65536 + g * 256 + b < 16777216
            ∧ ∀ c0 c1 c2 c3, c0 < 256 → c1 < 256 → c2 < 256 → c3 < 256 →
                (readUint32 [c0, c1, c2, c3] 0 = .ok (r * 65536 + g * 256 + b)
                  ↔ c0 = b ∧ c1 = g ∧ c2 = r ∧ c3 = 0) := by
  have hpos : ∀ k y, k < n.Width → y < n.Height →
      (n.YOffset + y) * picture.Stride + (n.XOffset + k) * 4 + 3 < picture.Pix.length := by
    intro k y hk hy
    have h1 : (n.YOffset + y) * picture.Stride ≤ (n.YOffset + (n.Height - 1)) * picture.Stride :=
      Nat.mul_le_mul_right _ (by omega)
    omega
  obtain ⟨pixels, hp, hl, hg⟩ := templateColumns_ok picture.Pix picture.Stride n.Height
    n.YOffset n.Width n.XOffset (fun k y hk hy => by
      have := hpos k y hk hy
      rw [Nat.add_mul n.YOffset y picture.Stride] at this
      omega)
  refine ⟨pixels, hp, hl, ?_⟩
  intro k y hk hy
  have hin := hpos k y hk hy
  have g : ∀ i, i < picture.Pix.length →
      picture.Pix.get? i = some (picture.Pix.getD i 0) ∧ picture.Pix.getD i 0 < 256 := by
    intro i hi
    have e : picture.Pix.get? i = some (picture.Pix.getD i 0) := by
      simp [List.get?_eq_getElem?, List.getD_eq_getElem?_getD, List.getElem?_eq_getElem hi]
    exact ⟨e, hbytes _ (List.get?_mem e)⟩
  obtain ⟨g0, b0⟩ := g _ (show (n.YOffset + y) * picture.Stride + (n.XOffset + k) * 4
    < picture.Pix.length by omega)
  obtain ⟨g1, b1⟩ := g _ (show (n.YOffset + y) * picture.Stride + (n.XOffset + k) * 4 + 1
    < picture.Pix.length by omega)
  obtain ⟨g2, b2⟩ := g _ (show (n.YOffset + y) * picture.Stride + (n.XOffset + k) * 4 + 2
    < picture.Pix.length by omega)
  obtain ⟨g3, _⟩ := g _ hin
  refine ⟨_, _, _, _, g0, g1, g2, g3, ?_, by omega, ?_⟩
  · have hword := readUint32_ok picture.Pix _ hin
    have e : n.YOffset * picture.Stride + (n.XOffset + k) * 4 + y * picture.Stride
        = (n.YOffset + y) * picture.Stride + (n.XOffset + k) * 4 := by
      rw [Nat.add_mul n.YOffset y picture.Stride]; omega
    have := hg k y hk hy _ (by rw [e]; exact hword)
    rw [this, packPixel_bytes _ _ _ _ b0 b1 b2]
  · intro c0 c1 c2 c3 h0 h1 h2 h3
    exact word_eq_iff _ _ _ c0 c1 c2 c3 b0 b1 b2 h0 h1 h2 h3

/-- Witness of C17: the template of 13 rows taken from the sample picture. -/
theorem extractPixels_packed_witness :
    ∃ pixels, extractPixels samplePicture ⟨ascii "0", 1, 13, 0, 0, ascii "a.png"⟩ = .ok pixels
      ∧ pixels.length = 1 * 13
      ∧ ∀ k y, k < 1 → y < 13 →
          ∃ r g b a,
            samplePicture.Pix.get? ((0 + y) * samplePicture.Stride + (0 + k) * 4) = some r
            ∧ samplePicture.Pix.get? ((0 + y) * samplePicture.Stride + (0 + k) * 4 + 1) = some g
            ∧ samplePicture.Pix.get? ((0 + y) * samplePicture.Stride + (0 + k) * 4 + 2) = some b
            ∧ samplePicture.Pix.get? ((0 + y) * samplePicture.Stride + (0 + k) * 4 + 3) = some a
            ∧ pixels.get? (k * 13 + y) = some (r * 65536 + g * 256 + b)
            ∧ r * 65536 + g * 256 + b < 16777216
            ∧ ∀ c0 c1 c2 c3, c0 < 256 → c1 < 256 → c2 < 256 → c3 < 256 →
                (readUint32 [c0, c1, c2, c3] 0 = .ok (r * 65536 + g * 256 + b)
                  ↔ c0 = b ∧ c1 = g ∧ c2 = r ∧ c3 = 0) :=
  extractPixels_packed samplePicture ⟨ascii "0", 1, 13, 0, 0, ascii "a.png"⟩
    (by decide) (by decide) (by decide) (by decide)

/-! ## Lemmas on the bulk paging loop -/

theorem bulkTail_state (s : pagingState) (mX : Int) (ctrlC : Bool) :
    (bulkTail s mX ctrlC).state = { s with delayForPages := s.delayForPages + 10 } := by
  unfold bulkTail
  split <;> rfl

theorem bulkTail_next (s s2 : pagingState) (mX : Int) (ctrlC : Bool)
    (h : bulkTail s mX ctrlC = .next s2) :
    s2 = { s with delayForPages := s.delayForPages + 10 } := by
  have := bulkTail_state s mX ctrlC
  rw [h] at this
  exact this

theorem bulkTail_not_leave (s s2 : pagingState) (mX : Int) (ctrlC : Bool) :
    bulkTail s mX ctrlC ≠ .leave s2 := by
  unfold bulkTail
  split <;> exact fun h => by cases h

theorem backOff_frame (s : pagingState) :
    (backOff s).lastxImg = s.lastxImg ∧ (backOff s).sameCount = s.sameCount
    ∧ (backOff s).allLines = s.allLines := by
  unfold backOff
  repeat' split
  all_goals exact ⟨rfl, rfl, rfl⟩

theorem appendPage_frame (exitCode : Nat) (textResult : List conversionResult) :
    ∀ s : pagingState,
      (appendPage exitCode textResult s).state.lastxImg = s.lastxImg
      ∧ (appendPage exitCode textResult s).state.sameCount = s.sameCount
      ∧ (appendPage exitCode textResult s).state.totalPartialCount = s.totalPartialCount := by
  induction textResult with
  | nil => intro s; exact ⟨rfl, rfl, rfl⟩
  | cons r rest ih =>
    intro s
    simp only [appendPage]
    cases checkLine r.text with
    | panic => exact ⟨rfl, rfl, rfl⟩
    | exit code => exact ⟨rfl, rfl, rfl⟩
    | ok num =>
      simp only
      split
      · exact ih _
      · exact ⟨rfl, rfl, rfl⟩

theorem appendPage_not_leave (exitCode : Nat) (textResult : List conversionResult) :
    ∀ s s2 : pagingState, appendPage exitCode textResult s ≠ .leave s2 := by
  induction textResult with
  | nil => intro s s2 h; cases h
  | cons r rest ih =>
    intro s s2
    simp only [appendPage]
    cases checkLine r.text with
    | panic => exact fun h => by cases h
    | exit code => exact fun h => by cases h
    | ok num =>
      simp only
      split
      · exact ih _ _
      · exact fun h => by cases h

theorem appendPage_good (exitCode : Nat) (textResult : List conversionResult)
    (hgood : ∀ r ∈ textResult, checkLine r.text = .ok conversionGood) :
    ∀ s : pagingState,
      appendPage exitCode textResult s
        = .next { s with allLines := s.allLines ++ textResult.map (fun r => r.text) } := by
  induction textResult with
  | nil => intro s; simp [appendPage]
  | cons r rest ih =>
    intro s
    simp only [appendPage, hgood r (by simp), if_true]
    rw [ih (fun q hq => hgood q (List.mem_cons_of_mem _ hq))]
    simp

theorem bulkStep_identical (decodePage : List Nat → Except Fault (List conversionResult))
    (s : pagingState) (input : bulkInput) (h : isIdentical s.lastxImg input) :
    bulkStep decodePage s input
      = if s.sameCount + 1 > 25 then
          .leave { s with nofGrabs := s.nofGrabs + 1, sameCount := s.sameCount + 1 }
        else
          bulkTail { s with nofGrabs := s.nofGrabs + 1, sameCount := s.sameCount + 1 }
            input.mX input.ctrlC := by
  unfold isIdentical at h
  unfold bulkStep
  rw [h]
  simp

theorem bulkStep_partial_pass (decodePage : List Nat → Except Fault (List conversionResult))
    (s : pagingState) (input : bulkInput) (h : isPartial s.lastxImg input) :
    bulkStep decodePage s input
      = bulkTail { s with nofGrabs := s.nofGrabs + 1 + 1,
                          delayForPages := s.delayForPages + 40,
                          totalPartialCount := s.totalPartialCount + 1 }
          input.mX input.ctrlC := by
  obtain ⟨n, n2, h1, hne, h2, hne2⟩ := h
  unfold bulkStep
  rw [h1, h2]
  simp [Ne.symm hne, hne2]

theorem bulkStep_stable (decodePage : List Nat → Except Fault (List conversionResult))
    (s : pagingState) (input : bulkInput) (img : List Nat) (h : isStable img input)
    (hne : img ≠ s.lastxImg) :
    bulkStep decodePage s input
      = match decodePage img with
        | .error _ =>
          .panic { s with nofGrabs := s.nofGrabs + 1 + 1,
                          delayForPages := s.delayForPages + 40, lastxImg := img }
        | .ok textResult =>
          match appendPage 11 textResult
              { s with nofGrabs := s.nofGrabs + 1 + 1, delayForPages := s.delayForPages + 40,
                       lastxImg := img } with
          | .next s5 =>
            bulkTail (backOff { s5 with sameCount := 0, pageNumber := s5.pageNumber + 1,
                                        delayForPages := s5.delayForPages + 10 })
              input.mX input.ctrlC
          | flow => flow := by
  obtain ⟨h1, h2⟩ := h
  unfold bulkStep
  rw [h1, h2]
  simp only [Ne.symm hne, if_false, if_true]

theorem input_cases (ref : List Nat) (input : bulkInput) :
    input.newxImg = none ∨ isIdentical ref input
    ∨ (∃ n, input.newxImg = some n ∧ n ≠ ref ∧ input.new2xImg = none)
    ∨ isPartial ref input ∨ ∃ img, isStable img input ∧ img ≠ ref := by
  cases h1 : input.newxImg with
  | none => exact Or.inl rfl
  | some n =>
    by_cases hn : n = ref
    · exact Or.inr (Or.inl (by rw [isIdentical, h1, hn]))
    · cases h2 : input.new2xImg with
      | none => exact Or.inr (Or.inr (Or.inl ⟨n, rfl, hn, rfl⟩))
      | some n2 =>
        by_cases hn2 : n2 = n
        · exact Or.inr (Or.inr (Or.inr (Or.inr ⟨n, ⟨h1, by rw [h2, hn2]⟩, hn⟩)))
        · exact Or.inr (Or.inr (Or.inr (Or.inl ⟨n, n2, h1, hn, h2, hn2⟩)))

theorem bulkStep_capture_error (decodePage : List Nat → Except Fault (List conversionResult))
    (s : pagingState) (input : bulkInput) :
    (input.newxImg = none → bulkStep decodePage s input = .exit 9 s)
    ∧ (∀ n, input.newxImg = some n → n ≠ s.lastxImg → input.new2xImg = none →
        ∃ s2, bulkStep decodePage s input = .exit 10 s2) := by
  constructor
  · intro h
    unfold bulkStep
    rw [h]
  · intro n h1 hne h2
    unfold bulkStep
    rw [h1, h2]
    simp only [Ne.symm hne, if_false]
    exact ⟨_, rfl⟩

theorem bulkStep_stable_flow (decodePage : List Nat → Except Fault (List conversionResult))
    (s : pagingState) (input : bulkInput) (img : List Nat) (h : isStable img input)
    (hne : img ≠ s.lastxImg) :
    (∀ s2, bulkStep decodePage s input ≠ .leave s2)
    ∧ (∀ s2, bulkStep decodePage s input = .next s2 →
        s2.sameCount = 0 ∧ s2.lastxImg = img) := by
  rw [bulkStep_stable decodePage s input img h hne]
  cases decodePage img with
  | error e => exact ⟨fun _ h => (nomatch h), fun _ h => (nomatch h)⟩
  | ok textResult =>
    simp only
    have hfr := appendPage_frame 11 textResult
      { s with nofGrabs := s.nofGrabs + 1 + 1, delayForPages := s.delayForPages + 40,
               lastxImg := img }
    have hnl := appendPage_not_leave 11 textResult
      { s with nofGrabs := s.nofGrabs + 1 + 1, delayForPages := s.delayForPages + 40,
               lastxImg := img }
    cases ha : appendPage 11 textResult
      { s with nofGrabs := s.nofGrabs + 1 + 1, delayForPages := s.delayForPages + 40,
               lastxImg := img } with
    | next s5 =>
      rw [ha] at hfr
      simp only [loopFlow.state] at hfr
      simp only
      refine ⟨fun s2 => bulkTail_not_leave _ s2 _ _, ?_⟩
      intro s2 h2
      have e := bulkTail_next _ _ _ _ h2
      have hb := backOff_frame { s5 with sameCount := 0, pageNumber := s5.pageNumber + 1,
                                         delayForPages := s5.delayForPages + 10 }
      rw [e]
      exact ⟨hb.2.1, by rw [hb.1]; exact hfr.1⟩
    | leave s5 => exact absurd ha (hnl s5)
    | exit code s5 => exact ⟨fun _ h => (nomatch h), fun _ h => (nomatch h)⟩
    | panic s5 => exact ⟨fun _ h => (nomatch h), fun _ h => (nomatch h)⟩

theorem bulkStep_leave (decodePage : List Nat → Except Fault (List conversionResult))
    (s s2 : pagingState) (input : bulkInput) (h : bulkStep decodePage s input = .leave s2) :
    isIdentical s.lastxImg input ∧ 25 ≤ s.sameCount ∧ s2.lastxImg = s.lastxImg
    ∧ s2.sameCount = s.sameCount + 1 := by
  rcases input_cases s.lastxImg input with h0 | h0 | h0 | h0 | h0
  · rw [(bulkStep_capture_error decodePage s input).1 h0] at h
    cases h
  · rw [bulkStep_identical decodePage s input h0] at h
    split at h
    · cases h
      exact ⟨h0, by omega, rfl, rfl⟩
    · exact absurd h (bulkTail_not_leave _ _ _ _)
  · obtain ⟨n, h1, hne, h2⟩ := h0
    obtain ⟨s3, h3⟩ := (bulkStep_capture_error decodePage s input).2 n h1 hne h2
    rw [h3] at h
    cases h
  · rw [bulkStep_partial_pass decodePage s input h0] at h
    exact absurd h (bulkTail_not_leave _ _ _ _)
  · obtain ⟨img, hs, hne⟩ := h0
    exact absurd h ((bulkStep_stable_flow decodePage s input img hs hne).1 s2)

theorem bulkStep_next (decodePage : List Nat → Except Fault (List conversionResult))
    (s s2 : pagingState) (input : bulkInput) (h : bulkStep decodePage s input = .next s2) :
    (isIdentical s.lastxImg input ∧ s2.sameCount = s.sameCount + 1 ∧ s2.sameCount ≤ 25
      ∧ s2.lastxImg = s.lastxImg)
    ∨ (isPartial s.lastxImg input ∧ s2.sameCount = s.sameCount ∧ s2.lastxImg = s.lastxImg)
    ∨ (∃ img, isStable img input ∧ img ≠ s.lastxImg ∧ s2.sameCount = 0
        ∧ s2.lastxImg = img) := by
  rcases input_cases s.lastxImg input with h0 | h0 | h0 | h0 | h0
  · rw [(bulkStep_capture_error decodePage s input).1 h0] at h
    cases h
  · rw [bulkStep_identical decodePage s input h0] at h
    split at h
    · cases h
    · rename_i hc
      have e := bulkTail_next _ _ _ _ h
      rw [e]
      exact Or.inl ⟨h0, rfl, by simp only; omega, rfl⟩
  · obtain ⟨n, h1, hne, h2⟩ := h0
    obtain ⟨s3, h3⟩ := (bulkStep_capture_error decodePage s input).2 n h1 hne h2
    rw [h3] at h
    cases h
  · rw [bulkStep_partial_pass decodePage s input h0] at h
    have e := bulkTail_next _ _ _ _ h
    rw [e]
    exact Or.inr (Or.inl ⟨h0, rfl, rfl⟩)
  · obtain ⟨img, hs, hne⟩ := h0
    obtain ⟨h1, h2⟩ := (bulkStep_stable_flow decodePage s input img hs hne).2 s2 h
    exact Or.inr (Or.inr ⟨img, hs, hne, h1, h2⟩)

theorem identical_partial_disjoint (ref : List Nat) (input : bulkInput)
    (h : isPartial ref input) : ¬ isIdentical ref input := by
  obtain ⟨n, n2, h1, hne, _, _⟩ := h
  intro hi
  unfold isIdentical at hi
  rw [h1] at hi
  exact hne (Option.some.inj hi)

theorem bulkRun_settle (decodePage : List Nat → Except Fault (List conversionResult))
    (inputs : List bulkInput) :
    ∀ (s s1 s2 : pagingState) (last : bulkInput),
      bulkRun decodePage s inputs = .next s1 → bulkStep decodePage s1 last = .leave s2 →
      s.sameCount ≤ 25 →
      (∃ pre d seg, inputs ++ [last] = pre ++ d :: seg ∧ isStable s2.lastxImg d
          ∧ (∀ i ∈ seg, isIdentical s2.lastxImg i ∨ isPartial s2.lastxImg i)
          ∧ seg.countP (fun i => isIdentical s2.lastxImg i) = 26)
      ∨ (s.lastxImg = s2.lastxImg
          ∧ (∀ i ∈ inputs ++ [last], isIdentical s2.lastxImg i ∨ isPartial s2.lastxImg i)
          ∧ s.sameCount + (inputs ++ [last]).countP (fun i => isIdentical s2.lastxImg i)
              = 26) := by
  induction inputs with
  | nil =>
    intro s s1 s2 last hrun hleave hc
    simp only [bulkRun, loopFlow.next.injEq] at hrun
    subst hrun
    obtain ⟨hid, h25, hl, _⟩ := bulkStep_leave decodePage s s2 last hleave
    rw [← hl] at hid
    refine Or.inr ⟨hl.symm, ?_, ?_⟩
    · intro i hi
      simp only [List.nil_append, List.mem_singleton] at hi
      rw [hi]
      exact Or.inl hid
    · simp only [List.nil_append, List.countP_cons, List.countP_nil, hid, decide_True,
        if_true]
      omega
  | cons input rest ih =>
    intro s s1 s2 last hrun hleave hc
    simp only [bulkRun] at hrun
    cases hstep : bulkStep decodePage s input with
    | leave s3 => rw [hstep] at hrun; cases hrun
    | exit code s3 => rw [hstep] at hrun; cases hrun
    | panic s3 => rw [hstep] at hrun; cases hrun
    | next s3 =>
      rw [hstep] at hrun
      simp only at hrun
      rcases bulkStep_next decodePage s s3 input hstep with
        ⟨hid, hcount, hle, hlast⟩ | ⟨hpart, hcount, hlast⟩ | ⟨img, hst, hne, hcount, hlast⟩
      · rcases ih s3 s1 s2 last hrun hleave hle with
          ⟨pre, d, seg, he, hd, hseg, hn⟩ | ⟨hl, hall, hn⟩
        · exact Or.inl ⟨input :: pre, d, seg, by simp [he], hd, hseg, hn⟩
        · have hid2 : isIdentical s2.lastxImg input := by rw [← hl, hlast]; exact hid
          refine Or.inr ⟨by rw [← hl, hlast], ?_, ?_⟩
          · intro i hi
            rcases List.mem_cons.1 hi with rfl | hi
            · exact Or.inl hid2
            · exact hall i hi
          · simp only [List.cons_append, List.countP_cons, hid2, decide_True, if_true]
            omega
      · rcases ih s3 s1 s2 last hrun hleave (by omega) with
          ⟨pre, d, seg, he, hd, hseg, hn⟩ | ⟨hl, hall, hn⟩
        · exact Or.inl ⟨input :: pre, d, seg, by simp [he], hd, hseg, hn⟩
        · have hp2 : isPartial s2.lastxImg input := by rw [← hl, hlast]; exact hpart
          have hni := identical_partial_disjoint _ _ hp2
          refine Or.inr ⟨by rw [← hl, hlast], ?_, ?_⟩
          · intro i hi
            rcases List.mem_cons.1 hi with rfl | hi
            · exact Or.inr hp2
            · exact hall i hi
          · simp only [List.cons_append, List.countP_cons, hni, decide_False]
            simp only [Bool.false_eq_true, if_false]
            omega
      · rcases ih s3 s1 s2 last hrun hleave (by omega) with
          ⟨pre, d, seg, he, hd, hseg, hn⟩ | ⟨hl, hall, hn⟩
        · exact Or.inl ⟨input :: pre, d, seg, by simp [he], hd, hseg, hn⟩
        · refine Or.inl ⟨[], input, rest ++ [last], rfl, ?_, hall, ?_⟩
          · rw [← hl, hlast]; exact hst
          · omega

theorem decodePage_of_workers (worker : Nat → Except Fault conversionResult)
    (results : Nat → conversionResult) (linesShown : Nat)
    (textResult : List conversionResult) (order : List Nat)
    (hlen : textResult.length = linesShown) (hperm : order.Perm (List.range linesShown))
    (hret : ∀ i, i < linesShown → worker i = .ok (results i))
    (hidx : ∀ i, i < linesShown → (results i).index = i) :
    decodePage worker textResult order = .ok ((List.range linesShown).map results) := by
  have hmem : ∀ i, i ∈ order → i < linesShown := fun i hi =>
    List.mem_range.1 (hperm.mem_iff.1 hi)
  unfold decodePage
  rw [arrivals_ok _ results order (fun i hi => hret i (hmem i hi))]
  exact collect_perm results linesShown hidx textResult hlen order hperm

theorem sample_two_records_worker (counts : Nat → Fin 256 → Nat) (i : Nat) (hi : i < 2) :
    workerResult 10 ⟨fun _ => 0, sampleFont,
        renderPage [ascii "00:00:||||", ascii "00:00:||||"]⟩ counts 10 15 1 1 i
      = .ok ⟨i, ascii "00:00:,,,,"⟩ := by
  match i, hi with
  | 0, _ =>
    exact (workerResult_eq 10 _ counts 10 15 1 1 0 _ 0
      (recognize_page_line 10 _ [] (renderLine (ascii "00:00:||||")) (ascii "00:00:||||") 0 1
        1 _ rfl (by simp [renderPage]) rfl sample_clock)).trans (validate_clock 0)
  | 1, _ =>
    exact (workerResult_eq 10 _ counts 10 15 1 1 1 _ 0
      (recognize_page_line 10 _ (renderLine (ascii "00:00:||||")) [] (ascii "00:00:||||") 1 1
        1 _ rfl (by simp [renderPage]) (by rw [renderLine_length]; rfl)
        sample_clock)).trans (validate_clock 1)

theorem sample_two_records :
    samplePageDecode (renderPage [ascii "00:00:||||", ascii "00:00:||||"])
      = .ok [⟨0, ascii "00:00:,,,,"⟩, ⟨1, ascii "00:00:,,,,"⟩] :=
  decodePage_of_workers _ (fun i => ⟨i, ascii "00:00:,,,,"⟩) 2 [⟨0, []⟩, ⟨0, []⟩] [1, 0] rfl
    (by decide) (fun i hi => sample_two_records_worker _ i hi) (fun _ _ => rfl)

theorem renderPage_ne_nil (text : List Nat) (rest : List (List Nat)) (ht : text ≠ []) :
    renderPage (text :: rest) ≠ [] := by
  intro h
  have := congrArg List.length h
  simp [renderPage, renderLine_length] at this
  exact ht this.1

/-- The count that ends the bulk paging loop, as the code has it. When the loop
is left by `break` from a same-count of 0, the passes made fall into a first
part that is empty or ends with a pass that found the final reference page
stabilised, and a rest in which no page was decoded: every pass of the rest saw
a capture identical to the reference or was a partial update, and exactly 26 of
them (the last one among them) saw an identical capture. -/
theorem bulkRun_leave_settled (decodePage : List Nat → Except Fault (List conversionResult))
    (s s1 s2 : pagingState) (inputs : List bulkInput) (last : bulkInput)
    (h0 : s.sameCount = 0)
    (hrun : bulkRun decodePage s inputs = .next s1)
    (hleave : bulkStep decodePage s1 last = .leave s2) :
    ∃ pre seg, inputs ++ [last] = pre ++ seg
      ∧ ((pre = [] ∧ s.lastxImg = s2.lastxImg)
          ∨ ∃ pre1 d, pre = pre1 ++ [d] ∧ isStable s2.lastxImg d)
      ∧ (∀ i ∈ seg, isIdentical s2.lastxImg i ∨ isPartial s2.lastxImg i)
      ∧ seg.countP (fun i => isIdentical s2.lastxImg i) = 26
      ∧ isIdentical s2.lastxImg last
      ∧ 26 ≤ (inputs ++ [last]).length := by
  have hlast : isIdentical s2.lastxImg last := by
    obtain ⟨hid, _, hl, _⟩ := bulkStep_leave decodePage s1 s2 last hleave
    rw [hl]; exact hid
  rcases bulkRun_settle decodePage inputs s s1 s2 last hrun hleave (by omega) with
    ⟨pre, d, seg, he, hd, hseg, hn⟩ | ⟨hl, hall, hn⟩
  · refine ⟨pre ++ [d], seg, by simp [he], Or.inr ⟨pre, d, rfl, hd⟩, hseg, hn, hlast, ?_⟩
    have h1 := List.countP_le_length (fun i => decide (isIdentical s2.lastxImg i)) (l := seg)
    rw [he]
    simp only [List.length_append, List.length_cons]
    omega
  · refine ⟨[], inputs ++ [last], rfl, Or.inl ⟨rfl, hl⟩, hall, by omega, hlast, ?_⟩
    have h1 := List.countP_le_length (fun i => decide (isIdentical s2.lastxImg i))
      (l := inputs ++ [last])
    omega

/-! ## The claims on the paging loop -/

/-- C18, evaluated at the failing input. From a same-count of 0: thirteen captures
identical to the reference, one capture that differs and whose second capture
differs again (a partial update), thirteen identical captures again. The loop
is left at the last of them with a same-count of 26, although the longest run of
consecutive identical comparisons has 13 of them: the partial update has not
set the same-count back. -/
theorem bulkRun_interrupted_settle :
    bulkRun (fun _ => .ok []) (startState [0])
        (List.replicate 13 (pass [0] [0]) ++ pass [1] [2] :: List.replicate 13 (pass [0] [0]))
      = .leave ⟨[0], 26, 1, [], 0, 300, 28⟩
    ∧ ¬ isIdentical [0] (pass [1] [2]) ∧ isPartial [0] (pass [1] [2]) := by
  refine ⟨by decide, by decide, ⟨[1], [2], rfl, by decide, rfl, by decide⟩⟩

/-- C19. In a pass of the bulk paging loop the list of lines changes only when
the new capture differs from the reference and the capture after the settle
delay equals the new capture. In that case, when the page decodes to good lines,
these lines are appended, the reference becomes the new capture and the
same-count becomes 0. When the new capture is identical to the reference, or in
a partial update, the pass does not depend on the page decode and leaves the
lines and the reference as they were; a partial update also leaves the
same-count as it was and raises the partial counter by 1. -/
theorem bulkStep_decodes (decodePage : List Nat → Except Fault (List conversionResult))
    (s : pagingState) (input : bulkInput) :
    ((bulkStep decodePage s input).state.allLines ≠ s.allLines →
        ∃ img, isStable img input ∧ img ≠ s.lastxImg)
    ∧ (∀ img textResult, isStable img input → img ≠ s.lastxImg →
        decodePage img = .ok textResult →
        (∀ r ∈ textResult, checkLine r.text = .ok conversionGood) →
        (bulkStep decodePage s input).state.allLines
            = s.allLines ++ textResult.map (fun r => r.text)
        ∧ (bulkStep decodePage s input).state.lastxImg = img
        ∧ (bulkStep decodePage s input).state.sameCount = 0)
    ∧ (isIdentical s.lastxImg input →
        (bulkStep decodePage s input).state.allLines = s.allLines
        ∧ (bulkStep decodePage s input).state.lastxImg = s.lastxImg
        ∧ ∀ other, bulkStep other s input = bulkStep decodePage s input)
    ∧ (isPartial s.lastxImg input →
        (bulkStep decodePage s input).state.allLines = s.allLines
        ∧ (bulkStep decodePage s input).state.lastxImg = s.lastxImg
        ∧ (bulkStep decodePage s input).state.sameCount = s.sameCount
        ∧ (bulkStep decodePage s input).state.totalPartialCount = s.totalPartialCount + 1
        ∧ ∀ other, bulkStep other s input = bulkStep decodePage s input) := by
  have hident : isIdentical s.lastxImg input →
      (bulkStep decodePage s input).state.allLines = s.allLines
      ∧ (bulkStep decodePage s input).state.lastxImg = s.lastxImg
      ∧ ∀ other, bulkStep other s input = bulkStep decodePage s input := by
    intro h
    refine ⟨?_, ?_, fun other => by
      rw [bulkStep_identical other s input h, bulkStep_identical decodePage s input h]⟩
    · rw [bulkStep_identical decodePage s input h]
      split
      · rfl
      · rw [bulkTail_state]
    · rw [bulkStep_identical decodePage s input h]
      split
      · rfl
      · rw [bulkTail_state]
  have hpart : isPartial s.lastxImg input →
      (bulkStep decodePage s input).state.allLines = s.allLines
      ∧ (bulkStep decodePage s input).state.lastxImg = s.lastxImg
      ∧ (bulkStep decodePage s input).state.sameCount = s.sameCount
      ∧ (bulkStep decodePage s input).state.totalPartialCount = s.totalPartialCount + 1
      ∧ ∀ other, bulkStep other s input = bulkStep decodePage s input := by
    intro h
    rw [bulkStep_partial_pass decodePage s input h, bulkTail_state]
    exact ⟨rfl, rfl, rfl, rfl, fun other => bulkStep_partial_pass other s input h⟩
  refine ⟨?_, ?_, hident, hpart⟩
  · intro hchange
    rcases input_cases s.lastxImg input with h | h | h | h | h
    · rw [(bulkStep_capture_error decodePage s input).1 h] at hchange
      exact absurd rfl hchange
    · exact absurd (hident h).1 hchange
    · obtain ⟨n, h1, hne, h2⟩ := h
      exfalso
      apply hchange
      unfold bulkStep
      rw [h1, h2]
      simp only [Ne.symm hne, if_false]
      rfl
    · exact absurd (hpart h).1 hchange
    · exact h
  · intro img textResult hst hne hdec hgood
    rw [bulkStep_stable decodePage s input img hst hne, hdec]
    simp only
    rw [appendPage_good 11 textResult hgood]
    simp only
    rw [bulkTail_state]
    have hb := backOff_frame
      { lastxImg := img, sameCount := 0, totalPartialCount := s.totalPartialCount,
        allLines := s.allLines ++ textResult.map (fun r => r.text),
        pageNumber := s.pageNumber + 1, delayForPages := s.delayForPages + 40 + 10,
        nofGrabs := s.nofGrabs + 1 + 1 }
    exact ⟨hb.2.2, hb.1, hb.2.1⟩

/-- Witness of C19: a capture of two record lines that differs from the (empty)
reference and is confirmed by the second capture is decoded by the line decoder
and its two records are appended. -/
theorem bulkStep_decodes_witness :
    (bulkStep samplePageDecode (startState [])
        (pass (renderPage [ascii "00:00:||||", ascii "00:00:||||"])
          (renderPage [ascii "00:00:||||", ascii "00:00:||||"]))).state.allLines
      = [] ++ [ascii "00:00:,,,,", ascii "00:00:,,,,"]
    ∧ (bulkStep samplePageDecode (startState [])
        (pass (renderPage [ascii "00:00:||||", ascii "00:00:||||"])
          (renderPage [ascii "00:00:||||", ascii "00:00:||||"]))).state.lastxImg
      = renderPage [ascii "00:00:||||", ascii "00:00:||||"]
    ∧ (bulkStep samplePageDecode (startState [])
        (pass (renderPage [ascii "00:00:||||", ascii "00:00:||||"])
          (renderPage [ascii "00:00:||||", ascii "00:00:||||"]))).state.sameCount = 0 :=
  (bulkStep_decodes samplePageDecode (startState [])
    (pass (renderPage [ascii "00:00:||||", ascii "00:00:||||"])
      (renderPage [ascii "00:00:||||", ascii "00:00:||||"]))).2.1
    (renderPage [ascii "00:00:||||", ascii "00:00:||||"])
    [⟨0, ascii "00:00:,,,,"⟩, ⟨1, ascii "00:00:,,,,"⟩] ⟨rfl, rfl⟩
    (renderPage_ne_nil _ _ (by decide)) sample_two_records (by decide)

/-! ## Lemmas on the trailing comparison -/

theorem verifyFrom_passed (lastLines allLinesReverse : List (List Nat)) :
    ∀ (remaining i : Nat), i + remaining ≤ lastLines.length →
      (∀ j, i ≤ j → j < i + remaining → lastLines.get? j = allLinesReverse.get? j) →
      verifyFrom lastLines allLinesReverse remaining i = .passed := by
  intro remaining
  induction remaining with
  | zero => intro i _ _; rfl
  | succ r ih =>
    intro i hl h
    have hi : i < lastLines.length := by omega
    have ha : lastLines.get? i = some (lastLines.get ⟨i, hi⟩) := List.get?_eq_get hi
    have hb : allLinesReverse.get? i = some (lastLines.get ⟨i, hi⟩) := by
      rw [← h i (le_refl i) (by omega)]; exact ha
    unfold verifyFrom
    rw [ha, hb]
    simp only [ne_eq, not_true_eq_false, if_false]
    exact ih (i + 1) (by omega) (fun j h1 h2 => h j (by omega) (by omega))

theorem verifyFrom_drift (lastLines allLinesReverse : List (List Nat)) :
    ∀ (remaining i j : Nat), i + remaining ≤ lastLines.length →
      i + remaining ≤ allLinesReverse.length → i ≤ j → j < i + remaining →
      lastLines.get? j ≠ allLinesReverse.get? j →
      (∀ j2, i ≤ j2 → j2 < j → lastLines.get? j2 = allLinesReverse.get? j2) →
      verifyFrom lastLines allLinesReverse remaining i = .drift (j + 1) := by
  intro remaining
  induction remaining with
  | zero => intro i j _ _ h1 h2; omega
  | succ r ih =>
    intro i j hl hr hij hj hne hbefore
    have hi : i < lastLines.length := by omega
    have hi2 : i < allLinesReverse.length := by omega
    have ha : lastLines.get? i = some (lastLines.get ⟨i, hi⟩) := List.get?_eq_get hi
    have hb : allLinesReverse.get? i = some (allLinesReverse.get ⟨i, hi2⟩) :=
      List.get?_eq_get hi2
    unfold verifyFrom
    rw [ha, hb]
    by_cases hji : j = i
    · subst hji
      have hd : lastLines.get ⟨j, hi⟩ ≠ allLinesReverse.get ⟨j, hi2⟩ := by
        intro e
        apply hne
        rw [ha, hb, e]
      simp only [ne_eq, hd, not_false_eq_true, if_true]
    · have he : lastLines.get ⟨i, hi⟩ = allLinesReverse.get ⟨i, hi2⟩ := by
        have := hbefore i (le_refl i) (by omega)
        rw [ha, hb] at this
        exact Option.some.inj this
      simp only [ne_eq, he, not_true_eq_false, if_false]
      exact ih (i + 1) j (by omega) (by omega) (by omega) (by omega) hne
        (fun j2 h1 h2 => hbefore j2 (by omega) h2)

/-- Where some line below the bound differs, there is a first such line. -/
theorem first_mismatch (lastLines allLinesReverse : List (List Nat)) (k : Nat)
    (h : ¬ ∀ i, i < k → lastLines.get? i = allLinesReverse.get? i) :
    ∃ i, i < k ∧ lastLines.get? i ≠ allLinesReverse.get? i ∧
      ∀ i2, i2 < i → lastLines.get? i2 = allLinesReverse.get? i2 := by
  classical
  have hex : ∃ i, i < k ∧ lastLines.get? i ≠ allLinesReverse.get? i := by
    by_contra hn
    apply h
    intro i hi
    by_contra hne
    exact hn ⟨i, hi, hne⟩
  refine ⟨Nat.find hex, (Nat.find_spec hex).1, (Nat.find_spec hex).2, ?_⟩
  intro i2 hi2
  by_contra hne
  exact Nat.find_min hex hi2 ⟨lt_trans hi2 (Nat.find_spec hex).1, hne⟩

/-! ## The claim on the trailing comparison -/

/-- C20: where the output holds at least as many lines as were sampled again, the
trailing comparison of lines 1301-1310 passes exactly when every sampled line
equals the line of the output at the same index, it stops with the drift outcome
(exit 23) exactly when some sampled line differs, the line reported being the
smallest differing index plus one, and it has no other outcome. -/
theorem verifyLastLines_drift (lastLines allLinesReverse : List (List Nat)) (k : Nat)
    (hl : k ≤ lastLines.length) (hr : k ≤ allLinesReverse.length) :
    (verifyLastLines lastLines allLinesReverse k = .passed ↔
      ∀ i, i < k → lastLines.get? i = allLinesReverse.get? i) ∧
    (∀ line, verifyLastLines lastLines allLinesReverse k = .drift line ↔
      ∃ i, i < k ∧ line = i + 1 ∧ lastLines.get? i ≠ allLinesReverse.get? i ∧
        ∀ i2, i2 < i → lastLines.get? i2 = allLinesReverse.get? i2) ∧
    ((∃ line, verifyLastLines lastLines allLinesReverse k = .drift line) ↔
      ∃ i, i < k ∧ lastLines.get? i ≠ allLinesReverse.get? i) ∧
    verifyLastLines lastLines allLinesReverse k ≠ .panic := by
  have hdrift : ∀ i, i < k → lastLines.get? i ≠ allLinesReverse.get? i →
      (∀ i2, i2 < i → lastLines.get? i2 = allLinesReverse.get? i2) →
      verifyLastLines lastLines allLinesReverse k = .drift (i + 1) := by
    intro i hi hne hbefore
    exact verifyFrom_drift lastLines allLinesReverse k 0 i (by omega) (by omega)
      (Nat.zero_le i) (by omega) hne (fun j2 _ h2 => hbefore j2 h2)
  by_cases hall : ∀ i, i < k → lastLines.get? i = allLinesReverse.get? i
  · have hp : verifyLastLines lastLines allLinesReverse k = .passed :=
      verifyFrom_passed lastLines allLinesReverse k 0 (by omega)
        (fun j _ h2 => hall j (by omega))
    refine ⟨⟨fun _ => hall, fun _ => hp⟩, ?_, ?_, ?_⟩
    · intro line
      constructor
      · intro h
        rw [hp] at h
        cases h
      · rintro ⟨i, hi, _, hne, _⟩
        exact absurd (hall i hi) hne
    · constructor
      · rintro ⟨line, h⟩
        rw [hp] at h
        cases h
      · rintro ⟨i, hi, hne⟩
        exact absurd (hall i hi) hne
    · rw [hp]
      intro h
      cases h
  · obtain ⟨m, hm, hne, hbefore⟩ := first_mismatch lastLines allLinesReverse k hall
    have hd := hdrift m hm hne hbefore
    refine ⟨⟨fun h => ?_, fun h => absurd h hall⟩, ?_, ?_, ?_⟩
    · rw [hd] at h
      cases h
    · intro line
      constructor
      · intro h
        rw [hd] at h
        cases h
        exact ⟨m, hm, rfl, hne, hbefore⟩
      · rintro ⟨i, hi, rfl, hne2, hbefore2⟩
        exact hdrift i hi hne2 hbefore2
    · exact ⟨fun _ => ⟨m, hm, hne⟩, fun _ => ⟨m + 1, hd⟩⟩
    · rw [hd]
      intro h
      cases h

/-- C20 on three sampled lines of which the second differs: the comparison stops
with the drift outcome and reports line 2. -/
theorem verifyLastLines_drift_witness :
    3 ≤ [ascii "a", ascii "b", ascii "c"].length ∧
    3 ≤ [ascii "a", ascii "x", ascii "c", ascii "d"].length ∧
    verifyLastLines [ascii "a", ascii "b", ascii "c"]
      [ascii "a", ascii "x", ascii "c", ascii "d"] 3 = .drift 2 ∧
    ((∃ line, verifyLastLines [ascii "a", ascii "b", ascii "c"]
        [ascii "a", ascii "x", ascii "c", ascii "d"] 3 = .drift line) ↔
      ∃ i, i < 3 ∧ [ascii "a", ascii "b", ascii "c"].get? i ≠
        [ascii "a", ascii "x", ascii "c", ascii "d"].get? i) :=
  ⟨by decide, by decide, by decide,
    (verifyLastLines_drift [ascii "a", ascii "b", ascii "c"]
      [ascii "a", ascii "x", ascii "c", ascii "d"] 3 (by decide) (by decide)).2.2.1⟩

/-! ## Lemmas on the comparison of a template with the line -/

theorem compareGeneric_eq_compareRows (pixels cells : List Nat) :
    ∀ (n fontOffset lineOffset : Nat),
      compareGeneric pixels cells n fontOffset lineOffset
        = compareRows pixels cells n fontOffset lineOffset := by
  intro n
  induction n with
  | zero => intro fo lo; rfl
  | succ n ih =>
    intro fo lo
    unfold compareGeneric compareRows
    cases pixels.get? fo with
    | none => rfl
    | some p =>
      cases cells.get? lo with
      | none => rfl
      | some l =>
        by_cases h : p = l
        · simp only [ne_eq, h, not_true_eq_false, if_false]; exact ih _ _
        · simp only [ne_eq, h, not_false_eq_true, if_true]

theorem compareRows_add (pixels cells : List Nat) :
    ∀ (a b fontOffset lineOffset : Nat),
      compareRows pixels cells (a + b) fontOffset lineOffset
        = match compareRows pixels cells a fontOffset lineOffset with
          | .ok true => compareRows pixels cells b (fontOffset + a) (lineOffset + a)
          | r => r := by
  intro a
  induction a with
  | zero => intro b fo lo; simp [compareRows]
  | succ a ih =>
    intro b fo lo
    rw [show a + 1 + b = (a + b) + 1 by omega]
    unfold compareRows
    cases pixels.get? fo with
    | none => rfl
    | some p =>
      cases cells.get? lo with
      | none => rfl
      | some l =>
        by_cases h : p = l
        · simp only [ne_eq, h, not_true_eq_false, if_false]
          rw [ih b (fo + 1) (lo + 1)]
          rw [show fo + 1 + a = fo + (a + 1) by omega, show lo + 1 + a = lo + (a + 1) by omega]
          generalize compareRows pixels cells a (fo + 1) (lo + 1) = first
          cases first with
          | error e => rfl
          | ok r =>
            cases r with
            | false => rfl
            | true => cases b <;> rfl
        · simp only [ne_eq, h, not_false_eq_true, if_true]

theorem compareColumns_eq_compareRows (pixels cells : List Nat) :
    ∀ (w fontOffset lineOffset : Nat),
      compareColumns pixels cells w fontOffset lineOffset
        = compareRows pixels cells (w * 13) fontOffset lineOffset := by
  intro w
  induction w with
  | zero => intro fo lo; rfl
  | succ w ih =>
    intro fo lo
    rw [show (w + 1) * 13 = 13 + w * 13 by omega, compareRows_add, compareColumns]
    cases compareRows pixels cells 13 fo lo with
    | error e => rfl
    | ok r =>
      cases r with
      | false => rfl
      | true => exact ih _ _

theorem compareRows_spec (pixels cells : List Nat) :
    ∀ (n fontOffset lineOffset : Nat), fontOffset + n ≤ pixels.length →
      lineOffset + n ≤ cells.length →
      ∃ r, compareRows pixels cells n fontOffset lineOffset = .ok r
        ∧ (r = true ↔ ∀ j, j < n → pixels.get? (fontOffset + j) = cells.get? (lineOffset + j)) := by
  intro n
  induction n with
  | zero =>
    intro fo lo _ _
    exact ⟨true, rfl, by simp⟩
  | succ n ih =>
    intro fo lo hp hc
    have hfo : fo < pixels.length := by omega
    have hlo : lo < cells.length := by omega
    unfold compareRows
    rw [List.get?_eq_get hfo, List.get?_eq_get hlo]
    by_cases h : pixels.get ⟨fo, hfo⟩ = cells.get ⟨lo, hlo⟩
    · simp only [ne_eq, h, not_true_eq_false, if_false]
      obtain ⟨r, hr, hiff⟩ := ih (fo + 1) (lo + 1) (by omega) (by omega)
      refine ⟨r, hr, hiff.trans ⟨fun hall j hj => ?_, fun hall j hj => ?_⟩⟩
      · cases j with
        | zero =>
          rw [Nat.add_zero, Nat.add_zero, List.get?_eq_get hfo, List.get?_eq_get hlo, h]
        | succ j =>
          have := hall j (by omega)
          rw [show fo + (j + 1) = fo + 1 + j by omega, show lo + (j + 1) = lo + 1 + j by omega]
          exact this
      · have := hall (j + 1) (by omega)
        rw [show fo + 1 + j = fo + (j + 1) by omega, show lo + 1 + j = lo + (j + 1) by omega]
        exact this
    · simp only [ne_eq, h, not_false_eq_true, if_true]
      refine ⟨false, rfl, ⟨fun hf => (nomatch hf), fun hall => ?_⟩⟩
      exfalso
      apply h
      have := hall 0 (by omega)
      rw [Nat.add_zero, Nat.add_zero, List.get?_eq_get hfo, List.get?_eq_get hlo] at this
      exact Option.some.inj this

theorem compareColumns_spec (pixels cells : List Nat) (w lineOffset : Nat)
    (hp : w * 13 ≤ pixels.length) (hc : lineOffset + w * 13 ≤ cells.length) :
    ∃ r, compareColumns pixels cells w 0 lineOffset = .ok r
      ∧ (r = true ↔ ∀ j, j < w * 13 → pixels.get? j = cells.get? (lineOffset + j)) := by
  rw [compareColumns_eq_compareRows]
  obtain ⟨r, hr, hiff⟩ := compareRows_spec pixels cells (w * 13) 0 lineOffset (by omega) hc
  refine ⟨r, hr, hiff.trans ?_⟩
  simp only [Nat.zero_add]

theorem compareWidth_le (b : bitmapSave) (pk : Int) : compareWidth b pk ≤ b.Width := by
  unfold compareWidth
  split
  · split <;> omega
  · exact le_refl _

theorem compareWidth_of_ne (b : bitmapSave) (pk : Int) (h : pk ≠ 1) :
    compareWidth b pk = b.Width := by
  simp [compareWidth, h]

theorem matchesAt_iff (cells : List Nat) (c w : Nat) (b : bitmapSave) :
    matchesAt cells c w b
      ↔ ∀ j, j < w * 13 → b.Pixels.get? j = cells.get? (c * 13 + j) := by
  constructor
  · intro h j hj
    have hk : j / 13 < w := by
      rw [Nat.div_lt_iff_lt_mul (by norm_num)]; exact hj
    have := h (j / 13) hk (j % 13) (Nat.mod_lt _ (by norm_num))
    have e1 : j / 13 * 13 + j % 13 = j := by omega
    have e2 : (c + j / 13) * 13 + j % 13 = c * 13 + j := by omega
    rw [e1, e2] at this
    exact this
  · intro h k hk y hy
    have := h (k * 13 + y) (by omega)
    rw [show c * 13 + (k * 13 + y) = (c + k) * 13 + y by omega] at this
    exact this

/-- With enough pixels in every template and in the line, the search of the
library at a column offset returns the first template that fits and whose
compared columns equal the line. -/
theorem findBitmap_spec (cells : List Nat) (nof c : Nat) (pk : Int)
    (hcells : nof * 13 ≤ cells.length) :
    ∀ (lib : List bitmapSave), (∀ b ∈ lib, compareWidth b pk * 13 ≤ b.Pixels.length) →
      findBitmap cells nof c pk lib
        = .ok (lib.find? fun b =>
            decide (fitsAt nof c b ∧ matchesAt cells c (compareWidth b pk) b)) := by
  intro lib
  induction lib with
  | nil => intro _; rfl
  | cons b rest ih =>
    intro hlib
    have hrest := ih (fun a ha => hlib a (List.mem_cons_of_mem _ ha))
    unfold findBitmap
    by_cases hfit : b.Width + c ≤ nof
    · rw [if_pos hfit]
      have hw := compareWidth_le b pk
      obtain ⟨r, hr, hiff⟩ := compareColumns_spec b.Pixels cells (compareWidth b pk) (c * 13)
        (hlib b (List.mem_cons_self _ _)) (by omega)
      rw [hr]
      cases r with
      | true =>
        have hm : matchesAt cells c (compareWidth b pk) b :=
          (matchesAt_iff cells c _ b).2 (hiff.1 rfl)
        have hd : decide (fitsAt nof c b ∧ matchesAt cells c (compareWidth b pk) b) = true :=
          decide_eq_true ⟨hfit, hm⟩
        simp only [List.find?_cons, hd]
      | false =>
        have hm : ¬ matchesAt cells c (compareWidth b pk) b := by
          intro hm
          have := hiff.2 ((matchesAt_iff cells c _ b).1 hm)
          cases this
        have hd : decide (fitsAt nof c b ∧ matchesAt cells c (compareWidth b pk) b) = false :=
          decide_eq_false (fun h => hm h.2)
        simp only [List.find?_cons, hd]
        exact hrest
    · rw [if_neg hfit]
      have hd : decide (fitsAt nof c b ∧ matchesAt cells c (compareWidth b pk) b) = false :=
        decide_eq_false (fun h => hfit h.1)
      simp only [List.find?_cons, hd]
      exact hrest

theorem scanLine_step (lib : List bitmapSave) (cells : List Nat) (nof : Nat) (pk g : Int)
    (fuel c : Nat) (text : List Nat) (x : Nat) (hc : c < nof) :
    scanLine lib cells nof pk g (fuel + 1) c text x
      = match findBitmap cells nof c pk lib with
        | .error e => .error e
        | .ok (some b) =>
          scanLine lib cells nof pk g fuel (c + b.Width)
            (if b.Character ≠ '^'.toNat then text ++ runeString b.Character else text)
            (if b.Character ≠ '^'.toNat then x else if g = 1 then x + 1 else x)
        | .ok none => scanLine lib cells nof pk g fuel (c + 1) text x := by
  rw [scanLine]
  simp only [hc, if_true]

/-! ## Lemmas on the extraction of the columns -/

theorem extractColumn_spec (imageBytes : List Nat) (stride : Nat) :
    ∀ (rows yPos : Nat) (column : List Nat),
      extractColumn imageBytes stride rows yPos = .ok column →
      column.length = rows
      ∧ ∀ r, r < rows → ∃ v, column.get? r = some v
          ∧ readUint32 imageBytes (yPos + r * stride) = .ok v := by
  intro rows
  induction rows with
  | zero =>
    intro yPos column h
    cases h
    exact ⟨rfl, fun r hr => absurd hr (Nat.not_lt_zero r)⟩
  | succ n ih =>
    intro yPos column h
    unfold extractColumn at h
    cases hv : readUint32 imageBytes yPos with
    | error e => rw [hv] at h; cases h
    | ok v =>
      rw [hv] at h
      cases hrest : extractColumn imageBytes stride n (yPos + stride) with
      | error e => rw [hrest] at h; cases h
      | ok rest =>
        rw [hrest] at h
        cases h
        obtain ⟨hl, hget⟩ := ih (yPos + stride) rest hrest
        refine ⟨by simp [hl], fun r hr => ?_⟩
        cases r with
        | zero => exact ⟨v, rfl, by simpa using hv⟩
        | succ r =>
          obtain ⟨u, hu, hread⟩ := hget r (by omega)
          refine ⟨u, by simpa using hu, ?_⟩
          rw [show yPos + (r + 1) * stride = yPos + stride + r * stride by ring]
          exact hread

theorem extractColumn_ok (imageBytes : List Nat) (stride : Nat) :
    ∀ (rows yPos : Nat), (∀ r, r < rows → yPos + r * stride + 3 < imageBytes.length) →
      ∃ column, extractColumn imageBytes stride rows yPos = .ok column := by
  intro rows
  induction rows with
  | zero => intro yPos _; exact ⟨[], rfl⟩
  | succ n ih =>
    intro yPos h
    obtain ⟨rest, hrest⟩ := ih (yPos + stride) (fun r hr => by
      have := h (r + 1) (by omega)
      rw [show yPos + (r + 1) * stride = yPos + stride + r * stride by ring] at this
      exact this)
    have h0 := h 0 (by omega)
    rw [Nat.zero_mul, Nat.add_zero] at h0
    unfold extractColumn
    rw [readUint32_ok imageBytes yPos h0, hrest]
    exact ⟨_, rfl⟩

theorem extractLine_spec (imageBytes : List Nat) (baseOffset stride : Nat) :
    ∀ (cols x : Nat) (cells : List Nat),
      extractLine imageBytes baseOffset stride cols x = .ok cells →
      cells.length = cols * 13
      ∧ ∀ j, j < cols → ∀ r, r < 13 → ∃ v, cells.get? (j * 13 + r) = some v
          ∧ readUint32 imageBytes (baseOffset + 2 * stride + (x + j) * 4 + r * stride)
              = .ok v := by
  intro cols
  induction cols with
  | zero =>
    intro x cells h
    cases h
    exact ⟨rfl, fun j hj => absurd hj (Nat.not_lt_zero j)⟩
  | succ n ih =>
    intro x cells h
    unfold extractLine at h
    cases hc : extractColumn imageBytes stride 13 (baseOffset + 2 * stride + x * 4) with
    | error e => rw [hc] at h; cases h
    | ok column =>
      rw [hc] at h
      cases hrest : extractLine imageBytes baseOffset stride n (x + 1) with
      | error e => rw [hrest] at h; cases h
      | ok rest =>
        rw [hrest] at h
        cases h
        obtain ⟨hcl, hcget⟩ := extractColumn_spec imageBytes stride 13 _ column hc
        obtain ⟨hl, hget⟩ := ih (x + 1) rest hrest
        refine ⟨by rw [List.length_append, hcl, hl]; omega, fun j hj r hr => ?_⟩
        cases j with
        | zero =>
          obtain ⟨v, hv, hread⟩ := hcget r hr
          refine ⟨v, ?_, by simpa using hread⟩
          rw [Nat.zero_mul, Nat.zero_add, List.get?_eq_getElem?,
            List.getElem?_append_left (by omega), ← List.get?_eq_getElem?]
          exact hv
        | succ j =>
          obtain ⟨v, hv, hread⟩ := hget j (by omega) r hr
          refine ⟨v, ?_, ?_⟩
          · rw [List.get?_eq_getElem?, List.getElem?_append_right (by omega), hcl,
              show (j + 1) * 13 + r - 13 = j * 13 + r by omega, ← List.get?_eq_getElem?]
            exact hv
          · rw [show x + (j + 1) = x + 1 + j by omega]
            exact hread

theorem extractLine_ok (imageBytes : List Nat) (baseOffset stride : Nat) :
    ∀ (cols x : Nat),
      (∀ j, j < cols → ∀ r, r < 13 →
        baseOffset + 2 * stride + (x + j) * 4 + r * stride + 3 < imageBytes.length) →
      ∃ cells, extractLine imageBytes baseOffset stride cols x = .ok cells := by
  intro cols
  induction cols with
  | zero => intro x _; exact ⟨[], rfl⟩
  | succ n ih =>
    intro x h
    obtain ⟨column, hc⟩ := extractColumn_ok imageBytes stride 13
      (baseOffset + 2 * stride + x * 4) (fun r hr => by simpa using h 0 (by omega) r hr)
    obtain ⟨rest, hrest⟩ := ih (x + 1) (fun j hj r hr => by
      have := h (j + 1) (by omega) r hr
      rw [show x + (j + 1) = x + 1 + j by omega] at this
      exact this)
    unfold extractLine
    rw [hc, hrest]
    exact ⟨_, rfl⟩

/-- The extracted line holds, column by column, the pixels of the rows 2 to 14 of
the text line. -/
theorem lineAsUint32_spec (imageBytes : List Nat) (lineNumber lineWidth height : Nat)
    (cells : List Nat) (h : lineAsUint32 imageBytes lineNumber lineWidth height = .ok cells) :
    cells.length = lineWidth * 13
    ∧ ∀ x, x < lineWidth → ∀ y, y < 13 → ∃ v, cells.get? (x * 13 + y) = some v
        ∧ linePixel imageBytes lineNumber lineWidth height x (2 + y) = .ok v := by
  obtain ⟨hl, hget⟩ := extractLine_spec imageBytes _ _ lineWidth 0 cells h
  refine ⟨hl, fun x hx y hy => ?_⟩
  obtain ⟨v, hv, hread⟩ := hget x hx y hy
  refine ⟨v, hv, ?_⟩
  unfold linePixel
  rw [← hread]
  congr 1
  ring

/-- A buffer that holds the first 15 rows of the text line is long enough for the
extraction. -/
theorem lineAsUint32_ok (imageBytes : List Nat) (lineNumber lineWidth height : Nat)
    (hlen : (lineNumber * height + 15) * lineWidth * 4 ≤ imageBytes.length) :
    ∃ cells, lineAsUint32 imageBytes lineNumber lineWidth height = .ok cells := by
  unfold lineAsUint32
  apply extractLine_ok
  intro j hj r hr
  have e : (lineNumber * height + 15) * lineWidth * 4
      = lineNumber * height * lineWidth * 4 + 15 * (lineWidth * 4) := by ring
  have h1 : r * (lineWidth * 4) ≤ 12 * (lineWidth * 4) := Nat.mul_le_mul_right _ (by omega)
  rw [e] at hlen
  omega

/-! ## Lemmas on a line made of templates -/

theorem prefix_of_matchesAt (cells : List Nat) (c w : Nat) (b : bitmapSave)
    (hp : w * 13 ≤ b.Pixels.length) (hm : matchesAt cells c w b) :
    b.Pixels.take (w * 13) <+: cells.drop (c * 13) := by
  have hj := (matchesAt_iff cells c w b).1 hm
  have e : b.Pixels.take (w * 13) = (cells.drop (c * 13)).take (w * 13) := by
    apply List.ext_getElem?
    intro j
    by_cases hjw : j < w * 13
    · rw [List.getElem?_take_of_lt hjw, List.getElem?_take_of_lt hjw, List.getElem?_drop]
      have := hj j hjw
      simpa [List.get?_eq_getElem?] using this
    · rw [List.getElem?_eq_none (by rw [List.length_take]; omega),
        List.getElem?_eq_none (by rw [List.length_take]; omega)]
  rw [e]
  exact List.take_prefix _ _

theorem matchesAt_of_append (pre rest : List Nat) (c w : Nat) (t : bitmapSave)
    (hc : pre.length = c * 13) (hw : w * 13 ≤ t.Pixels.length) :
    matchesAt (pre ++ (t.Pixels ++ rest)) c w t := by
  rw [matchesAt_iff]
  intro j hj
  simp only [List.get?_eq_getElem?]
  rw [List.getElem?_append_right (by omega), hc, Nat.add_sub_cancel_left,
    List.getElem?_append_left (by omega)]

theorem renderedText_cons (t : bitmapSave) (ts : List bitmapSave) :
    renderedText (t :: ts)
      = (if t.Character ≠ '^'.toNat then runeString t.Character else []) ++ renderedText ts := by
  unfold renderedText
  by_cases h : t.Character = 94
  · simp [List.filter_cons, h]
  · simp [List.filter_cons, h]

theorem ignoredCount_cons (g : Int) (t : bitmapSave) (ts : List bitmapSave) :
    ignoredCount g (t :: ts)
      = (if t.Character ≠ '^'.toNat then 0 else if g = 1 then 1 else 0) + ignoredCount g ts := by
  unfold ignoredCount
  by_cases hg : g = 1
  · by_cases h : t.Character = 94
    · simp [List.filter_cons, h, hg]; omega
    · simp [List.filter_cons, h, hg]
  · by_cases h : t.Character = 94 <;> simp [hg, h]

theorem pixels_length (lib : List bitmapSave)
    (hpix : ∀ b ∈ lib, b.Pixels.length = b.Width * 13) :
    ∀ (l : List bitmapSave), (∀ a ∈ l, a ∈ lib) →
      (l.flatMap fun t => t.Pixels).length = totalWidth l * 13 := by
  intro l
  induction l with
  | nil => intro _; rfl
  | cons a l ihl =>
    intro hl
    have := ihl (fun b hb => hl b (List.mem_cons_of_mem _ hb))
    simp only [List.flatMap_cons, List.length_append, totalWidth, List.map_cons,
      List.sum_cons] at this ⊢
    rw [this, hpix a (hl a (List.mem_cons_self _ _))]
    ring

theorem totalWidth_append (l1 l2 : List bitmapSave) :
    totalWidth (l1 ++ l2) = totalWidth l1 + totalWidth l2 := by
  simp [totalWidth]

/-- At the first column of a template of a line made of templates, the search
accepts that template, where no template's compared columns are a prefix of
another's. -/
theorem findBitmap_rendered (lib : List bitmapSave) (pk : Int)
    (hpix : ∀ b ∈ lib, b.Pixels.length = b.Width * 13)
    (hfree : ∀ a ∈ lib, ∀ b ∈ lib, keyColumns pk a <+: keyColumns pk b → a = b)
    (t : bitmapSave) (ts : List bitmapSave) (hts : ∀ a ∈ t :: ts, a ∈ lib)
    (pre : List Nat) (c : Nat) (hc : pre.length = c * 13) :
    findBitmap (pre ++ (t :: ts).flatMap fun t => t.Pixels) (c + totalWidth (t :: ts)) c pk lib
      = .ok (some t) := by
  have ht : t ∈ lib := hts t (List.mem_cons_self _ _)
  have htl := hpix t ht
  have hcw := compareWidth_le t pk
  have hsum : totalWidth (t :: ts) = t.Width + totalWidth ts := by simp [totalWidth]
  have hcells : (pre ++ (t :: ts).flatMap fun t => t.Pixels)
      = pre ++ (t.Pixels ++ ts.flatMap fun t => t.Pixels) := by simp
  have hlen : (c + totalWidth (t :: ts)) * 13
      ≤ (pre ++ (t :: ts).flatMap fun t => t.Pixels).length := by
    rw [List.length_append, hc, pixels_length lib hpix (t :: ts) hts]
    apply le_of_eq
    ring
  rw [findBitmap_spec _ _ _ _ hlen lib (fun b hb => by
    rw [hpix b hb]; exact Nat.mul_le_mul_right _ (compareWidth_le b pk))]
  have hacc : fitsAt (c + totalWidth (t :: ts)) c t
      ∧ matchesAt (pre ++ (t :: ts).flatMap fun t => t.Pixels) c (compareWidth t pk) t := by
    refine ⟨by unfold fitsAt; omega, ?_⟩
    rw [hcells]
    exact matchesAt_of_append pre _ c _ t hc (by rw [htl]; exact Nat.mul_le_mul_right _ hcw)
  have huniq : ∀ b ∈ lib,
      fitsAt (c + totalWidth (t :: ts)) c b
        ∧ matchesAt (pre ++ (t :: ts).flatMap fun t => t.Pixels) c (compareWidth b pk) b →
      b = t := by
    intro b hb hab
    have hbl : compareWidth b pk * 13 ≤ b.Pixels.length := by
      rw [hpix b hb]; exact Nat.mul_le_mul_right _ (compareWidth_le b pk)
    have p1 := prefix_of_matchesAt _ c _ b hbl hab.2
    have p2 := prefix_of_matchesAt _ c _ t (by rw [htl]; exact Nat.mul_le_mul_right _ hcw)
      hacc.2
    rcases Nat.le_total (keyColumns pk b).length (keyColumns pk t).length with h | h
    · exact hfree b hb t ht (List.prefix_of_prefix_length_le p1 p2 h)
    · exact (hfree t ht b hb (List.prefix_of_prefix_length_le p2 p1 h)).symm
  cases hfind : lib.find? (fun b => decide (fitsAt (c + totalWidth (t :: ts)) c b
      ∧ matchesAt (pre ++ (t :: ts).flatMap fun t => t.Pixels) c (compareWidth b pk) b)) with
  | none =>
    have := List.find?_eq_none.1 hfind t ht
    simp only [decide_eq_true_eq] at this
    exact absurd hacc this
  | some b =>
    have hb : b ∈ lib := List.mem_of_find?_eq_some hfind
    have hP := List.find?_some hfind
    simp only [decide_eq_true_eq] at hP
    rw [huniq b hb hP]

/-- On a line made of templates of the library, one after the other, the scan
accepts these templates in turn, where no template's compared columns are a
prefix of another's. -/
theorem scanLine_rendered (lib : List bitmapSave) (pk g : Int)
    (hpix : ∀ b ∈ lib, b.Pixels.length = b.Width * 13)
    (hpos : ∀ b ∈ lib, 0 < b.Width)
    (hfree : ∀ a ∈ lib, ∀ b ∈ lib, keyColumns pk a <+: keyColumns pk b → a = b) :
    ∀ (ts : List bitmapSave), (∀ t ∈ ts, t ∈ lib) →
      ∀ (pre : List Nat) (c fuel : Nat) (text : List Nat) (x : Nat),
        pre.length = c * 13 → ts.length ≤ fuel →
        scanLine lib (pre ++ ts.flatMap fun t => t.Pixels) (c + totalWidth ts) pk g fuel c
            text x
          = .ok (text ++ renderedText ts, x + ignoredCount g ts) := by
  intro ts
  induction ts with
  | nil =>
    intro _ pre c fuel text x _ _
    rw [scanLine_done _ _ _ _ _ _ _ _ _ (by simp [totalWidth])]
    simp [renderedText, ignoredCount]
  | cons t ts ih =>
    intro hts pre c fuel text x hc hfuel
    have ht : t ∈ lib := hts t (List.mem_cons_self _ _)
    have htl := hpix t ht
    have htw := hpos t ht
    obtain ⟨fuel, rfl⟩ : ∃ f, fuel = f + 1 := ⟨fuel - 1, by simp at hfuel; omega⟩
    have hsum : totalWidth (t :: ts) = t.Width + totalWidth ts := by simp [totalWidth]
    have hcells : (pre ++ (t :: ts).flatMap fun t => t.Pixels)
        = pre ++ (t.Pixels ++ ts.flatMap fun t => t.Pixels) := by simp
    rw [scanLine_step _ _ _ _ _ _ _ _ _ (by omega),
      findBitmap_rendered lib pk hpix hfree t ts hts pre c hc]
    simp only
    have hpre : (pre ++ t.Pixels).length = (c + t.Width) * 13 := by
      rw [List.length_append, hc, htl]; ring
    have := ih (fun a ha => hts a (List.mem_cons_of_mem _ ha)) (pre ++ t.Pixels)
      (c + t.Width) fuel
      (if t.Character ≠ '^'.toNat then text ++ runeString t.Character else text)
      (if t.Character ≠ '^'.toNat then x else if g = 1 then x + 1 else x) hpre
      (by simp at hfuel; omega)
    rw [hcells, ← List.append_assoc, hsum, ← Nat.add_assoc, this, renderedText_cons,
      ignoredCount_cons]
    by_cases hch : t.Character = 94
    · by_cases hg : g = 1
      · simp [hch, hg]; omega
      · simp [hch, hg]
    · simp [hch]

theorem recognize_renderLine (lib : List bitmapSave) (text : List Nat) (fuel height : Nat)
    (pk g : Int) :
    recognize fuel (fontMemory lib text) 0 text.length height pk g
      = scanLine lib (text.flatMap (List.replicate 13)) text.length pk g fuel 0 [] 0 := by
  simp only [recognize, fontMemory, lineAsUint32_renderLine text height]

theorem keyColumns_of_ne (pk : Int) (hpk : pk ≠ 1) (b : bitmapSave)
    (h : b.Pixels.length = b.Width * 13) : keyColumns pk b = b.Pixels := by
  unfold keyColumns
  rw [compareWidth_of_ne b pk hpk, ← h]
  exact List.take_length _

theorem keyColumns_one (b : bitmapSave) :
    keyColumns 1 b = b.Pixels.take (min b.Width 4 * 13) := by
  unfold keyColumns compareWidth
  simp only [if_true]
  by_cases h : b.Width > 4
  · rw [if_pos h, Nat.min_eq_right (by omega)]
  · rw [if_neg h, Nat.min_eq_left (by omega)]

theorem exists_wide_of_totalWidth (ts : List bitmapSave) (h : 0 < totalWidth ts) :
    ∃ t ∈ ts, 0 < t.Width := by
  induction ts with
  | nil => simp [totalWidth] at h
  | cons t ts ih =>
    by_cases ht : 0 < t.Width
    · exact ⟨t, List.mem_cons_self _ _, ht⟩
    · have : 0 < totalWidth ts := by
        simp only [totalWidth, List.map_cons, List.sum_cons] at h ⊢
        omega
      obtain ⟨a, ha, haw⟩ := ih this
      exact ⟨a, List.mem_cons_of_mem _ ha, haw⟩

theorem width_pos_of_free (lib : List bitmapSave) (pk : Int)
    (hfree : ∀ a ∈ lib, ∀ b ∈ lib, keyColumns pk a <+: keyColumns pk b → a = b)
    (ts : List bitmapSave) (hts : ∀ t ∈ ts, t ∈ lib) (hw : 0 < totalWidth ts) :
    ∀ b ∈ lib, 0 < b.Width := by
  intro b hb
  obtain ⟨t, ht, htw⟩ := exists_wide_of_totalWidth ts hw
  by_contra h0
  have hcw := compareWidth_le b pk
  have hk : keyColumns pk b = [] := by
    unfold keyColumns
    rw [show compareWidth b pk = 0 by omega]
    rfl
  have := hfree b hb t (hts t ht) (by rw [hk]; exact List.nil_prefix)
  rw [this] at h0
  exact h0 htw

theorem pixels_free_of_first_four (lib : List bitmapSave)
    (hpix : ∀ b ∈ lib, b.Pixels.length = b.Width * 13)
    (hfree : ∀ a ∈ lib, ∀ b ∈ lib,
      a.Pixels.take (min a.Width 4 * 13) <+: b.Pixels.take (min b.Width 4 * 13) → a = b) :
    ∀ a ∈ lib, ∀ b ∈ lib, a.Pixels <+: b.Pixels → a = b := by
  intro a ha b hb hab
  apply hfree a ha b hb
  have hla := hpix a ha
  have hlb := hpix b hb
  have hlen := hab.length_le
  have p1 : a.Pixels.take (min a.Width 4 * 13) <+: b.Pixels :=
    (List.take_prefix _ _).trans hab
  have p2 : b.Pixels.take (min b.Width 4 * 13) <+: b.Pixels := List.take_prefix _ _
  apply List.prefix_of_prefix_length_le p1 p2
  rw [List.length_take, List.length_take, hla, hlb]
  rw [hla, hlb] at hlen
  omega

/-- With enough pixels in every template and in the line, the scan stops without
a value only when the fuel runs out. -/
theorem scanLine_fault (lib : List bitmapSave) (cells : List Nat) (nof : Nat) (pk g : Int)
    (hcells : nof * 13 ≤ cells.length)
    (hlib : ∀ b ∈ lib, compareWidth b pk * 13 ≤ b.Pixels.length) :
    ∀ (fuel c : Nat) (text : List Nat) (x : Nat) (e : Fault),
      scanLine lib cells nof pk g fuel c text x = .error e → e = .outOfFuel := by
  intro fuel
  induction fuel with
  | zero =>
    intro c text x e h
    rw [scanLine] at h
    split at h
    · cases h; rfl
    · cases h
  | succ fuel ih =>
    intro c text x e h
    by_cases hc : c < nof
    · rw [scanLine_step _ _ _ _ _ _ _ _ _ hc, findBitmap_spec _ _ _ _ hcells lib hlib] at h
      cases hf : lib.find? (fun b => decide (fitsAt nof c b
          ∧ matchesAt cells c (compareWidth b pk) b)) with
      | none => rw [hf] at h; exact ih _ _ _ _ h
      | some b => rw [hf] at h; exact ih _ _ _ _ h
    · rw [scanLine_done _ _ _ _ _ _ _ _ _ hc] at h
      cases h

/-- A library that holds the zero value first never lets the scan move on. -/
theorem scanLine_zero_template (rest : List bitmapSave) (cells : List Nat) (nof : Nat)
    (pk g : Int) (c : Nat) (hc : c < nof) :
    ∀ (fuel : Nat) (text : List Nat) (x : Nat),
      scanLine (zeroBitmap :: rest) cells nof pk g fuel c text x = .error .outOfFuel := by
  intro fuel
  induction fuel with
  | zero =>
    intro text x
    rw [scanLine]
    simp only [hc, if_true]
  | succ fuel ih =>
    intro text x
    have hcw : compareWidth zeroBitmap pk = 0 := by
      have := compareWidth_le zeroBitmap pk
      simpa [zeroBitmap] using this
    have hfind : findBitmap cells nof c pk (zeroBitmap :: rest) = .ok (some zeroBitmap) := by
      unfold findBitmap
      rw [if_pos (by simp [zeroBitmap]; omega), hcw]
      rfl
    rw [scanLine_step _ _ _ _ _ _ _ _ _ hc, hfind]
    exact ih _ _

/-! ## The claims on the template matching -/

/-- Counterexample to C23. A library of two templates whose first four columns
differ (and are no prefix of one another): the wide 0 and the separator. On a
line of four columns of the 0 followed by one column of the separator the
shortcut accepts the wide 0 on its first four columns and returns the field
count error for one field; the full comparison returns it for two fields. -/
theorem bitmapToString_shortcut_differs :
    (bitmapToString 5 (fontMemory wideFont (ascii "0000|")) 0 5 15 1 1).1
      = .ok ⟨0, ascii "error:4:field count 1"⟩
    ∧ (bitmapToString 5 (fontMemory wideFont (ascii "0000|")) 0 5 15 0 1).1
      = .ok ⟨0, ascii "error:4:field count 2"⟩
    ∧ wideZero.Pixels.take (min wideZero.Width 4 * 13)
        ≠ (glyph '|'.toNat).Pixels.take (min (glyph '|'.toNat).Width 4 * 13)
    ∧ ¬ wideZero.Pixels.take (min wideZero.Width 4 * 13)
        <+: (glyph '|'.toNat).Pixels.take (min (glyph '|'.toNat).Width 4 * 13)
    ∧ ¬ (glyph '|'.toNat).Pixels.take (min (glyph '|'.toNat).Width 4 * 13)
        <+: wideZero.Pixels.take (min wideZero.Width 4 * 13) := by
  have h1 : recognize 5 (fontMemory wideFont (ascii "0000|")) 0 5 15 1 1
      = .ok (ascii "0", 0) :=
    (recognize_renderLine wideFont (ascii "0000|") 5 15 1 1).trans (by decide)
  have h0 : recognize 5 (fontMemory wideFont (ascii "0000|")) 0 5 15 0 1
      = .ok (ascii "|", 0) :=
    (recognize_renderLine wideFont (ascii "0000|") 5 15 0 1).trans (by decide)
  refine ⟨?_, ?_, by decide, by decide, by decide⟩
  · rw [bitmapToString_fst _ _ _ _ _ _ _ _ _ h1]
    decide
  · rw [bitmapToString_fst _ _ _ _ _ _ _ _ _ h0]
    decide

/-- C23, amended. For a library of templates of Height 13 in which the first
min(Width,4) columns of no template are a prefix of (or equal to) those of
another template, and for a line of positive width whose clipped window is made
of library templates one after the other, bitmapToString returns the same
result, and leaves the same state, with the shortcut as with the full
comparison: the validation of the text of these templates. -/
theorem bitmapToString_shortcut_rendered (fuel : Nat) (m : Memory)
    (lineNumber lineWidth height : Nat) (pk g : Int) (ts : List bitmapSave)
    (hpk : pk ≠ 1)
    (hlib : ∀ b ∈ m.globalBitmaps, b.Height = 13 ∧ b.Pixels.length = b.Width * b.Height)
    (hfree : ∀ a ∈ m.globalBitmaps, ∀ b ∈ m.globalBitmaps,
      a.Pixels.take (min a.Width 4 * 13) <+: b.Pixels.take (min b.Width 4 * 13) → a = b)
    (hts : ∀ t ∈ ts, t ∈ m.globalBitmaps)
    (hwidth : totalWidth ts = lineWidth) (hw : 0 < lineWidth)
    (hline : lineAsUint32 m.imageBytes lineNumber lineWidth height
      = .ok (ts.flatMap fun t => t.Pixels))
    (hfuel : ts.length ≤ fuel) :
    bitmapToString fuel m lineNumber lineWidth height 1 g
      = bitmapToString fuel m lineNumber lineWidth height pk g
    ∧ (bitmapToString fuel m lineNumber lineWidth height 1 g).1
      = validateLine lineNumber (renderedText ts) := by
  have hpix : ∀ b ∈ m.globalBitmaps, b.Pixels.length = b.Width * 13 := by
    intro b hb
    have := hlib b hb
    rw [this.2, this.1]
  have hfree1 : ∀ a ∈ m.globalBitmaps, ∀ b ∈ m.globalBitmaps,
      keyColumns 1 a <+: keyColumns 1 b → a = b := by
    intro a ha b hb h
    rw [keyColumns_one, keyColumns_one] at h
    exact hfree a ha b hb h
  have hfreep : ∀ a ∈ m.globalBitmaps, ∀ b ∈ m.globalBitmaps,
      keyColumns pk a <+: keyColumns pk b → a = b := by
    intro a ha b hb h
    rw [keyColumns_of_ne pk hpk a (hpix a ha), keyColumns_of_ne pk hpk b (hpix b hb)] at h
    exact pixels_free_of_first_four m.globalBitmaps hpix hfree a ha b hb h
  have hrec : ∀ q, (∀ a ∈ m.globalBitmaps, ∀ b ∈ m.globalBitmaps,
      keyColumns q a <+: keyColumns q b → a = b) →
      recognize fuel m lineNumber lineWidth height q g
        = .ok (renderedText ts, ignoredCount g ts) := by
    intro q hq
    have hpos := width_pos_of_free m.globalBitmaps q hq ts hts (by rw [hwidth]; exact hw)
    have := scanLine_rendered m.globalBitmaps q g hpix hpos hq ts hts [] 0 fuel [] 0 rfl hfuel
    simp only [List.nil_append, Nat.zero_add, hwidth] at this
    simp only [recognize, hline, this]
  have h1 := hrec 1 hfree1
  have hp := hrec pk hfreep
  refine ⟨?_, bitmapToString_fst _ _ _ _ _ _ _ _ _ h1⟩
  unfold bitmapToString
  rw [h1, hp]

/-- Witness of C23 amended: the line made of the wide 0 and the separator. -/
theorem bitmapToString_shortcut_rendered_witness :
    bitmapToString 2 (fontMemory wideFont (ascii "00000|")) 0 6 15 1 1
      = bitmapToString 2 (fontMemory wideFont (ascii "00000|")) 0 6 15 0 1
    ∧ (bitmapToString 2 (fontMemory wideFont (ascii "00000|")) 0 6 15 1 1).1
      = validateLine 0 (renderedText [wideZero, glyph '|'.toNat]) :=
  bitmapToString_shortcut_rendered 2 (fontMemory wideFont (ascii "00000|")) 0 6 15 0 1
    [wideZero, glyph '|'.toNat] (by decide) (by decide) (by decide) (by decide) (by decide)
    (by decide) ((lineAsUint32_renderLine (ascii "00000|") 15).trans (by decide)) (by decide)

/-- C24. With the shortcut disabled, on the extracted line of a capture and a
library whose templates hold Width*13 pixels: the extracted pixel of column x
and row y is the pixel of the capture at column x, row 2+y of the text line; at
every column offset c the search returns the first template in library order
that fits (Width + c <= lineWidth) and whose pixels k*13+y equal the line pixels
of column c+k, row y, for all k < Width and y < 13, or nothing when there is
none; an iteration of the scan at c then appends the character of that template
(nothing for the ignore character) and goes on at c + Width, or goes on at c + 1
with the text unchanged when nothing was returned. For a template of Height 13
the unrolled comparison has the result of the loop over the Width*Height
template pixels that it replaces. -/
theorem findBitmap_first_match (m : Memory) (lineNumber lineWidth height : Nat) (pk g : Int)
    (cells : List Nat) (hpk : pk ≠ 1)
    (hline : lineAsUint32 m.imageBytes lineNumber lineWidth height = .ok cells)
    (hlib : ∀ b ∈ m.globalBitmaps, b.Width * 13 ≤ b.Pixels.length) :
    (∀ x, x < lineWidth → ∀ y, y < 13 → ∃ v, cells.get? (x * 13 + y) = some v
        ∧ linePixel m.imageBytes lineNumber lineWidth height x (2 + y) = .ok v)
    ∧ (∀ c, findBitmap cells lineWidth c pk m.globalBitmaps
        = .ok (m.globalBitmaps.find? fun b =>
            decide (fitsAt lineWidth c b ∧ matchesAt cells c b.Width b)))
    ∧ (∀ fuel c text x, c < lineWidth →
        scanLine m.globalBitmaps cells lineWidth pk g (fuel + 1) c text x
          = match m.globalBitmaps.find? fun b =>
              decide (fitsAt lineWidth c b ∧ matchesAt cells c b.Width b) with
            | some b =>
              scanLine m.globalBitmaps cells lineWidth pk g fuel (c + b.Width)
                (if b.Character ≠ '^'.toNat then text ++ runeString b.Character else text)
                (if b.Character ≠ '^'.toNat then x else if g = 1 then x + 1 else x)
            | none => scanLine m.globalBitmaps cells lineWidth pk g fuel (c + 1) text x)
    ∧ (∀ (b : bitmapSave) (c : Nat), b.Height = 13 →
        compareColumns b.Pixels cells (compareWidth b pk) 0 (c * 13)
          = compareGeneric b.Pixels cells (b.Width * b.Height) 0 (c * 13)) := by
  obtain ⟨hlen, hget⟩ := lineAsUint32_spec _ _ _ _ cells hline
  have hfind : ∀ c, findBitmap cells lineWidth c pk m.globalBitmaps
      = .ok (m.globalBitmaps.find? fun b =>
          decide (fitsAt lineWidth c b ∧ matchesAt cells c b.Width b)) := by
    intro c
    rw [findBitmap_spec cells lineWidth c pk (le_of_eq hlen.symm) m.globalBitmaps
      (fun b hb => by rw [compareWidth_of_ne b pk hpk]; exact hlib b hb)]
    simp only [compareWidth_of_ne _ pk hpk]
  refine ⟨hget, hfind, ?_, ?_⟩
  · intro fuel c text x hc
    rw [scanLine_step _ _ _ _ _ _ _ _ _ hc, hfind c]
    cases m.globalBitmaps.find? fun b =>
        decide (fitsAt lineWidth c b ∧ matchesAt cells c b.Width b) <;> rfl
  · intro b c hb
    rw [compareWidth_of_ne b pk hpk, hb, compareColumns_eq_compareRows,
      compareGeneric_eq_compareRows]

/-- Witness of C24: on the capture of the text 0| the search at the column
offset 1 returns the template of the separator, the second of the library. -/
theorem findBitmap_first_match_witness :
    findBitmap ((ascii "0|").flatMap (List.replicate 13)) 2 1 0 sampleFont
      = .ok (some (glyph '|'.toNat))
    ∧ sampleFont.get? 1 = some (glyph '|'.toNat) :=
  ⟨((findBitmap_first_match (sampleMemory (ascii "0|")) 0 2 15 0 1
      ((ascii "0|").flatMap (List.replicate 13)) (by decide)
      (lineAsUint32_renderLine (ascii "0|") 15) (by decide)).2.1 1).trans (by decide),
    by decide⟩

/-- C26, evaluated at the failing input. The library that loadFontBitmaps
accepts for one valid description of the character A, which is not in the
priority list, holds the zero value, a template of Width 0. On the capture of a
line of one column the scan accepts this template at the column offset 0
without moving on: whatever the number of iterations allowed, the call has not
returned. -/
theorem bitmapToString_zero_width_loops :
    loadFontBitmaps [sampleEntry (ascii "A") 1 13] sampleFiles = .loaded [zeroBitmap]
    ∧ zeroBitmap.Width = 0
    ∧ ∀ (fuel : Nat) (pk g : Int),
        (bitmapToString fuel (fontMemory [zeroBitmap] (ascii "0")) 0 1 15 pk g).1
          = .error .outOfFuel := by
  refine ⟨by decide, rfl, fun fuel pk g => ?_⟩
  have h : recognize fuel (fontMemory [zeroBitmap] (ascii "0")) 0 1 15 pk g
      = .error .outOfFuel :=
    (recognize_renderLine [zeroBitmap] (ascii "0") fuel 15 pk g).trans
      (scanLine_zero_template [] _ 1 pk g 0 (by decide) fuel [] 0)
  unfold bitmapToString
  rw [h]

/-- C27. With a buffer of at least (lineNumber*height + 15) * lineWidth * 4 bytes
and a library whose templates have Height 13 and Width*13 pixels, the reads of
the column extraction and of the matching loop are in bounds: the extraction
returns lineWidth*13 pixels, each the pixel of a column below lineWidth and of a
row 2 to 14 of the text line; the search of the library returns at every column
offset; and the extraction and the scan together never stop on an index out of
range or on a read past the end of the buffer. -/
theorem recognize_in_bounds (m : Memory) (lineNumber lineWidth height : Nat) (pk g : Int)
    (hlen : (lineNumber * height + 15) * lineWidth * 4 ≤ m.imageBytes.length)
    (hlib : ∀ b ∈ m.globalBitmaps, b.Height = 13 ∧ b.Pixels.length = b.Width * 13) :
    (∃ cells, lineAsUint32 m.imageBytes lineNumber lineWidth height = .ok cells
      ∧ cells.length = lineWidth * 13
      ∧ (∀ x, x < lineWidth → ∀ y, y < 13 → ∃ v, cells.get? (x * 13 + y) = some v
          ∧ linePixel m.imageBytes lineNumber lineWidth height x (2 + y) = .ok v)
      ∧ ∀ c, ∃ r, findBitmap cells lineWidth c pk m.globalBitmaps = .ok r)
    ∧ ∀ fuel e, recognize fuel m lineNumber lineWidth height pk g = .error e
        → e = .outOfFuel := by
  obtain ⟨cells, hcells⟩ := lineAsUint32_ok m.imageBytes lineNumber lineWidth height hlen
  obtain ⟨hl, hget⟩ := lineAsUint32_spec _ _ _ _ cells hcells
  have hlib2 : ∀ b ∈ m.globalBitmaps, compareWidth b pk * 13 ≤ b.Pixels.length := by
    intro b hb
    rw [(hlib b hb).2]
    exact Nat.mul_le_mul_right _ (compareWidth_le b pk)
  refine ⟨⟨cells, hcells, hl, hget, fun c =>
    ⟨_, findBitmap_spec cells lineWidth c pk (le_of_eq hl.symm) _ hlib2⟩⟩, ?_⟩
  intro fuel e h
  unfold recognize at h
  rw [hcells] at h
  exact scanLine_fault _ _ _ _ _ (le_of_eq hl.symm) hlib2 _ _ _ _ _ h

/-- Witness of C27: the capture of one line of ten columns and the sample
library. -/
theorem recognize_in_bounds_witness :
    (∃ cells, lineAsUint32 (sampleMemory (ascii "00:00:||||")).imageBytes 0 10 15 = .ok cells
      ∧ cells.length = 10 * 13
      ∧ (∀ x, x < 10 → ∀ y, y < 13 → ∃ v, cells.get? (x * 13 + y) = some v
          ∧ linePixel (sampleMemory (ascii "00:00:||||")).imageBytes 0 10 15 x (2 + y) = .ok v)
      ∧ ∀ c, ∃ r, findBitmap cells 10 c 1
          (sampleMemory (ascii "00:00:||||")).globalBitmaps = .ok r)
    ∧ ∀ fuel e, recognize fuel (sampleMemory (ascii "00:00:||||")) 0 10 15 1 1 = .error e
        → e = .outOfFuel :=
  recognize_in_bounds (sampleMemory (ascii "00:00:||||")) 0 10 15 1 1
    (le_of_eq (renderLine_length (ascii "00:00:||||")).symm) (by decide)

/-- C29. For a library of templates of Height 13 in which no template's pixels
are a prefix of (or equal to) another template's, and a line of positive width
whose clipped window is made of library templates one after the other, their
widths adding up to lineWidth: with the shortcut disabled and one iteration per
template the scan returns exactly the characters of these templates in order,
without the ignore character, and the count of the ignored glyphs; at the first
column of each of these templates the search accepts that template, so no
column is skipped. -/
theorem recognize_round_trip (fuel : Nat) (m : Memory) (lineNumber lineWidth height : Nat)
    (pk g : Int) (ts : List bitmapSave)
    (hpk : pk ≠ 1)
    (hlib : ∀ b ∈ m.globalBitmaps, b.Height = 13 ∧ b.Pixels.length = b.Width * b.Height)
    (hfree : ∀ a ∈ m.globalBitmaps, ∀ b ∈ m.globalBitmaps, a.Pixels <+: b.Pixels → a = b)
    (hts : ∀ t ∈ ts, t ∈ m.globalBitmaps)
    (hwidth : totalWidth ts = lineWidth) (hw : 0 < lineWidth)
    (hline : lineAsUint32 m.imageBytes lineNumber lineWidth height
      = .ok (ts.flatMap fun t => t.Pixels))
    (hfuel : ts.length ≤ fuel) :
    recognize fuel m lineNumber lineWidth height pk g
      = .ok (renderedText ts, ignoredCount g ts)
    ∧ ∀ i t, ts.get? i = some t →
        findBitmap (ts.flatMap fun t => t.Pixels) lineWidth (totalWidth (ts.take i)) pk
          m.globalBitmaps = .ok (some t) := by
  have hpix : ∀ b ∈ m.globalBitmaps, b.Pixels.length = b.Width * 13 := by
    intro b hb
    have := hlib b hb
    rw [this.2, this.1]
  have hfreep : ∀ a ∈ m.globalBitmaps, ∀ b ∈ m.globalBitmaps,
      keyColumns pk a <+: keyColumns pk b → a = b := by
    intro a ha b hb h
    rw [keyColumns_of_ne pk hpk a (hpix a ha), keyColumns_of_ne pk hpk b (hpix b hb)] at h
    exact hfree a ha b hb h
  have hpos := width_pos_of_free m.globalBitmaps pk hfreep ts hts (by rw [hwidth]; exact hw)
  constructor
  · have := scanLine_rendered m.globalBitmaps pk g hpix hpos hfreep ts hts [] 0 fuel [] 0 rfl
      hfuel
    simp only [List.nil_append, Nat.zero_add, hwidth] at this
    simp only [recognize, hline, this]
  · intro i t hi
    have hil : i < ts.length := by
      rcases lt_or_ge i ts.length with h | h
      · exact h
      · rw [List.get?_eq_none.2 h] at hi; cases hi
    have hti : ts[i] = t := by
      rw [List.get?_eq_get hil] at hi
      exact Option.some.inj hi
    have hsplit : ts = ts.take i ++ t :: ts.drop (i + 1) := by
      rw [← hti, ← List.drop_eq_getElem_cons hil, List.take_append_drop]
    have hmem : ∀ a ∈ t :: ts.drop (i + 1), a ∈ m.globalBitmaps := by
      intro a ha
      apply hts
      rw [hsplit]
      exact List.mem_append_right _ ha
    have hpre : ((ts.take i).flatMap fun t => t.Pixels).length = totalWidth (ts.take i) * 13 :=
      pixels_length m.globalBitmaps hpix (ts.take i)
        (fun a ha => hts a (List.mem_of_mem_take ha))
    have := findBitmap_rendered m.globalBitmaps pk hpix hfreep t (ts.drop (i + 1)) hmem
      ((ts.take i).flatMap fun t => t.Pixels) (totalWidth (ts.take i)) hpre
    rw [← List.flatMap_append, ← totalWidth_append, ← hsplit, hwidth] at this
    exact this

/-- Witness of C29: the capture of the text 1^2 with the sample library is
recognized as 12, with one ignored glyph counted. -/
theorem recognize_round_trip_witness :
    recognize 3 (sampleMemory (ascii "1^2")) 0 3 15 0 1 = .ok (ascii "12", 1)
    ∧ findBitmap ((ascii "1^2").flatMap (List.replicate 13)) 3 1 0 sampleFont
        = .ok (some (glyph '^'.toNat)) :=
  ⟨(recognize_round_trip 3 (sampleMemory (ascii "1^2")) 0 3 15 0 1
      [glyph '1'.toNat, glyph '^'.toNat, glyph '2'.toNat] (by decide) (by decide) (by decide)
      (by decide) (by decide) (by decide)
      ((lineAsUint32_renderLine (ascii "1^2") 15).trans (by decide)) (by decide)).1,
    (recognize_round_trip 3 (sampleMemory (ascii "1^2")) 0 3 15 0 1
      [glyph '1'.toNat, glyph '^'.toNat, glyph '2'.toNat] (by decide) (by decide) (by decide)
      (by decide) (by decide) (by decide)
      ((lineAsUint32_renderLine (ascii "1^2") 15).trans (by decide)) (by decide)).2 1
      (glyph '^'.toNat) (by decide)⟩

/-! ## Lemmas on the end of the scan -/

theorem compareRows_error (pixels cells : List Nat) :
    ∀ (n fontOffset lineOffset : Nat) (e : Fault),
      compareRows pixels cells n fontOffset lineOffset = .error e → e = .indexOutOfRange := by
  intro n
  induction n with
  | zero => intro fo lo e h; cases h
  | succ n ih =>
    intro fo lo e h
    unfold compareRows at h
    cases hp : pixels.get? fo with
    | none => rw [hp] at h; cases h; rfl
    | some p =>
      rw [hp] at h
      cases hl : cells.get? lo with
      | none => rw [hl] at h; cases h; rfl
      | some l =>
        rw [hl] at h
        by_cases hpl : p = l
        · simp only [ne_eq, hpl, not_true_eq_false, if_false] at h
          exact ih _ _ _ h
        · simp only [ne_eq, hpl, not_false_eq_true, if_true] at h
          cases h

theorem findBitmap_result (cells : List Nat) (nof c : Nat) (pk : Int) :
    ∀ (lib : List bitmapSave),
      (∀ e, findBitmap cells nof c pk lib = .error e → e = .indexOutOfRange)
      ∧ ∀ b, findBitmap cells nof c pk lib = .ok (some b) → b ∈ lib := by
  intro lib
  induction lib with
  | nil =>
    exact ⟨fun e h => (by cases h), fun b h => (by cases h)⟩
  | cons a rest ih =>
    unfold findBitmap
    by_cases hfit : a.Width + c ≤ nof
    · rw [if_pos hfit]
      cases hcmp : compareColumns a.Pixels cells (compareWidth a pk) 0 (c * 13) with
      | error e0 =>
        refine ⟨fun e h => ?_, fun b h => by cases h⟩
        cases h
        rw [compareColumns_eq_compareRows] at hcmp
        exact compareRows_error _ _ _ _ _ _ hcmp
      | ok r =>
        cases r with
        | true =>
          refine ⟨fun e h => (by cases h), fun b h => ?_⟩
          cases h
          exact List.mem_cons_self _ _
        | false =>
          exact ⟨ih.1, fun b h => List.mem_cons_of_mem _ (ih.2 b h)⟩
    · rw [if_neg hfit]
      exact ⟨ih.1, fun b h => List.mem_cons_of_mem _ (ih.2 b h)⟩

/-- Where every template of the library is at least one column wide, the scan
ends within as many iterations as there are columns left. -/
theorem scanLine_ends (lib : List bitmapSave) (cells : List Nat) (nof : Nat) (pk g : Int)
    (hpos : ∀ b ∈ lib, 0 < b.Width) :
    ∀ (fuel c : Nat) (text : List Nat) (x : Nat), nof - c ≤ fuel →
      scanLine lib cells nof pk g fuel c text x ≠ .error .outOfFuel := by
  intro fuel
  induction fuel with
  | zero =>
    intro c text x hf
    rw [scanLine_done _ _ _ _ _ _ _ _ _ (by omega)]
    intro h
    cases h
  | succ fuel ih =>
    intro c text x hf
    by_cases hc : c < nof
    · rw [scanLine_step _ _ _ _ _ _ _ _ _ hc]
      have hres := findBitmap_result cells nof c pk lib
      cases hfind : findBitmap cells nof c pk lib with
      | error e =>
        intro h
        have := hres.1 e hfind
        cases h
        cases this
      | ok r =>
        cases r with
        | none => exact ih _ _ _ (by omega)
        | some b =>
          have := hpos b (hres.2 b hfind)
          exact ih _ _ _ (by omega)
    · rw [scanLine_done _ _ _ _ _ _ _ _ _ hc]
      intro h
      cases h

/-! ## Lemmas on the check of a decoded line -/

theorem checkLine_error (codeText rest : List Nat) (num : Int)
    (hc : ':'.toNat ∉ codeText) (ha : atoi codeText = some num) :
    checkLine (ascii "error" ++ ':'.toNat :: (codeText ++ ':'.toNat :: rest)) = .ok num := by
  have hsplit : stringsSplit ':'.toNat
      (ascii "error" ++ ':'.toNat :: (codeText ++ ':'.toNat :: rest))
        = ascii "error" :: codeText :: stringsSplit ':'.toNat rest := by
    rw [stringsSplit_append_sep _ _ _ (by decide), stringsSplit_append_sep _ _ _ hc]
  have hlen : ¬ (ascii "error" ++ ':'.toNat :: (codeText ++ ':'.toNat :: rest)).length < 5 := by
    rw [List.length_append]
    have : (ascii "error").length = 5 := by decide
    omega
  have htake : (ascii "error" ++ ':'.toNat :: (codeText ++ ':'.toNat :: rest)).take 5
      = ascii "error" := by
    rw [List.take_append_of_le_length (by decide)]
    decide
  unfold checkLine
  rw [if_neg hlen, if_pos htake]
  simp only [hsplit, List.length_cons, List.getD_cons_succ, List.getD_cons_zero, ha]
  rw [if_neg (by omega)]

theorem checkLine_record (p0 rest : List Nat) (h2 : p0.get? 2 = some ':'.toNat)
    (h5 : p0.get? 5 = some ':'.toNat) :
    checkLine (p0 ++ rest) = .ok conversionGood ∧ 5 ≤ (p0 ++ rest).length := by
  have hl : 5 < p0.length := by
    rcases lt_or_ge 5 p0.length with h | h
    · exact h
    · rw [List.get?_eq_none.2 h] at h5; cases h5
  have hlen : ¬ (p0 ++ rest).length < 5 := by
    rw [List.length_append]; omega
  have htake : (p0 ++ rest).take 5 ≠ ascii "error" := by
    intro h
    apply not_error_of_colon p0 rest h2
    rw [← h]
    exact List.take_prefix _ _
  refine ⟨?_, by omega⟩
  unfold checkLine
  rw [if_neg hlen, if_neg htake]

/-- The texts that the validation block can return: an error text with one of the
codes 2, 4, 5, 6, or a record whose first field holds colons at the places 2
and 5. -/
theorem validateLine_classes (lineNumber : Nat) (t : List Nat) (r : conversionResult)
    (hres : validateLine lineNumber t = .ok r) :
    (∃ code rest, code ∈ [conversionErrorOnlyFourDividers, conversionErrorWrongNumberOfSections,
          conversionErrorTimeFormatWrong, conversionErrorBlankLine]
        ∧ r.text = ascii "error" ++ ':'.toNat :: (itoa code ++ ':'.toNat :: rest))
    ∨ ∃ p0 rest, r.text = p0 ++ rest ∧ p0.get? 2 = some ':'.toNat
        ∧ p0.get? 5 = some ':'.toNat := by
  by_cases hne : t = []
  · subst hne
    rw [validateLine_nil] at hres
    cases hres
    exact Or.inl ⟨conversionErrorBlankLine, [], by decide,
      show ascii "error:6:" = _ by decide⟩
  by_cases hbars : t = ascii "||||"
  · subst hbars
    rw [validateLine_bars] at hres
    cases hres
    exact Or.inl ⟨conversionErrorOnlyFourDividers, [], by decide,
      show ascii "error:2:" = _ by decide⟩
  by_cases hn : (stringsSplit '|'.toNat t).length = 5
  · match hs : stringsSplit '|'.toNat t, hn with
    | [p0, p1, p2, p3, p4], _ =>
      rw [validateLine_fields lineNumber t p0 p1 p2 p3 p4 hbars hs] at hres
      cases h2 : p0.get? 2 with
      | none => rw [h2] at hres; cases hres
      | some c2 =>
        rw [h2] at hres
        by_cases e2 : c2 = ':'.toNat
        · simp only [e2, ne_eq, not_true_eq_false, if_false] at hres
          cases h5 : p0.get? 5 with
          | none => rw [h5] at hres; cases hres
          | some c5 =>
            rw [h5] at hres
            by_cases e5 : c5 = ':'.toNat
            · simp only [e5, ne_eq, not_true_eq_false, if_false] at hres
              cases hres
              exact Or.inr ⟨p0, ','.toNat :: joinFields ','.toNat [p1, p2, p3, p4], rfl,
                by rw [h2, e2], by rw [h5, e5]⟩
            · simp only [e5, ne_eq, not_false_eq_true, if_true] at hres
              cases hres
              exact Or.inl ⟨conversionErrorTimeFormatWrong, [], by decide,
            show ascii "error:5:" = _ by decide⟩
        · simp only [e2, ne_eq, not_false_eq_true, if_true] at hres
          cases hres
          exact Or.inl ⟨conversionErrorTimeFormatWrong, [], by decide,
            show ascii "error:5:" = _ by decide⟩
  · rw [validateLine_count lineNumber t hne hbars hn] at hres
    cases hres
    exact Or.inl ⟨conversionErrorWrongNumberOfSections,
      ascii "field count " ++ ascii (toString (stringsSplit '|'.toNat t).length),
      by decide, rfl⟩

theorem bitmapToString_ok_validate (fuel : Nat) (m : Memory) (lineNumber lineWidth height : Nat)
    (pk g : Int) (r : conversionResult)
    (hres : (bitmapToString fuel m lineNumber lineWidth height pk g).1 = .ok r) :
    ∃ t, validateLine lineNumber t = .ok r := by
  unfold bitmapToString at hres
  cases hrec : recognize fuel m lineNumber lineWidth height pk g with
  | error e => rw [hrec] at hres; cases hres
  | ok p =>
    obtain ⟨t, x⟩ := p
    rw [hrec] at hres
    exact ⟨t, hres⟩

/-! ## The claim on the check of a decoded line -/

/-- C28. Every text that bitmapToString returns has at least 5 bytes, and
checkLine classifies it: it returns conversionGood exactly for the texts that do
not begin with error, the records, whose third byte is a colon; for a text that
begins with error it returns the code written in it, one of 2, 4, 5 and 6; no
returned text carries the code 3, and checkLine neither stops the program with
one of its two code errors nor panics on the slice of the first 5 bytes. -/
theorem checkLine_classifies (fuel : Nat) (m : Memory) (lineNumber lineWidth height : Nat)
    (pk g : Int) (r : conversionResult)
    (hres : (bitmapToString fuel m lineNumber lineWidth height pk g).1 = .ok r) :
    5 ≤ r.text.length
    ∧ (checkLine r.text = .ok conversionGood ↔ ¬ (ascii "error" <+: r.text))
    ∧ (¬ (ascii "error" <+: r.text) → r.text.get? 2 = some ':'.toNat)
    ∧ (ascii "error" <+: r.text →
        ∃ code, code ∈ [conversionErrorOnlyFourDividers, conversionErrorWrongNumberOfSections,
            conversionErrorTimeFormatWrong, conversionErrorBlankLine]
          ∧ checkLine r.text = .ok (code : Int)
          ∧ ascii "error:" ++ itoa code ++ ascii ":" <+: r.text)
    ∧ ¬ (ascii "error:" ++ itoa conversionErrorUnknownPixel ++ ascii ":" <+: r.text)
    ∧ checkLine r.text ≠ .exit 1 ∧ checkLine r.text ≠ .exit 2
    ∧ checkLine r.text ≠ .panic := by
  obtain ⟨t, ht⟩ := bitmapToString_ok_validate fuel m lineNumber lineWidth height pk g r hres
  rcases validateLine_classes lineNumber t r ht with ⟨code, rest, hcode, htext⟩ | ⟨p0, rest, htext, h2, h5⟩
  · have herr : ascii "error" <+: r.text := by
      rw [htext]; exact List.prefix_append _ _
    have hpre : ascii "error:" ++ itoa code ++ ascii ":" <+: r.text := by
      rw [htext]
      exact ⟨rest, by simp [ascii]⟩
    have hcheck : checkLine r.text = .ok (code : Int) := by
      rw [htext]
      simp only [List.mem_cons, List.mem_singleton, List.not_mem_nil, or_false] at hcode
      rcases hcode with rfl | rfl | rfl | rfl
      · exact checkLine_error _ rest _ (by decide) (by decide)
      · exact checkLine_error _ rest _ (by decide) (by decide)
      · exact checkLine_error _ rest _ (by decide) (by decide)
      · exact checkLine_error _ rest _ (by decide) (by decide)
    have hne1 : (code : Int) ≠ (conversionGood : Int) := by
      simp only [List.mem_cons, List.mem_singleton, List.not_mem_nil, or_false] at hcode
      rcases hcode with rfl | rfl | rfl | rfl <;> decide
    have h3 : ¬ (ascii "error:" ++ itoa conversionErrorUnknownPixel ++ ascii ":" <+: r.text) := by
      intro h
      have hp : ascii "error:" ++ itoa conversionErrorUnknownPixel ++ ascii ":"
          <+: ascii "error:" ++ itoa code ++ ascii ":" := by
        apply List.prefix_of_prefix_length_le h hpre
        simp only [List.mem_cons, List.mem_singleton, List.not_mem_nil, or_false] at hcode
        rcases hcode with rfl | rfl | rfl | rfl <;> decide
      revert hp
      simp only [List.mem_cons, List.mem_singleton, List.not_mem_nil, or_false] at hcode
      rcases hcode with rfl | rfl | rfl | rfl <;> decide
    refine ⟨?_, ?_, fun h => absurd herr h, fun _ => ⟨code, hcode, hcheck, hpre⟩, h3, ?_, ?_, ?_⟩
    · have := hpre.length_le
      have h8 : 5 ≤ (ascii "error:" ++ itoa code ++ ascii ":").length := by
        rw [List.length_append, List.length_append]
        have : (ascii "error:").length = 6 := by decide
        omega
      omega
    · rw [hcheck]
      constructor
      · intro h
        cases h
        exact absurd rfl hne1
      · intro h
        exact absurd herr h
    · rw [hcheck]; intro h; cases h
    · rw [hcheck]; intro h; cases h
    · rw [hcheck]; intro h; cases h
  · obtain ⟨hcheck, hlen⟩ := checkLine_record p0 rest h2 h5
    have hnerr : ¬ (ascii "error" <+: r.text) := by
      rw [htext]; exact not_error_of_colon p0 rest h2
    rw [← htext] at hcheck hlen
    refine ⟨hlen, ⟨fun _ => hnerr, fun _ => hcheck⟩, fun _ => ?_, fun h => absurd h hnerr, ?_,
      ?_, ?_, ?_⟩
    · rw [htext, List.get?_eq_getElem?, List.getElem?_append_left, ← List.get?_eq_getElem?]
      · exact h2
      · rcases lt_or_ge 2 p0.length with h | h
        · exact h
        · rw [List.get?_eq_none.2 h] at h2; cases h2
    · intro h
      apply hnerr
      exact (show ascii "error" <+: ascii "error:" ++ itoa conversionErrorUnknownPixel
        ++ ascii ":" by decide).trans h
    · rw [hcheck]; intro h; cases h
    · rw [hcheck]; intro h; cases h
    · rw [hcheck]; intro h; cases h

/-- Witness of C28: the record decoded from the sample capture is classified as
good. -/
theorem checkLine_classifies_witness :
    5 ≤ (ascii "00:00:,,,,").length
    ∧ checkLine (ascii "00:00:,,,,") = .ok conversionGood
    ∧ checkLine (ascii "00:00:,,,,") ≠ .panic :=
  ⟨(checkLine_classifies 10 (sampleMemory (ascii "00:00:||||")) 0 10 15 1 1
      ⟨0, ascii "00:00:,,,,"⟩ sample_clock_result).1,
    (checkLine_classifies 10 (sampleMemory (ascii "00:00:||||")) 0 10 15 1 1
      ⟨0, ascii "00:00:,,,,"⟩ sample_clock_result).2.1.2 (by decide),
    (checkLine_classifies 10 (sampleMemory (ascii "00:00:||||")) 0 10 15 1 1
      ⟨0, ascii "00:00:,,,,"⟩ sample_clock_result).2.2.2.2.2.2.2⟩

/-! ## Lemmas on the single-line scroll loop -/

theorem singleTail_state (s : pagingState) (mX : Int) (ctrlC : Bool) :
    (singleTail s mX ctrlC).state = s := by
  unfold singleTail
  split <;> rfl

theorem resample_present (one : List Nat) (samples : Nat → Option (List Nat)) :
    ∀ (remaining m acc n : Nat), resample one samples remaining m acc = .ok n →
      ∀ j, m ≤ j → j < m + remaining → ∃ img, samples j = some img := by
  intro remaining
  induction remaining with
  | zero => intro m acc n _ j h1 h2; omega
  | succ r ih =>
    intro m acc n h j h1 h2
    unfold resample at h
    cases hm : samples m with
    | none => rw [hm] at h; cases h
    | some img =>
      rw [hm] at h
      by_cases hj : j = m
      · exact ⟨img, by rw [hj]; exact hm⟩
      · exact ih _ _ _ h j (by omega) (by omega)

theorem resample_count (one : List Nat) (samples : Nat → Option (List Nat)) :
    ∀ (remaining m acc : Nat),
      (∀ j, m ≤ j → j < m + remaining → ∃ img, samples j = some img) →
      ∃ n, resample one samples remaining m acc = .ok n ∧ acc ≤ n ∧ n ≤ acc + remaining
        ∧ (n = acc + remaining ↔ ∀ j, m ≤ j → j < m + remaining → samples j = some one) := by
  intro remaining
  induction remaining with
  | zero =>
    intro m acc _
    exact ⟨acc, rfl, le_refl _, le_refl _, ⟨fun _ j h1 h2 => by omega, fun _ => rfl⟩⟩
  | succ r ih =>
    intro m acc hall
    obtain ⟨img, hm⟩ := hall m (le_refl _) (by omega)
    unfold resample
    rw [hm]
    simp only
    obtain ⟨n, hn, hlo, hhi, hiff⟩ := ih (m + 1) (if one = img then acc + 1 else acc)
      (fun j h1 h2 => hall j (by omega) (by omega))
    refine ⟨n, hn, ?_, ?_, ?_⟩
    · split at hlo <;> omega
    · split at hhi <;> omega
    · by_cases hone : one = img
      · rw [if_pos hone] at hiff hlo hhi
        rw [show acc + (r + 1) = acc + 1 + r by omega, hiff]
        constructor
        · intro h j h1 h2
          by_cases hj : j = m
          · rw [hj, hm, hone]
          · exact h j (by omega) (by omega)
        · intro h j h1 h2
          exact h j (by omega) (by omega)
      · rw [if_neg hone] at hiff hlo hhi
        constructor
        · intro h; omega
        · intro h
          have := h m (le_refl _) (by omega)
          rw [hm] at this
          exact absurd (Option.some.inj this).symm hone

theorem resample_five (one : List Nat) (samples : Nat → Option (List Nat)) (n : Nat)
    (h : resample one samples 5 0 0 = .ok n) : n = 5 ↔ allAgree one samples := by
  have hp := resample_present one samples 5 0 0 n h
  obtain ⟨n1, hn1, _, _, hiff⟩ := resample_count one samples 5 0 0 hp
  rw [h] at hn1
  cases hn1
  rw [show (5 : Nat) = 0 + 5 by rfl]
  rw [hiff]
  unfold allAgree
  constructor
  · intro hh m hm; exact hh m (Nat.zero_le _) (by omega)
  · intro hh j _ hj; exact hh j (by omega)

/-! ## The claim on the single-line scroll loop -/

/-- C25. In a pass of the single-line scroll loop the list of lines changes only
when the capture of the page differs from the reference and all 5 captures of
the last line that follow the first one equal the first one. In that case, when
the line decodes to a good record, exactly that record is appended, the
same-count becomes 0 and the reference becomes the new capture. When all 5
captures were taken and not all of them agree, the line is not decoded (the pass
does not depend on the decoder), nothing is appended, the reference is as it was
and the same-count is increased by 1. -/
theorem singleStep_decodes (decodeLine : List Nat → Except Fault conversionResult)
    (topWidth : Nat) (s : pagingState) (input : singleInput) :
    ((singleStep decodeLine topWidth s input).state.allLines ≠ s.allLines →
        ∃ new one, input.newxImg = some new ∧ new ≠ s.lastxImg
          ∧ input.oneLinexImg = some one ∧ allAgree one input.oneLinexImg2)
    ∧ (∀ new one r, input.newxImg = some new → new ≠ s.lastxImg →
        input.oneLinexImg = some one → allAgree one input.oneLinexImg2 →
        decodeLine one = .ok r → checkLine r.text = .ok conversionGood →
        (singleStep decodeLine topWidth s input).state.allLines = s.allLines ++ [r.text]
        ∧ (singleStep decodeLine topWidth s input).state.sameCount = 0
        ∧ (singleStep decodeLine topWidth s input).state.lastxImg = new)
    ∧ (∀ new one, input.newxImg = some new → new ≠ s.lastxImg →
        input.oneLinexImg = some one →
        (∀ m, m < 5 → ∃ img, input.oneLinexImg2 m = some img) →
        ¬ allAgree one input.oneLinexImg2 →
        (singleStep decodeLine topWidth s input).state.allLines = s.allLines
        ∧ (singleStep decodeLine topWidth s input).state.lastxImg = s.lastxImg
        ∧ (singleStep decodeLine topWidth s input).state.sameCount = s.sameCount + 1
        ∧ ∀ other, singleStep other topWidth s input
            = singleStep decodeLine topWidth s input) := by
  refine ⟨?_, ?_, ?_⟩
  · intro hchange
    unfold singleStep at hchange
    cases hnew : input.newxImg with
    | none => rw [hnew] at hchange; exact absurd rfl hchange
    | some new =>
      rw [hnew] at hchange
      simp only at hchange
      by_cases href : s.lastxImg = new
      · rw [if_pos href] at hchange
        exfalso
        apply hchange
        split
        · rfl
        · rw [singleTail_state]
      · rw [if_neg href] at hchange
        cases hone : input.oneLinexImg with
        | none => rw [hone] at hchange; exact absurd rfl hchange
        | some one =>
          rw [hone] at hchange
          simp only at hchange
          cases hres : resample one input.oneLinexImg2 5 0 0 with
          | exit code => rw [hres] at hchange; exact absurd rfl hchange
          | panic => rw [hres] at hchange; exact absurd rfl hchange
          | ok n =>
            rw [hres] at hchange
            simp only at hchange
            by_cases hn : n = 5
            · exact ⟨new, one, rfl, fun h => href h.symm, rfl,
                (resample_five one input.oneLinexImg2 n hres).1 hn⟩
            · rw [if_neg hn] at hchange
              exfalso
              apply hchange
              rw [singleTail_state]
  · intro new one r hnew href hone hagree hdec hcheck
    have hres : resample one input.oneLinexImg2 5 0 0 = .ok 5 := by
      obtain ⟨n, hn, _, _, hiff⟩ := resample_count one input.oneLinexImg2 5 0 0
        (fun j _ hj => ⟨one, hagree j (by omega)⟩)
      rw [hn]
      congr 1
      exact hiff.2 (fun j _ hj => hagree j (by omega))
    unfold singleStep
    rw [hnew]
    simp only
    rw [if_neg (fun h => href h.symm), hone]
    simp only
    rw [hres]
    simp only [if_true, hdec, hcheck]
    rw [if_neg (by simp)]
    cases readUint32 one ((3 * topWidth + 100) * 4) with
    | error e => exact ⟨rfl, rfl, rfl⟩
    | ok pixColour =>
      simp only
      split
      · exact ⟨rfl, rfl, rfl⟩
      · rw [singleTail_state]
        exact ⟨rfl, rfl, rfl⟩
  · intro new one hnew href hone hpresent hnot
    obtain ⟨n, hn, _, _, hiff⟩ := resample_count one input.oneLinexImg2 5 0 0
      (fun j _ hj => hpresent j (by omega))
    have hne : n ≠ 5 := by
      intro h5
      exact hnot ((resample_five one input.oneLinexImg2 n hn).1 h5)
    have hstep : ∀ d, singleStep d topWidth s input
        = singleTail { s with sameCount := s.sameCount + 1 } input.mX input.ctrlC := by
      intro d
      unfold singleStep
      rw [hnew]
      simp only
      rw [if_neg (fun h => href h.symm), hone]
      simp only
      rw [hn]
      simp only
      rw [if_neg hne]
    rw [hstep decodeLine, singleTail_state]
    exact ⟨rfl, rfl, rfl, fun other => hstep other⟩

theorem sampleLineDecode_eq (text : List Nat) :
    sampleLineDecode (renderLine text) = (bitmapToString 10 (sampleMemory text) 0 10 15 1 1).1 :=
  rfl

theorem sampleLineDecode_clock :
    sampleLineDecode (renderLine (ascii "00:00:||||")) = .ok ⟨0, ascii "00:00:,,,,"⟩ :=
  (sampleLineDecode_eq (ascii "00:00:||||")).trans sample_clock_result

/-- Witness of C25: the page changed and the five captures of the last line
agree with the first one, a capture of a record line; the record is appended,
the same-count is 0 and the reference is the new capture. -/
theorem singleStep_decodes_witness :
    (singleStep sampleLineDecode 10 ⟨[0], 3, 0, [], 0, 0, 0⟩
        (singlePass [1] (renderLine (ascii "00:00:||||"))
          (fun _ => some (renderLine (ascii "00:00:||||"))))).state.allLines
      = [] ++ [ascii "00:00:,,,,"]
    ∧ (singleStep sampleLineDecode 10 ⟨[0], 3, 0, [], 0, 0, 0⟩
        (singlePass [1] (renderLine (ascii "00:00:||||"))
          (fun _ => some (renderLine (ascii "00:00:||||"))))).state.sameCount = 0
    ∧ (singleStep sampleLineDecode 10 ⟨[0], 3, 0, [], 0, 0, 0⟩
        (singlePass [1] (renderLine (ascii "00:00:||||"))
          (fun _ => some (renderLine (ascii "00:00:||||"))))).state.lastxImg = [1] :=
  (singleStep_decodes sampleLineDecode 10 ⟨[0], 3, 0, [], 0, 0, 0⟩
    (singlePass [1] (renderLine (ascii "00:00:||||"))
      (fun _ => some (renderLine (ascii "00:00:||||"))))).2.1
    [1] (renderLine (ascii "00:00:||||")) ⟨0, ascii "00:00:,,,,"⟩ rfl (by decide) rfl
    (fun _ _ => rfl) sampleLineDecode_clock (by decide)

/-! ## Lemmas on the output in file order and on the trailing lines -/

theorem appendReversed_eq (lines : List (List Nat)) :
    ∀ (i : Nat) (out : List (List Nat)), i ≤ lines.length →
      appendReversed lines i out = .ok (out ++ (lines.take i).reverse) := by
  intro i
  induction i with
  | zero => intro out _; simp [appendReversed]
  | succ i ih =>
    intro out hi
    have hl : i < lines.length := by omega
    unfold appendReversed
    rw [List.get?_eq_get hl]
    simp only
    have e : List.take (i + 1) lines = List.take i lines ++ [lines[i]] := by
      rw [List.take_succ, List.getElem?_eq_getElem hl]
      rfl
    rw [ih _ (by omega), e, List.reverse_append]
    simp [List.get_eq_getElem]

theorem reverseLines_eq (allLines : List (List Nat)) :
    reverseLines allLines = .ok allLines.reverse := by
  unfold reverseLines
  rw [appendReversed_eq allLines allLines.length [] (le_refl _), List.take_length]
  rfl

theorem sampleLine_total (decodeLine : List Nat → Except Fault conversionResult)
    (s s1 : trailingState) (capture : Option (List Nat))
    (h : sampleLine decodeLine s capture = .ok s1) :
    s1.totalLastLines = s.totalLastLines + 1 ∧ s1.lastLines.length = s.lastLines.length + 1 := by
  unfold sampleLine at h
  cases capture with
  | none => cases h
  | some img =>
    simp only at h
    cases hd : decodeLine img with
    | error e => rw [hd] at h; cases h
    | ok r =>
      rw [hd] at h
      simp only at h
      cases hc : checkLine r.text with
      | panic => rw [hc] at h; cases h
      | exit code => rw [hc] at h; cases h
      | ok num =>
        rw [hc] at h
        simp only at h
        split at h
        · cases h
          simp
        · cases h

theorem samplePage_total (decodeLine : List Nat → Except Fault conversionResult)
    (captures : Nat → Option (List Nat)) :
    ∀ (n : Nat) (s s1 : trailingState), samplePage decodeLine captures n s = .ok s1 →
      s1.totalLastLines = s.totalLastLines + n
      ∧ s1.lastLines.length = s.lastLines.length + n := by
  intro n
  induction n with
  | zero =>
    intro s s1 h
    cases h
    exact ⟨rfl, rfl⟩
  | succ n ih =>
    intro s s1 h
    unfold samplePage at h
    cases hl : sampleLine decodeLine s (captures n) with
    | panic => rw [hl] at h; cases h
    | exit code => rw [hl] at h; cases h
    | ok s2 =>
      rw [hl] at h
      have h1 := sampleLine_total decodeLine s s2 _ hl
      have h2 := ih s2 s1 h
      omega

theorem sampleLastPages_total (decodeLine : List Nat → Except Fault conversionResult)
    (captures : Nat → Nat → Option (List Nat)) :
    ∀ (n : Nat) (s s1 : trailingState), sampleLastPages decodeLine captures n s = .ok s1 →
      s1.totalLastLines = s.totalLastLines + linesShown * n
      ∧ s1.lastLines.length = s.lastLines.length + linesShown * n := by
  intro n
  induction n with
  | zero =>
    intro s s1 h
    cases h
    exact ⟨rfl, rfl⟩
  | succ n ih =>
    intro s s1 h
    unfold sampleLastPages at h
    cases hp : samplePage decodeLine (captures (n + 1)) linesShown s with
    | panic => rw [hp] at h; cases h
    | exit code => rw [hp] at h; cases h
    | ok s2 =>
      rw [hp] at h
      have h1 := samplePage_total decodeLine _ linesShown s s2 hp
      have h2 := ih s2 s1 h
      rw [Nat.mul_succ]
      omega

/-- Where every capture decodes to the good text `text`, the sampling of a page
appends `n` times that text. -/
theorem samplePage_good (decodeLine : List Nat → Except Fault conversionResult)
    (captures : Nat → Option (List Nat)) (img text : List Nat) (index : Nat)
    (hcap : ∀ l, captures l = some img) (hdec : decodeLine img = .ok ⟨index, text⟩)
    (hgood : checkLine text = .ok conversionGood) :
    ∀ (n : Nat) (s : trailingState),
      samplePage decodeLine captures n s
        = .ok ⟨s.lastLines ++ List.replicate n text, s.totalLastLines + n⟩ := by
  intro n
  induction n with
  | zero => intro s; simp [samplePage]
  | succ n ih =>
    intro s
    unfold samplePage sampleLine
    rw [hcap n]
    simp only [hdec, hgood, if_true]
    rw [ih]
    simp only [List.append_assoc, List.singleton_append, List.replicate_succ, Nat.add_assoc,
      Nat.add_comm 1 n]

theorem sampleLastPages_good (decodeLine : List Nat → Except Fault conversionResult)
    (captures : Nat → Nat → Option (List Nat)) (img text : List Nat) (index : Nat)
    (hcap : ∀ p l, captures p l = some img) (hdec : decodeLine img = .ok ⟨index, text⟩)
    (hgood : checkLine text = .ok conversionGood) :
    ∀ (n : Nat) (s : trailingState),
      sampleLastPages decodeLine captures n s
        = .ok ⟨s.lastLines ++ List.replicate (linesShown * n) text,
            s.totalLastLines + linesShown * n⟩ := by
  intro n
  induction n with
  | zero => intro s; simp [sampleLastPages]
  | succ n ih =>
    intro s
    unfold sampleLastPages
    rw [samplePage_good decodeLine (captures (n + 1)) img text index (hcap (n + 1)) hdec hgood]
    simp only
    rw [ih]
    simp only [List.append_assoc, ← List.replicate_add, Nat.mul_succ, Nat.add_assoc,
      Nat.add_comm linesShown]


theorem verifyFrom_past_end (lastLines allLinesReverse : List (List Nat)) :
    ∀ (remaining i : Nat), i ≤ allLinesReverse.length →
      allLinesReverse.length < i + remaining → i + remaining ≤ lastLines.length →
      (∀ j, i ≤ j → j < allLinesReverse.length →
        lastLines.get? j = allLinesReverse.get? j) →
      verifyFrom lastLines allLinesReverse remaining i = .panic := by
  intro remaining
  induction remaining with
  | zero => intro i h1 h2; omega
  | succ r ih =>
    intro i h1 h2 h3 hagree
    have hi : i < lastLines.length := by omega
    unfold verifyFrom
    rw [List.get?_eq_get hi]
    simp only
    by_cases hlt : i < allLinesReverse.length
    · have := hagree i (le_refl _) hlt
      rw [List.get?_eq_get hi, List.get?_eq_get hlt] at this
      rw [List.get?_eq_get hlt]
      simp only [ne_eq, Option.some.inj this, not_true_eq_false, if_false]
      exact ih (i + 1) (by omega) (by omega) (by omega)
        (fun j h4 h5 => hagree j (by omega) h5)
    · rw [List.get?_eq_none.2 (by omega)]

/-! ## The claims on the output in file order and on the trailing comparison -/

/-- C21. The loop of lines 1287-1292 returns the accumulated list in the
opposite order: same length n, the entry i is the entry n-1-i of the accumulated
list, for every i below n. The loop of the mock display that puts the lines of
the file in display order is the same loop, so the output of the extractor for
the lines as the mock display holds them is the list of the lines of the file,
in file order. -/
theorem reverseLines_reverses (allLines : List (List Nat)) :
    ∃ allLinesReverse, reverseLines allLines = .ok allLinesReverse
      ∧ allLinesReverse.length = allLines.length
      ∧ (∀ i, i < allLines.length →
          allLinesReverse.get? i = allLines.get? (allLines.length - 1 - i))
      ∧ allLinesReverse = allLines.reverse
      ∧ ∃ shown, mockReverseLines allLines = .ok shown ∧ reverseLines shown = .ok allLines := by
  refine ⟨allLines.reverse, reverseLines_eq allLines, List.length_reverse _, ?_, rfl,
    allLines.reverse, reverseLines_eq allLines, ?_⟩
  · intro i hi
    rw [List.get?_eq_getElem?, List.get?_eq_getElem?, List.getElem?_reverse hi]
  · rw [reverseLines_eq, List.reverse_reverse]

/-- C30, at the failing input. With CheckLastButOnePage = 1 the trailing lines
are sampled from two pages, so totalLastLines is 2 * 50 = 100. When the
accumulated list holds the 50 lines of the first page only, and the first 50
sampled lines agree with the output, the comparison reads the entry 50 of the
output, which has 50 entries: the run ends in a panic. -/
theorem trailingCheck_reads_past_end
    (decodeLine : List Nat → Except Fault conversionResult)
    (captures : Nat → Nat → Option (List Nat)) (allLines : List (List Nat))
    (s : trailingState)
    (hsample : sampleLastPages decodeLine captures (nofLastPages 1) ⟨[], 0⟩ = .ok s)
    (hlen : allLines.length = linesShown)
    (hagree : ∀ i, i < linesShown → s.lastLines.get? i = allLines.reverse.get? i) :
    s.totalLastLines = 100 ∧ s.lastLines.length = 100
    ∧ (∃ allLinesReverse, reverseLines allLines = .ok allLinesReverse
        ∧ allLinesReverse.length = 50)
    ∧ trailingCheck decodeLine 1 captures allLines = .ok .panic := by
  obtain ⟨ht, hl⟩ := sampleLastPages_total decodeLine captures _ _ s hsample
  have ht2 : s.totalLastLines = 100 := by rw [ht]; rfl
  have hl2 : s.lastLines.length = 100 := by rw [hl]; rfl
  have hlen2 : allLines.reverse.length = 50 := by rw [List.length_reverse, hlen]; rfl
  refine ⟨ht2, hl2, ⟨allLines.reverse, reverseLines_eq allLines, hlen2⟩, ?_⟩
  unfold trailingCheck
  rw [hsample]
  simp only [reverseLines_eq]
  congr 1
  unfold verifyLastLines
  apply verifyFrom_past_end
  · omega
  · omega
  · omega
  · intro j _ hj
    exact hagree j (by rw [hlen2] at hj; exact hj)

/-- Witness of C30: a document of 50 equal record lines, all on the first page;
every capture of a line shows that record. -/
theorem trailingCheck_reads_past_end_witness :
    trailingCheck sampleLineDecode 1 (fun _ _ => some (renderLine (ascii "00:00:||||")))
        (List.replicate 50 (ascii "00:00:,,,,")) = .ok .panic :=
  (trailingCheck_reads_past_end sampleLineDecode
    (fun _ _ => some (renderLine (ascii "00:00:||||")))
    (List.replicate 50 (ascii "00:00:,,,,"))
    ⟨List.replicate 100 (ascii "00:00:,,,,"), 100⟩
    ((sampleLastPages_good sampleLineDecode
      (fun _ _ => some (renderLine (ascii "00:00:||||"))) (renderLine (ascii "00:00:||||"))
      (ascii "00:00:,,,,") 0 (fun _ _ => rfl) sampleLineDecode_clock (by decide) 2
      ⟨[], 0⟩).trans rfl)
    (by simp [linesShown])
    (by
      intro i hi
      have hi2 : i < 50 := hi
      simp only [List.reverse_replicate, List.get?_eq_getElem?]
      rw [List.getElem?_replicate, List.getElem?_replicate, if_pos hi2, if_pos (by omega)])).2.2.2

/-! ## Lemmas on the admission of the workers -/

theorem gateStep_invariant (k lines : Nat) (s s1 : gateState) (event : gateEvent)
    (hinv : s.decoding.length + s.releasing.length = s.tokens ∧ s.tokens ≤ k)
    (h : gateStep k lines s event = some s1) :
    s1.decoding.length + s1.releasing.length = s1.tokens ∧ s1.tokens ≤ k := by
  obtain ⟨h1, h2⟩ := hinv
  cases event with
  | enter =>
    simp only [gateStep] at h
    split at h
    · rename_i hc
      cases h
      simp only [List.length_cons]
      omega
    · cases h
  | finish line =>
    simp only [gateStep] at h
    split at h
    · rename_i hc
      cases h
      have hpos : 0 < s.decoding.length := List.length_pos_of_mem hc
      simp only [List.length_cons, List.length_erase_of_mem hc]
      omega
    · cases h
  | release line =>
    simp only [gateStep] at h
    split at h
    · rename_i hc
      cases h
      have hpos : 0 < s.releasing.length := List.length_pos_of_mem hc.1
      simp only [List.length_erase_of_mem hc.1]
      omega
    · cases h
  | nextPage =>
    simp only [gateStep] at h
    split at h
    · cases h
      exact ⟨h1, h2⟩
    · cases h

theorem gateRun_cons (k lines : Nat) (s : gateState) (event : gateEvent)
    (rest : List gateEvent) :
    gateRun k lines s (event :: rest)
      = match gateStep k lines s event with
        | none => none
        | some s1 => gateRun k lines s1 rest :=
  rfl

theorem gateRun_invariant (k lines : Nat) :
    ∀ (events : List gateEvent) (s s1 : gateState),
      s.decoding.length + s.releasing.length = s.tokens ∧ s.tokens ≤ k →
      gateRun k lines s events = some s1 →
      s1.decoding.length + s1.releasing.length = s1.tokens ∧ s1.tokens ≤ k := by
  intro events
  induction events with
  | nil =>
    intro s s1 hinv h
    cases h
    exact hinv
  | cons event rest ih =>
    intro s s1 hinv h
    rw [gateRun_cons] at h
    cases hstep : gateStep k lines s event with
    | none => rw [hstep] at h; cases h
    | some s2 =>
      rw [hstep] at h
      exact ih s2 s1 (gateStep_invariant k lines s s2 event hinv hstep) h

theorem gateRun_append (k lines : Nat) :
    ∀ (pre post : List gateEvent) (s : gateState),
      gateRun k lines s (pre ++ post)
        = match gateRun k lines s pre with
          | none => none
          | some s1 => gateRun k lines s1 post := by
  intro pre
  induction pre with
  | nil => intro post s; rfl
  | cons event rest ih =>
    intro post s
    rw [List.cons_append, gateRun_cons, gateRun_cons]
    cases gateStep k lines s event with
    | none => rfl
    | some s2 => exact ih post s2

theorem gateRun_enter (k lines : Nat) :
    ∀ (j : Nat), j ≤ k → j ≤ lines →
      gateRun k lines gateStart (List.replicate j .enter)
        = some ⟨j, j, (List.range j).reverse, []⟩ := by
  intro j
  induction j with
  | zero => intro _ _; rfl
  | succ j ih =>
    intro hk hl
    rw [List.replicate_succ', gateRun_append, ih (by omega) (by omega)]
    simp only [gateRun, gateStep]
    rw [if_pos ⟨by omega, by omega⟩]
    simp [List.range_succ]

/-! ## The claim on the admission of the workers -/

/-- C22. The channel semaphoreChan has the capacity k. Whatever steps the
goroutines of the page decodes have taken, at every moment the workers that
have been started and have not yet freed their slot are as many as there are
values in the channel, at most k; so at most k workers are decoding at the same
time. With more than k lines the bound is reached: after k workers were started
the send of main blocks until a worker has ended. -/
theorem gateRun_bounded (k lines : Nat) (events : List gateEvent) (s : gateState)
    (h : gateRun k lines gateStart events = some s) :
    (∀ pre post, events = pre ++ post →
      ∃ s0, gateRun k lines gateStart pre = some s0
        ∧ s0.decoding.length + s0.releasing.length = s0.tokens ∧ s0.tokens ≤ k
        ∧ s0.decoding.length ≤ k)
    ∧ (k < lines →
      ∃ s1, gateRun k lines gateStart (List.replicate k .enter) = some s1
        ∧ s1.decoding.length = k ∧ gateStep k lines s1 .enter = none) := by
  constructor
  · intro pre post he
    rw [he, gateRun_append] at h
    cases hpre : gateRun k lines gateStart pre with
    | none => rw [hpre] at h; cases h
    | some s0 =>
      have hinv := gateRun_invariant k lines pre gateStart s0 ⟨rfl, Nat.zero_le k⟩ hpre
      exact ⟨s0, rfl, hinv.1, hinv.2, by omega⟩
  · intro hk
    refine ⟨_, gateRun_enter k lines k (le_refl _) (by omega), by simp, ?_⟩
    simp [gateStep]

/-- Witness of C22: a channel of capacity 2 and a page of 3 lines. Two workers
are started, the worker of the line 0 ends, the third worker is started. -/
theorem gateRun_bounded_witness :
    ∃ s0, gateRun 2 3 gateStart [.enter, .enter, .finish 0, .release 0, .enter] = some s0
      ∧ s0.decoding.length + s0.releasing.length = s0.tokens ∧ s0.tokens ≤ 2
      ∧ s0.decoding.length ≤ 2 :=
  (gateRun_bounded 2 3 [.enter, .enter, .finish 0, .release 0, .enter] ⟨3, 2, [2, 1], []⟩
    (by decide)).1 [.enter, .enter, .finish 0, .release 0, .enter] [] (by decide)

end BitmapTextScrape
